import Mathlib

/-! The flatcc command line front end.

A shallow embedding of `src/cli/flatcc_cli.c`: the option parser
(`parse_bool_arg`, `match_long_arg`, `set_opt`, `get_opt`) and the driver
(`main`) with its flag loop and its per-file batch loop.

Conventions of the embedding.

* A C string is the list of its characters before the terminating NUL; a
  `const char *` that may be NULL is an `Option`.
* `exit(n)` inside the parser is the `Exec.exit` outcome, carrying what was
  printed on the way out.
* The compiler backend (`flatcc_create_context`, `flatcc_parse_file`,
  `flatcc_generate_files`, `flatcc_destroy_context`) is external: it is a
  record of state transformers over an arbitrary hidden state, and `main`
  records every call it makes, with the value the backend returned.
* `FLATCC_REFLECTION` comes from `config.h`, which is not part of the
  sources at hand; it is a parameter `reflection` of every function whose
  text it changes.
-/

namespace Flatcc

/-- C string: the characters before the terminating NUL. -/
abbrev CStr := List Char

/-- The anonymous enum of the source: noarg, suffixarg, nextarg. -/
inductive ArgKind
  | noarg
  | suffixarg
  | nextarg
  deriving DecidableEq

/-- The fields of `flatcc_options_t` that the command line front end reads or
writes. Flags used only as truth values are `Bool`; the two fields that
receive the result of `parse_bool_arg` are integers. The field
`cgen_json_parser_flag` is the source's `cgen_json_parser`. -/
structure Options where
  inpaths : List CStr
  inpath_count : Nat
  outpath : Option CStr
  ns : Option CStr
  nsc : Option CStr
  gen_stdout : Bool
  bgen_bfbs : Bool
  bgen_qualify_names : Int
  bgen_length_prefix : Int
  cgen_reader : Bool
  cgen_builder : Bool
  cgen_verifier : Bool
  cgen_common_reader : Bool
  cgen_common_builder : Bool
  cgen_json_parser_flag : Bool
  cgen_json_printer : Bool
  cgen_recursive : Bool
  deriving DecidableEq

/-- Modelled from the spec: `flatcc_init_options` lives in the flatcc library,
not in the command line source. The spec (4.1) says it produces a record with
all booleans false, all optional strings absent and an empty path sequence. -/
def flatcc_init_options : Options :=
  { inpaths := []
    inpath_count := 0
    outpath := none
    ns := none
    nsc := none
    gen_stdout := false
    bgen_bfbs := false
    bgen_qualify_names := 0
    bgen_length_prefix := 0
    cgen_reader := false
    cgen_builder := false
    cgen_verifier := false
    cgen_common_reader := false
    cgen_common_builder := false
    cgen_json_parser_flag := false
    cgen_json_printer := false
    cgen_recursive := false }

/-- The two output streams the program writes to. -/
inductive Stream
  | stdout
  | stderr
  deriving DecidableEq

/-- One constructor per piece of text the program prints. The static help and
usage texts are not spelled out. -/
inductive Msg
  | help
  | usage
  | version
  | invalid_boolean (a : CStr)
  | needs_argument (opt : CStr)
  | invalid_option_str (s : CStr)
  | invalid_option_chr (c : Char)
  | dash_not_valid
  | outpath_once
  | stdout_with_outpath
  | filename_missing
  | mixed_output
  | output_failed
  deriving DecidableEq

/-- Outcome of a parser function: it returns a value, or it calls `exit` after
printing, or (flag loop only) the iteration budget of the model ran out. -/
inductive Exec (α : Type)
  | ret (a : α)
  | exit (status : Int) (out : List (Stream × Msg))
  | fuel_out
  deriving DecidableEq

/-- An opaque `flatcc_context_t` handle. -/
abbrev Ctx := Nat

/-- The external compiler backend over a hidden state `σ`. -/
structure Backend (σ : Type) where
  create_context : Options → Option CStr → σ → Ctx × σ
  parse_file : Ctx → CStr → σ → Int × σ
  generate_files : Ctx → σ → Int × σ
  destroy_context : Ctx → σ → σ

/-- What a run of `main` does that can be seen from outside, in order. -/
inductive Event
  | print (fp : Stream) (m : Msg)
  | create (opts : Options) (name : Option CStr) (ctx : Ctx)
  | parse (ctx : Ctx) (name : CStr) (ret : Int)
  | generate (ctx : Ctx) (ret : Int)
  | destroy (ctx : Ctx)
  deriving DecidableEq

/-- A finished run: the process exit status and the events in order. -/
structure Run where
  status : Int
  events : List Event
  deriving DecidableEq

/-- The result of `parse_bool_arg`: 0, 1, or -1 after a diagnostic. -/
def parse_bool_arg (a : CStr) : Int :=
  if a = ['0'] ∨ a = ['n', 'o'] then 0
  else if a = ['1'] ∨ a = ['y', 'e', 's'] then 1
  else -1

/-- Whether `strncmp(x, y, n) == 0`. -/
def strncmp_eq : CStr → CStr → Nat → Bool
  | _, _, 0 => true
  | [], [], _ + 1 => true
  | c :: x, d :: y, n + 1 => c == d && strncmp_eq x y n
  | _, _, _ + 1 => false

/-- The result of `strchr(s, c)` for a non-NUL `c`: the tail of `s` that starts
at the first `c`, or NULL. -/
def strchr : CStr → Char → Option CStr
  | [], _ => none
  | x :: xs, c => if x = c then some (x :: xs) else strchr xs c

/-- The source's `match_long_arg`. -/
def match_long_arg (option : CStr) (s : CStr) (n : Nat) : Bool :=
  strncmp_eq option s n && option.length == n

/-- The value of `a` in `set_opt` after `if (v) a = v + 1`, where
`v = strchr(s, '=')`: the text after the first `=` of `s` if there is one, else
the next token passed in. -/
def arg_after_eq (s : CStr) (a0 : Option CStr) : Option CStr :=
  match strchr s '=' with
  | some w => some w.tail
  | none => a0

/-- The value of `n` in `set_opt`: `v - s` if `s` has a `=`, else `strlen(s)`. -/
def name_len (s : CStr) : Nat :=
  match strchr s '=' with
  | some w => s.length - w.length
  | none => s.length

/-- The expression `v ? noarg : nextarg` of `set_opt`. -/
def long_arg_kind (s : CStr) : ArgKind :=
  if (strchr s '=').isSome then ArgKind.noarg else ArgKind.nextarg

/-- The `switch (*s)` at the end of `set_opt`; `a` is the value of the local `a`
at that point. -/
def set_opt_switch (opts : Options) (s : CStr) (a : Option CStr) : Exec (Options × ArgKind) :=
  match s with
  | '-' :: _ => Exec.exit (-1) [(Stream.stderr, Msg.invalid_option_str s)]
  | 'I' :: t =>
    if t ≠ [] then
      Exec.ret ({ opts with inpaths := opts.inpaths ++ [t],
                            inpath_count := opts.inpath_count + 1 }, ArgKind.suffixarg)
    else
      match a with
      | none => Exec.exit (-1) [(Stream.stderr, Msg.needs_argument ['-', 'I'])]
      | some x =>
        Exec.ret ({ opts with inpaths := opts.inpaths ++ [x],
                              inpath_count := opts.inpath_count + 1 }, ArgKind.nextarg)
  | 'o' :: t =>
    if opts.outpath.isSome then Exec.exit (-1) [(Stream.stderr, Msg.outpath_once)]
    else if t ≠ [] then
      Exec.ret ({ opts with outpath := some t }, ArgKind.suffixarg)
    else
      match a with
      | none => Exec.exit (-1) [(Stream.stderr, Msg.needs_argument ['-', 'o'])]
      | some x => Exec.ret ({ opts with outpath := some x }, ArgKind.nextarg)
  | 'w' :: _ => Exec.ret ({ opts with cgen_builder := true }, ArgKind.noarg)
  | 'v' :: _ => Exec.ret ({ opts with cgen_verifier := true }, ArgKind.noarg)
  | 'c' :: _ => Exec.ret ({ opts with cgen_common_reader := true }, ArgKind.noarg)
  | 'r' :: _ => Exec.ret ({ opts with cgen_recursive := true }, ArgKind.noarg)
  | 'a' :: _ =>
    Exec.ret ({ opts with cgen_builder := true, cgen_verifier := true,
                          cgen_common_reader := true, cgen_recursive := true },
              ArgKind.noarg)
  | c :: _ => Exec.exit (-1) [(Stream.stderr, Msg.invalid_option_chr c)]
  | [] => Exec.exit (-1) [(Stream.stderr, Msg.invalid_option_chr (Char.ofNat 0))]

/-- A value-taking long option of `set_opt`: exit when there is no value, else
store it. -/
def set_long_value (name : CStr) (store : CStr → Options) (s : CStr) (a : Option CStr) :
    Exec (Options × ArgKind) :=
  match a with
  | none => Exec.exit (-1) [(Stream.stderr, Msg.needs_argument name)]
  | some x => Exec.ret (store x, long_arg_kind s)

/-- A boolean-valued long option of `set_opt`: exit when there is no value or
when `parse_bool_arg` rejects it, else store the integer. -/
def set_long_bool (name : CStr) (store : Int → Options) (s : CStr) (a : Option CStr) :
    Exec (Options × ArgKind) :=
  match a with
  | none => Exec.exit (-1) [(Stream.stderr, Msg.needs_argument name)]
  | some x =>
    if 0 > parse_bool_arg x then Exec.exit (-1) [(Stream.stderr, Msg.invalid_boolean x)]
    else Exec.ret (store (parse_bool_arg x), long_arg_kind s)

/-- The source's `set_opt`. `s` points into the current token, `a0` is the next
token or NULL. -/
def set_opt (reflection : Bool) (opts : Options) (s : CStr) (a0 : Option CStr) :
    Exec (Options × ArgKind) :=
  if s.head? = some 'h' ∨ s = "-help".toList then
    Exec.exit 0 [(Stream.stdout, Msg.help)]
  else if s = "-version".toList then
    Exec.exit 0 [(Stream.stderr, Msg.version)]
  else if s = "-stdout".toList then
    Exec.ret ({ opts with gen_stdout := true }, ArgKind.noarg)
  else if reflection = true ∧ s = "-schema".toList then
    Exec.ret ({ opts with bgen_bfbs := true }, ArgKind.noarg)
  else if s = "-json-parser".toList then
    Exec.ret ({ opts with cgen_json_parser_flag := true }, ArgKind.noarg)
  else if s = "-json-printer".toList then
    Exec.ret ({ opts with cgen_json_printer := true }, ArgKind.noarg)
  else if s = "-json".toList then
    Exec.ret ({ opts with cgen_json_parser_flag := true, cgen_json_printer := true }, ArgKind.noarg)
  else if reflection = true ∧ match_long_arg "-schema-namespace".toList s (name_len s) = true then
    set_long_bool "--schema-namespace".toList
      (fun b => { opts with bgen_qualify_names := b }) s (arg_after_eq s a0)
  else if reflection = true ∧ match_long_arg "-schema-length".toList s (name_len s) = true then
    set_long_bool "--schema-length".toList
      (fun b => { opts with bgen_length_prefix := b }) s (arg_after_eq s a0)
  else if match_long_arg "-common-prefix".toList s (name_len s) = true then
    set_long_value "--common-prefix".toList
      (fun x => { opts with nsc := some x }) s (arg_after_eq s a0)
  else if match_long_arg "-prefix".toList s (name_len s) = true then
    set_long_value "-n".toList (fun x => { opts with ns := some x }) s (arg_after_eq s a0)
  else
    set_opt_switch opts s (arg_after_eq s a0)

/-- The `while (*s)` loop of `get_opt` over the characters of a short-option
token. -/
def get_opt_scan (reflection : Bool) : Options → CStr → Option CStr → Exec (Options × Nat)
  | opts, [], _ => Exec.ret (opts, 0)
  | opts, c :: cs, a =>
    match set_opt reflection opts (c :: cs) a with
    | Exec.ret (opts1, ArgKind.noarg) => get_opt_scan reflection opts1 cs a
    | Exec.ret (opts1, ArgKind.suffixarg) => Exec.ret (opts1, 0)
    | Exec.ret (opts1, ArgKind.nextarg) => Exec.ret (opts1, 1)
    | Exec.exit status out => Exec.exit status out
    | Exec.fuel_out => Exec.fuel_out

/-- The source's `get_opt`: `s` is a whole token that starts with a dash, `a` the
next token or NULL; the result is the number of extra tokens consumed. -/
def get_opt (reflection : Bool) (opts : Options) (s : CStr) (a : Option CStr) :
    Exec (Options × Nat) :=
  if s.tail.head? = some '-' then
    match set_opt reflection opts s.tail a with
    | Exec.ret (opts1, k) => Exec.ret (opts1, if k = ArgKind.nextarg then 1 else 0)
    | Exec.exit status out => Exec.exit status out
    | Exec.fuel_out => Exec.fuel_out
  else if s.tail = [] then
    Exec.exit (-1) [(Stream.stderr, Msg.dash_not_valid)]
  else
    get_opt_scan reflection opts s.tail a

/-- The flag loop of `main`:
`for (i = 1; i < argc && argv[i][0] == '-'; ++i) i += get_opt(...)`.
One unit of fuel per evaluation of the loop condition. -/
def flag_loop (reflection : Bool) (argv : List CStr) :
    Nat → Nat → Options → Exec (Options × Nat)
  | 0, _, _ => Exec.fuel_out
  | fuel + 1, i, opts =>
    match argv[i]? with
    | none => Exec.ret (opts, i)
    | some s =>
      if s.head? = some '-' then
        match get_opt reflection opts s argv[i + 1]? with
        | Exec.ret (opts1, k) => flag_loop reflection argv fuel (i + k + 1) opts1
        | Exec.exit status out => Exec.exit status out
        | Exec.fuel_out => Exec.fuel_out
      else Exec.ret (opts, i)

/-- The assignments at the end of the body of the batch loop:
`opts.cgen_common_reader = 0; opts.cgen_common_builder = 0`. -/
def clear_common (opts : Options) : Options :=
  { opts with cgen_common_reader := false, cgen_common_builder := false }

/-- The batch loop of `main`, `for (; i < argc; ++i)`, over the remaining
tokens `argv[i..]`; returns the accumulated status and the events. -/
def batch_loop {σ : Type} (B : Backend σ) :
    σ → Options → Int → List CStr → Int × List Event
  | _, _, status, [] => (status, [])
  | st, opts, status, f :: rest =>
    let c := B.create_context opts (some f) st
    let p := B.parse_file c.1 f c.2
    let status1 := Int.lor status p.1
    let g := B.generate_files c.1 p.2
    let status2 := if p.1 = 0 then Int.lor status1 g.1 else status1
    let st2 := if p.1 = 0 then g.2 else p.2
    let st3 := B.destroy_context c.1 st2
    let opts1 := clear_common opts
    let r := batch_loop B st3 opts1 status2 rest
    (r.1, [Event.create opts (some f) c.1, Event.parse c.1 f p.1]
      ++ (if p.1 = 0 then [Event.generate c.1 g.1] else [])
      ++ [Event.destroy c.1] ++ r.2)

/-- The value `main` gives its local `cgen`: whether any source code generation
is requested by the options. -/
def cgen_requested (opts : Options) : Bool :=
  opts.cgen_reader || opts.cgen_builder || opts.cgen_verifier
    || opts.cgen_common_reader || opts.cgen_common_builder
    || opts.cgen_json_parser_flag || opts.cgen_json_printer

/-- The assignment `opts.cgen_common_builder = opts.cgen_builder &&
opts.cgen_common_reader` of `main`. -/
def set_common_builder (opts : Options) : Options :=
  { opts with cgen_common_builder := opts.cgen_builder && opts.cgen_common_reader }

/-- The defaulting step of `main`:
`if (!opts.bgen_bfbs && (!cgen || opts.cgen_builder)) opts.cgen_reader = 1`. -/
def default_reader (opts : Options) : Options :=
  if opts.bgen_bfbs = false ∧ (cgen_requested opts = false ∨ opts.cgen_builder = true)
  then { opts with cgen_reader := true } else opts

/-- The code at the label `done` of `main`. -/
def finish (status : Int) (events : List Event) : Run :=
  { status := if status ≠ 0 then -1 else 0
    events := events ++
      (if status ≠ 0 then [Event.print Stream.stderr Msg.output_failed] else []) }

/-- The source's `main`. The result is `none` only if the flag loop of the
model ran out of fuel. -/
def main {σ : Type} (reflection : Bool) (B : Backend σ) (st : σ) (argv : List CStr) :
    Option Run :=
  let argc := argv.length
  if argc < 2 then
    some { status := -1, events := [Event.print Stream.stderr Msg.usage] }
  else
    match flag_loop reflection argv argc 1 flatcc_init_options with
    | Exec.fuel_out => none
    | Exec.exit status out =>
      some { status := status, events := out.map (fun m => Event.print m.1 m.2) }
    | Exec.ret (opts0, i) =>
      if opts0.gen_stdout = true ∧ opts0.outpath.isSome = true then
        some (finish (-1) [Event.print Stream.stderr Msg.stdout_with_outpath])
      else
        let opts1 := set_common_builder opts0
        if i = argc then
          if opts1.cgen_common_reader = false ∨ opts1.bgen_bfbs = true then
            some (finish (-1) [Event.print Stream.stderr Msg.filename_missing])
          else
            let c := B.create_context opts1 none st
            let g := B.generate_files c.1 c.2
            some (finish (if g.1 ≠ 0 then -1 else 0)
              [Event.create opts1 none c.1, Event.generate c.1 g.1, Event.destroy c.1])
        else
          let cgen := cgen_requested opts1
          let opts2 := default_reader opts1
          if opts1.bgen_bfbs = true ∧ cgen = true ∧ opts1.gen_stdout = true then
            some (finish (-1) [Event.print Stream.stderr Msg.mixed_output])
          else
            let r := batch_loop B st opts2 0 (argv.drop i)
            some (finish r.1 r.2)

/-! ## Definitions used to state the properties -/

/-- The options the batch loop starts from: common builder derived, reader
defaulted. -/
def batch_options (opts : Options) : Options :=
  default_reader (set_common_builder opts)

/-- Context discipline of a sequence of events, given the context that is live
before it: a context is created only when none is live, parse, generate and
destroy act on the live context, destroy ends its life, and none is live at the
end. -/
def lifecycle_ok : Option Ctx → List Event → Bool
  | live, [] => live.isNone
  | live, Event.print _ _ :: es => lifecycle_ok live es
  | none, Event.create _ _ c :: es => lifecycle_ok (some c) es
  | some _, Event.create _ _ _ :: _ => false
  | some c, Event.parse d _ _ :: es => c == d && lifecycle_ok (some c) es
  | some c, Event.generate d _ :: es => c == d && lifecycle_ok (some c) es
  | some c, Event.destroy d :: es => c == d && lifecycle_ok none es
  | none, Event.parse _ _ _ :: _ => false
  | none, Event.generate _ _ :: _ => false
  | none, Event.destroy _ :: _ => false

/-- The options of the contexts a sequence of events creates, in order. -/
def created_options : List Event → List Options
  | [] => []
  | Event.create opts _ _ :: es => opts :: created_options es
  | _ :: es => created_options es

/-- Whether the niladic flag `c` (one of c, w, v, r) is requested by the flag
characters `chars`: it is present, or the shorthand `a` is. -/
def niladic_requested (chars : List Char) (c : Char) : Bool :=
  chars.contains c || chars.contains 'a'

/-- The options with the niladic flags requested by `chars` switched on. It
depends on `chars` only through which flag characters occur in it. -/
def niladic_apply (opts : Options) (chars : List Char) : Options :=
  { opts with
    cgen_builder := opts.cgen_builder || niladic_requested chars 'w'
    cgen_verifier := opts.cgen_verifier || niladic_requested chars 'v'
    cgen_common_reader := opts.cgen_common_reader || niladic_requested chars 'c'
    cgen_recursive := opts.cgen_recursive || niladic_requested chars 'r' }

/-- Whether a character is one of the niladic short flags c, w, v, r, a. -/
def is_niladic (c : Char) : Bool :=
  c == 'c' || c == 'w' || c == 'v' || c == 'r' || c == 'a'

/-- The token that packs the flag characters `chars` behind one dash. -/
def dash (chars : List Char) : CStr := '-' :: chars

/-- Spec 4.2: the long options that take no value and let parsing go on. -/
def spec_niladic_long : List CStr :=
  ["stdout".toList, "schema".toList, "json-parser".toList, "json-printer".toList,
    "json".toList]

/-- Spec 4.2: the long options that take a value. -/
def spec_value_long : List CStr :=
  ["prefix".toList, "common-prefix".toList, "schema-namespace".toList,
    "schema-length".toList]

/-- Spec 4.2, long options, for the text after the two dashes: `some true` when
the option takes the next token as its value, `some false` when it takes none
(niladic, or value given inline after `=`), `none` when the grammar has no such
option or the option ends the run (help, version). -/
def spec_long_takes_next (body : CStr) : Option Bool :=
  if body ∈ spec_niladic_long then some false
  else if body.contains '=' then
    if body.takeWhile (fun c => c != '=') ∈ spec_value_long then some false else none
  else if body ∈ spec_value_long then some true
  else none

/-- Spec 4.2, short options, for the characters after the dash read left to
right: the value of the `-I` occurrence of the token if it has one, and whether
the next token is taken as a value. `-I` and `-o` stop the scan: characters that
remain are the value (suffix form), otherwise the next token is (space form).
`none` when a character is not a flag that lets parsing go on, or when a value is
missing. -/
def spec_short_scan : List Char → Option CStr → Option (Option CStr × Bool)
  | [], _ => some (none, false)
  | 'I' :: rest, next =>
    if rest ≠ [] then some (some rest, false) else next.map (fun v => (some v, true))
  | 'o' :: rest, next =>
    if rest ≠ [] then some (none, false) else next.map (fun _ => (none, true))
  | c :: rest, next => if is_niladic c then spec_short_scan rest next else none

/-- Spec 4.2 for one flag token and the token after it: the value of its `-I`
occurrence if it has one, and whether the next token is taken as a value. -/
def spec_token (tok : CStr) (next : Option CStr) : Option (Option CStr × Bool) :=
  match tok with
  | '-' :: '-' :: body =>
    match spec_long_takes_next body with
    | some true => next.map (fun _ => (none, true))
    | some false => some (none, false)
    | none => none
  | '-' :: c :: cs => spec_short_scan (c :: cs) next
  | _ => none

/-- The values of the `-I` occurrences of a command line (program name left
out), in the order they appear, read off the tokens by the grammar of spec 4.2:
flag tokens are read until the first token that does not start with a dash, and
a token taken as the value of an option is not read as a flag. `none` when the
grammar does not let the flags through. -/
def spec_include_values : List CStr → Option (List CStr)
  | [] => some []
  | [tok] =>
    if tok.head? = some '-' then (spec_token tok none).map (fun r => r.1.toList)
    else some []
  | tok :: nxt :: rest =>
    if tok.head? = some '-' then
      match spec_token tok (some nxt) with
      | some (v, false) => (spec_include_values (nxt :: rest)).map (fun vs => v.toList ++ vs)
      | some (v, true) => (spec_include_values rest).map (fun vs => v.toList ++ vs)
      | none => none
    else some []

/-- Whether the left-to-right reading of the characters of a short-option token
comes upon a dash after niladic flags only. -/
def scan_meets_dash : List Char → Bool
  | [] => false
  | c :: cs => if c = '-' then true else if is_niladic c then scan_meets_dash cs else false

/-- Whether a token is a single dash, then niladic flags (at least one), then
another dash: the grammar of spec 4.2 has no such token. -/
def dash_inside_flags (tok : CStr) : Bool :=
  match tok with
  | '-' :: c :: cs => c != '-' && scan_meets_dash (c :: cs)
  | _ => false

/-- A backend whose hidden state is a call counter: the `k`-th parse returns
`pres k`, the `k`-th generate returns `gres k`, a context handle is the number
of calls made before its creation. -/
def table_backend (pres gres : Nat → Int) : Backend (Nat × Nat) :=
  { create_context := fun _ _ st => (st.1 + st.2, st)
    parse_file := fun _ _ st => (pres st.1, (st.1 + 1, st.2))
    generate_files := fun _ st => (gres st.2, (st.1, st.2 + 1))
    destroy_context := fun _ st => st }


/-- A backend for examples: the second parse fails with 256, every other call
returns 0. -/
def second_parse_fails : Backend (Nat × Nat) :=
  table_backend (fun k => if k = 1 then 256 else 0) (fun _ => 0)

/-- The command line `flatcc -c a.fbs b.fbs c.fbs`. -/
def args_three_files : List CStr :=
  ["flatcc".toList, "-c".toList, "a.fbs".toList, "b.fbs".toList, "c.fbs".toList]

/-- A backend for examples in which every call returns 0. -/
def all_calls_succeed : Backend (Nat × Nat) :=
  table_backend (fun _ => 0) (fun _ => 0)

/-- The command line `flatcc -w --schema a.fbs`. -/
def args_builder_schema : List CStr :=
  ["flatcc".toList, "-w".toList, "--schema".toList, "a.fbs".toList]

/-- The command line `flatcc -w a.fbs`. -/
def args_builder : List CStr :=
  ["flatcc".toList, "-w".toList, "a.fbs".toList]

/-- The long options of `set_opt` that are compared as whole texts. -/
def exact_long_names : List CStr :=
  ["-help".toList, "-version".toList, "-stdout".toList, "-schema".toList,
    "-json-parser".toList, "-json-printer".toList, "-json".toList]

/-- The command line `flatcc --schema --stdout a.fbs`. -/
def args_schema_stdout : List CStr :=
  ["flatcc".toList, "--schema".toList, "--stdout".toList, "a.fbs".toList]

/-- The command line `flatcc --schema --stdout -v a.fbs`. -/
def args_schema_stdout_verifier : List CStr :=
  ["flatcc".toList, "--schema".toList, "--stdout".toList, "-v".toList, "a.fbs".toList]

/-- The iterations of the flag loop in which `get_opt` returns, in order: for
each, the index of the token read, the number of extra tokens `get_opt`
reported, and the options it left. It follows `flag_loop` step by step. -/
def flag_loop_trace (reflection : Bool) (argv : List CStr) :
    Nat → Nat → Options → List (Nat × Nat × Options)
  | 0, _, _ => []
  | fuel + 1, i, opts =>
    match argv[i]? with
    | none => []
    | some s =>
      if s.head? = some '-' then
        match get_opt reflection opts s argv[i + 1]? with
        | Exec.ret (opts1, k) =>
          (i, k, opts1) :: flag_loop_trace reflection argv fuel (i + k + 1) opts1
        | Exec.exit _ _ => []
        | Exec.fuel_out => []
      else []

/-- The command line `flatcc -Ia -cI b x.fbs`. -/
def args_two_paths : List CStr :=
  ["flatcc".toList, "-Ia".toList, "-cI".toList, "b".toList, "x.fbs".toList]

/-- The file names the backend is asked to parse, in order. -/
def parsed_names : List Event → List CStr
  | [] => []
  | Event.parse _ name _ :: es => name :: parsed_names es
  | _ :: es => parsed_names es

/-- The file names contexts are created with, in order. -/
def created_names : List Event → List (Option CStr)
  | [] => []
  | Event.create _ name _ :: es => name :: created_names es
  | _ :: es => created_names es

/-- What the backend is asked and answers for one file of a batch: the options
and file name the context is created with, the handle `create_context` returned,
what `parse_file` returned, and what `generate_files` returned when it was
called. -/
structure Attempt where
  opts : Options
  file : CStr
  ctx : Ctx
  parse : Int
  generate : Option Int
  deriving DecidableEq

/-- Spec 4.4, batch driver, written from the words of the spec and not from the
loop of `main`: for each file from left to right, the backend `B` creates a
context for the file, parses the file, generates exactly when that parse
returned 0, and destroys the context; the next file starts from the state the
backend was left in, with the common flags cleared. Every value recorded is the
one `B` returns. -/
def spec_attempts {σ : Type} (B : Backend σ) : σ → Options → List CStr → List Attempt
  | _, _, [] => []
  | st, opts, f :: rest =>
    let c := B.create_context opts (some f) st
    let p := B.parse_file c.1 f c.2
    let g := B.generate_files c.1 p.2
    { opts := opts, file := f, ctx := c.1, parse := p.1,
      generate := if p.1 = 0 then some g.1 else none }
      :: spec_attempts B (B.destroy_context c.1 (if p.1 = 0 then g.2 else p.2))
          (clear_common opts) rest

/-- The backend calls of one attempt, in order: create, parse, generate when it
was called, destroy. -/
def attempt_calls (a : Attempt) : List Event :=
  [Event.create a.opts (some a.file) a.ctx, Event.parse a.ctx a.file a.parse]
    ++ (match a.generate with
        | some g => [Event.generate a.ctx g]
        | none => [])
    ++ [Event.destroy a.ctx]

/-- Whether every parse and every generate that was attempted returned 0. -/
def attempts_ok (l : List Attempt) : Bool :=
  l.all (fun a => decide (a.parse = 0) && decide (a.generate = none ∨ a.generate = some 0))

/-- A backend for examples in which every parse returns 0 and every generate
returns 9. -/
def generate_fails : Backend (Nat × Nat) :=
  table_backend (fun _ => 0) (fun _ => 9)

/-- The characters after the dash of a short-option token, read left to right
without judging whether the token is valid: the value of the `-I` occurrence of
the token if the reading comes to one, and whether the token takes the next
token as a value. Niladic flags are passed over; `-I` gives the characters that
remain (suffix form) or, when none remain, the next token (space form); `-o`
takes the next token when no characters remain; a dash followed by the name of a
value-taking long option, a form `get_opt` accepts behind niladic flags, takes
the next token; anything else ends the reading. -/
def short_reading : List Char → Option CStr → Option CStr × Bool
  | [], _ => (none, false)
  | 'I' :: rest, next => if rest ≠ [] then (some rest, false) else (next, true)
  | 'o' :: rest, _ => (none, decide (rest = []))
  | '-' :: rest, _ => (none, decide (rest ∈ spec_value_long))
  | c :: rest, next => if is_niladic c then short_reading rest next else (none, false)

/-- One flag token and the token after it, read without judging validity: the
value of the `-I` occurrence of the token if it has one, and whether the token
takes the next token as a value. A long option has no `-I` occurrence and takes
the next token when it is the bare name of a value-taking option. -/
def token_reading (tok : CStr) (next : Option CStr) : Option CStr × Bool :=
  match tok with
  | '-' :: '-' :: body => (none, decide (body ∈ spec_value_long))
  | '-' :: c :: cs => short_reading (c :: cs) next
  | _ => (none, false)

/-- The values of the `-I` occurrences of a command line (program name left
out), in the order they appear: flag tokens are read until the first token that
does not start with a dash, and a token taken as the value of an option is not
read as a flag. Defined for every command line, valid or not. -/
def include_occurrences : List CStr → List CStr
  | [] => []
  | [tok] => if tok.head? = some '-' then (token_reading tok none).1.toList else []
  | tok :: nxt :: rest =>
    if tok.head? = some '-' then
      if (token_reading tok (some nxt)).2 = true then
        (token_reading tok (some nxt)).1.toList ++ include_occurrences rest
      else (token_reading tok (some nxt)).1.toList ++ include_occurrences (nxt :: rest)
    else []

/-! ## Auxiliary facts -/

/-- Bitwise or of two integers is zero exactly when both are. -/
lemma lor_eq_zero_iff (a b : Int) : Int.lor a b = 0 ↔ a = 0 ∧ b = 0 := by
  have key : ∀ m n : Nat, m ||| n = 0 ↔ m = 0 ∧ n = 0 := by
    intro m n
    constructor
    · intro h
      have hb : ∀ i, m.testBit i = false ∧ n.testBit i = false := by
        intro i
        have := Nat.testBit_or m n i
        rw [h] at this
        simpa using this.symm
      exact ⟨Nat.eq_of_testBit_eq (fun i => by simp [(hb i).1]),
        Nat.eq_of_testBit_eq (fun i => by simp [(hb i).2])⟩
    · rintro ⟨rfl, rfl⟩
      simp
  cases a with
  | ofNat m =>
    cases b with
    | ofNat n =>
      simp only [Int.lor, Int.ofNat_eq_coe]
      rw [show (0 : Int) = ((0 : Nat) : Int) from rfl]
      simp only [Int.natCast_inj]
      exact_mod_cast key m n
    | negSucc n => simp [Int.lor]
  | negSucc m =>
    cases b with
    | ofNat n => simp [Int.lor]
    | negSucc n => simp [Int.lor]

/-- The flag loop started at index 1 returns no index below 1. -/
lemma flag_loop_index_pos (reflection : Bool) (argv : List CStr) :
    ∀ (fuel i : Nat) (opts opts1 : Options) (j : Nat),
      flag_loop reflection argv fuel i opts = Exec.ret (opts1, j) → i ≤ j := by
  intro fuel
  induction fuel with
  | zero => intro i opts opts1 j h; simp [flag_loop] at h
  | succ fuel ih =>
    intro i opts opts1 j h
    simp only [flag_loop] at h
    split at h
    · simp only [Exec.ret.injEq, Prod.mk.injEq] at h; omega
    · split at h
      · split at h
        · have := ih _ _ _ _ h; omega
        · simp at h
        · simp at h
      · simp only [Exec.ret.injEq, Prod.mk.injEq] at h; omega

/-- What `main` does once the flag loop has returned, without conflict between
stdout mode and output path, with a file left and without the mixed output
error: it runs the batch loop over the remaining tokens. -/
lemma main_batch {σ : Type} (reflection : Bool) (B : Backend σ) (st : σ)
    (argv : List CStr) (opts : Options) (i : Nat)
    (hparse : flag_loop reflection argv argv.length 1 flatcc_init_options = Exec.ret (opts, i))
    (hconflict : ¬ (opts.gen_stdout = true ∧ opts.outpath.isSome = true))
    (hfile : i < argv.length)
    (hmixed : ¬ (opts.bgen_bfbs = true ∧ cgen_requested (set_common_builder opts) = true
      ∧ opts.gen_stdout = true)) :
    main reflection B st argv = some (finish
      (batch_loop B st (batch_options opts) 0 (argv.drop i)).1
      (batch_loop B st (batch_options opts) 0 (argv.drop i)).2) := by
  have h1 := flag_loop_index_pos reflection argv _ _ _ _ _ hparse
  have h2 : ¬ argv.length < 2 := by omega
  have hi : i ≠ argv.length := by omega
  unfold main
  simp only [h2, hparse, if_false]
  rw [if_neg hconflict, if_neg hi]
  have hm : ¬ ((set_common_builder opts).bgen_bfbs = true
      ∧ cgen_requested (set_common_builder opts) = true
      ∧ (set_common_builder opts).gen_stdout = true) := by
    simpa [set_common_builder] using hmixed
  rw [if_neg hm]
  rfl

/-- The status `main` returns at `done` is 0 or -1. -/
lemma finish_status (status : Int) (events : List Event) :
    ((finish status events).status = 0 ↔ status = 0) ∧
      ((finish status events).status ≠ 0 → (finish status events).status = -1) := by
  unfold finish
  by_cases h : status = 0 <;> simp [h]

/-- A property of the options that every returning call of `set_opt` preserves
is preserved by the scan of a short-option token. -/
lemma get_opt_scan_preserves (reflection : Bool) (P : Options → Prop)
    (hset : ∀ opts s a opts1 k, P opts →
      set_opt reflection opts s a = Exec.ret (opts1, k) → P opts1) :
    ∀ (s : CStr) (opts : Options) (a : Option CStr) (opts1 : Options) (k : Nat),
      P opts → get_opt_scan reflection opts s a = Exec.ret (opts1, k) → P opts1 := by
  intro s
  induction s with
  | nil =>
    intro opts a opts1 k hP h
    simp only [get_opt_scan, Exec.ret.injEq, Prod.mk.injEq] at h
    exact h.1 ▸ hP
  | cons c cs ih =>
    intro opts a opts1 k hP h
    simp only [get_opt_scan] at h
    split at h
    · rename_i o2 heq
      exact ih _ _ _ _ (hset _ _ _ _ _ hP heq) h
    · rename_i o2 heq
      simp only [Exec.ret.injEq, Prod.mk.injEq] at h
      exact h.1 ▸ hset _ _ _ _ _ hP heq
    · rename_i o2 heq
      simp only [Exec.ret.injEq, Prod.mk.injEq] at h
      exact h.1 ▸ hset _ _ _ _ _ hP heq
    · simp at h
    · simp at h

/-- A property of the options that every returning call of `set_opt` preserves
is preserved by `get_opt`. -/
lemma get_opt_preserves (reflection : Bool) (P : Options → Prop)
    (hset : ∀ opts s a opts1 k, P opts →
      set_opt reflection opts s a = Exec.ret (opts1, k) → P opts1)
    (opts : Options) (s : CStr) (a : Option CStr) (opts1 : Options) (k : Nat)
    (hP : P opts) (h : get_opt reflection opts s a = Exec.ret (opts1, k)) : P opts1 := by
  unfold get_opt at h
  split at h
  · split at h
    · rename_i o2 k2 heq
      simp only [Exec.ret.injEq, Prod.mk.injEq] at h
      exact h.1 ▸ hset _ _ _ _ _ hP heq
    · simp at h
    · simp at h
  · split at h
    · simp at h
    · exact get_opt_scan_preserves reflection P hset _ _ _ _ _ hP h

/-- A property of the options that every returning call of `set_opt` preserves
is preserved by the flag loop. -/
lemma flag_loop_preserves (reflection : Bool) (P : Options → Prop)
    (hset : ∀ opts s a opts1 k, P opts →
      set_opt reflection opts s a = Exec.ret (opts1, k) → P opts1)
    (argv : List CStr) :
    ∀ (fuel i : Nat) (opts opts1 : Options) (j : Nat),
      P opts → flag_loop reflection argv fuel i opts = Exec.ret (opts1, j) → P opts1 := by
  intro fuel
  induction fuel with
  | zero => intro i opts opts1 j _ h; simp [flag_loop] at h
  | succ fuel ih =>
    intro i opts opts1 j hP h
    simp only [flag_loop] at h
    split at h
    · simp only [Exec.ret.injEq, Prod.mk.injEq] at h
      exact h.1 ▸ hP
    · split at h
      · split at h
        · rename_i o2 k2 heq
          exact ih _ _ _ _ (get_opt_preserves reflection P hset _ _ _ _ _ hP heq) h
        · simp at h
        · simp at h
      · simp only [Exec.ret.injEq, Prod.mk.injEq] at h
        exact h.1 ▸ hP

/-- Every way `set_opt_switch` can return. -/
lemma set_opt_switch_ret (opts : Options) (s : CStr) (a : Option CStr)
    (opts1 : Options) (k : ArgKind)
    (h : set_opt_switch opts s a = Exec.ret (opts1, k)) :
    (∃ t, s = 'I' :: t ∧ t ≠ [] ∧ k = ArgKind.suffixarg ∧
      opts1 = { opts with inpaths := opts.inpaths ++ [t],
                          inpath_count := opts.inpath_count + 1 }) ∨
    (∃ x, s = ['I'] ∧ a = some x ∧ k = ArgKind.nextarg ∧
      opts1 = { opts with inpaths := opts.inpaths ++ [x],
                          inpath_count := opts.inpath_count + 1 }) ∨
    (∃ t, s = 'o' :: t ∧ t ≠ [] ∧ opts.outpath = none ∧ k = ArgKind.suffixarg ∧
      opts1 = { opts with outpath := some t }) ∨
    (∃ x, s = ['o'] ∧ a = some x ∧ opts.outpath = none ∧ k = ArgKind.nextarg ∧
      opts1 = { opts with outpath := some x }) ∨
    (∃ t, s = 'w' :: t ∧ k = ArgKind.noarg ∧ opts1 = { opts with cgen_builder := true }) ∨
    (∃ t, s = 'v' :: t ∧ k = ArgKind.noarg ∧ opts1 = { opts with cgen_verifier := true }) ∨
    (∃ t, s = 'c' :: t ∧ k = ArgKind.noarg ∧
      opts1 = { opts with cgen_common_reader := true }) ∨
    (∃ t, s = 'r' :: t ∧ k = ArgKind.noarg ∧ opts1 = { opts with cgen_recursive := true }) ∨
    (∃ t, s = 'a' :: t ∧ k = ArgKind.noarg ∧
      opts1 = { opts with cgen_builder := true, cgen_verifier := true,
                          cgen_common_reader := true, cgen_recursive := true }) := by
  unfold set_opt_switch at h
  split at h
  · simp at h
  · rename_i t
    split at h
    · rename_i ht
      simp only [Exec.ret.injEq, Prod.mk.injEq] at h
      exact Or.inl ⟨t, rfl, ht, h.2.symm, h.1.symm⟩
    · rename_i ht
      split at h
      · simp at h
      · rename_i x
        simp only [Exec.ret.injEq, Prod.mk.injEq] at h
        have ht2 : t = [] := by simpa using ht
        subst ht2
        exact Or.inr (Or.inl ⟨x, rfl, rfl, h.2.symm, h.1.symm⟩)
  · rename_i t
    split at h
    · simp at h
    · rename_i ho
      have ho2 : opts.outpath = none := by simpa using ho
      split at h
      · rename_i ht
        simp only [Exec.ret.injEq, Prod.mk.injEq] at h
        exact Or.inr (Or.inr (Or.inl ⟨t, rfl, ht, ho2, h.2.symm, h.1.symm⟩))
      · rename_i ht
        split at h
        · simp at h
        · rename_i x
          simp only [Exec.ret.injEq, Prod.mk.injEq] at h
          have ht2 : t = [] := by simpa using ht
          subst ht2
          exact Or.inr (Or.inr (Or.inr (Or.inl ⟨x, rfl, rfl, ho2, h.2.symm, h.1.symm⟩)))
  · rename_i t
    simp only [Exec.ret.injEq, Prod.mk.injEq] at h
    exact Or.inr (Or.inr (Or.inr (Or.inr (Or.inl ⟨t, rfl, h.2.symm, h.1.symm⟩))))
  · rename_i t
    simp only [Exec.ret.injEq, Prod.mk.injEq] at h
    exact Or.inr (Or.inr (Or.inr (Or.inr (Or.inr (Or.inl ⟨t, rfl, h.2.symm, h.1.symm⟩)))))
  · rename_i t
    simp only [Exec.ret.injEq, Prod.mk.injEq] at h
    exact Or.inr (Or.inr (Or.inr (Or.inr (Or.inr (Or.inr (Or.inl
      ⟨t, rfl, h.2.symm, h.1.symm⟩))))))
  · rename_i t
    simp only [Exec.ret.injEq, Prod.mk.injEq] at h
    exact Or.inr (Or.inr (Or.inr (Or.inr (Or.inr (Or.inr (Or.inr (Or.inl
      ⟨t, rfl, h.2.symm, h.1.symm⟩)))))))
  · rename_i t
    simp only [Exec.ret.injEq, Prod.mk.injEq] at h
    exact Or.inr (Or.inr (Or.inr (Or.inr (Or.inr (Or.inr (Or.inr (Or.inr
      ⟨t, rfl, h.2.symm, h.1.symm⟩)))))))
  · simp at h
  · simp at h

/-- Every way `set_opt` can return. -/
lemma set_opt_ret (reflection : Bool) (opts : Options) (s : CStr) (a0 : Option CStr)
    (opts1 : Options) (k : ArgKind)
    (h : set_opt reflection opts s a0 = Exec.ret (opts1, k)) :
    (s = "-stdout".toList ∧ k = ArgKind.noarg ∧ opts1 = { opts with gen_stdout := true }) ∨
    (reflection = true ∧ s = "-schema".toList ∧ k = ArgKind.noarg ∧
      opts1 = { opts with bgen_bfbs := true }) ∨
    (s = "-json-parser".toList ∧ k = ArgKind.noarg ∧
      opts1 = { opts with cgen_json_parser_flag := true }) ∨
    (s = "-json-printer".toList ∧ k = ArgKind.noarg ∧
      opts1 = { opts with cgen_json_printer := true }) ∨
    (s = "-json".toList ∧ k = ArgKind.noarg ∧
      opts1 = { opts with cgen_json_parser_flag := true, cgen_json_printer := true }) ∨
    (reflection = true ∧ match_long_arg "-schema-namespace".toList s (name_len s) = true ∧
      ∃ x, arg_after_eq s a0 = some x ∧ 0 ≤ parse_bool_arg x ∧ k = long_arg_kind s ∧
        opts1 = { opts with bgen_qualify_names := parse_bool_arg x }) ∨
    (reflection = true ∧ match_long_arg "-schema-length".toList s (name_len s) = true ∧
      ∃ x, arg_after_eq s a0 = some x ∧ 0 ≤ parse_bool_arg x ∧ k = long_arg_kind s ∧
        opts1 = { opts with bgen_length_prefix := parse_bool_arg x }) ∨
    (match_long_arg "-common-prefix".toList s (name_len s) = true ∧
      ∃ x, arg_after_eq s a0 = some x ∧ k = long_arg_kind s ∧
        opts1 = { opts with nsc := some x }) ∨
    (match_long_arg "-prefix".toList s (name_len s) = true ∧
      ∃ x, arg_after_eq s a0 = some x ∧ k = long_arg_kind s ∧
        opts1 = { opts with ns := some x }) ∨
    (s.head? ≠ some 'h' ∧ set_opt_switch opts s (arg_after_eq s a0) = Exec.ret (opts1, k)) := by
  unfold set_opt at h
  by_cases c1 : (s.head? = some 'h' ∨ s = "-help".toList)
  · rw [if_pos c1] at h; cases h
  rw [if_neg c1] at h
  by_cases c2 : s = "-version".toList
  · rw [if_pos c2] at h; cases h
  rw [if_neg c2] at h
  by_cases c3 : s = "-stdout".toList
  · rw [if_pos c3] at h
    injection h with h
    injection h with h1 h2
    exact Or.inl ⟨c3, h2.symm, h1.symm⟩
  rw [if_neg c3] at h
  by_cases c4 : (reflection = true ∧ s = "-schema".toList)
  · rw [if_pos c4] at h
    injection h with h
    injection h with h1 h2
    exact Or.inr (Or.inl ⟨c4.1, c4.2, h2.symm, h1.symm⟩)
  rw [if_neg c4] at h
  by_cases c5 : s = "-json-parser".toList
  · rw [if_pos c5] at h
    injection h with h
    injection h with h1 h2
    exact Or.inr (Or.inr (Or.inl ⟨c5, h2.symm, h1.symm⟩))
  rw [if_neg c5] at h
  by_cases c6 : s = "-json-printer".toList
  · rw [if_pos c6] at h
    injection h with h
    injection h with h1 h2
    exact Or.inr (Or.inr (Or.inr (Or.inl ⟨c6, h2.symm, h1.symm⟩)))
  rw [if_neg c6] at h
  by_cases c7 : s = "-json".toList
  · rw [if_pos c7] at h
    injection h with h
    injection h with h1 h2
    exact Or.inr (Or.inr (Or.inr (Or.inr (Or.inl ⟨c7, h2.symm, h1.symm⟩))))
  rw [if_neg c7] at h
  by_cases c8 : (reflection = true ∧
      match_long_arg "-schema-namespace".toList s (name_len s) = true)
  · rw [if_pos c8] at h
    unfold set_long_bool at h
    split at h
    · cases h
    · rename_i x hx
      split at h
      · cases h
      · rename_i hb
        injection h with h
        injection h with h1 h2
        exact Or.inr (Or.inr (Or.inr (Or.inr (Or.inr (Or.inl
          ⟨c8.1, c8.2, x, hx, by omega, h2.symm, h1.symm⟩)))))
  rw [if_neg c8] at h
  by_cases c9 : (reflection = true ∧
      match_long_arg "-schema-length".toList s (name_len s) = true)
  · rw [if_pos c9] at h
    unfold set_long_bool at h
    split at h
    · cases h
    · rename_i x hx
      split at h
      · cases h
      · rename_i hb
        injection h with h
        injection h with h1 h2
        exact Or.inr (Or.inr (Or.inr (Or.inr (Or.inr (Or.inr (Or.inl
          ⟨c9.1, c9.2, x, hx, by omega, h2.symm, h1.symm⟩))))))
  rw [if_neg c9] at h
  by_cases c10 : match_long_arg "-common-prefix".toList s (name_len s) = true
  · rw [if_pos c10] at h
    unfold set_long_value at h
    split at h
    · cases h
    · rename_i x hx
      injection h with h
      injection h with h1 h2
      exact Or.inr (Or.inr (Or.inr (Or.inr (Or.inr (Or.inr (Or.inr (Or.inl
        ⟨c10, x, hx, h2.symm, h1.symm⟩)))))))
  rw [if_neg c10] at h
  by_cases c11 : match_long_arg "-prefix".toList s (name_len s) = true
  · rw [if_pos c11] at h
    unfold set_long_value at h
    split at h
    · cases h
    · rename_i x hx
      injection h with h
      injection h with h1 h2
      exact Or.inr (Or.inr (Or.inr (Or.inr (Or.inr (Or.inr (Or.inr (Or.inr (Or.inl
        ⟨c11, x, hx, h2.symm, h1.symm⟩))))))))
  rw [if_neg c11] at h
  exact Or.inr (Or.inr (Or.inr (Or.inr (Or.inr (Or.inr (Or.inr (Or.inr (Or.inr
    ⟨fun hh => c1 (Or.inl hh), h⟩))))))))

/-- No option sets or clears the reader flag. -/
lemma set_opt_cgen_reader (reflection : Bool) (opts : Options) (s : CStr) (a : Option CStr)
    (opts1 : Options) (k : ArgKind)
    (h : set_opt reflection opts s a = Exec.ret (opts1, k)) :
    opts1.cgen_reader = opts.cgen_reader := by
  rcases set_opt_ret _ _ _ _ _ _ h with h | h | h | h | h | h | h | h | h | h
  · rw [h.2.2]
  · rw [h.2.2.2]
  · rw [h.2.2]
  · rw [h.2.2]
  · rw [h.2.2]
  · obtain ⟨_, _, x, _, _, _, h⟩ := h; rw [h]
  · obtain ⟨_, _, x, _, _, _, h⟩ := h; rw [h]
  · obtain ⟨_, x, _, _, h⟩ := h; rw [h]
  · obtain ⟨_, x, _, _, h⟩ := h; rw [h]
  · rcases set_opt_switch_ret _ _ _ _ _ h.2 with
      ⟨_, _, _, _, h⟩ | ⟨_, _, _, _, h⟩ | ⟨_, _, _, _, _, h⟩ | ⟨_, _, _, _, _, h⟩ |
      ⟨_, _, _, h⟩ | ⟨_, _, _, h⟩ | ⟨_, _, _, h⟩ | ⟨_, _, _, h⟩ | ⟨_, _, _, h⟩ <;> rw [h]

/-- The contexts created by two sequences of events in a row. -/
lemma created_options_append (l1 l2 : List Event) :
    created_options (l1 ++ l2) = created_options l1 ++ created_options l2 := by
  induction l1 with
  | nil => rfl
  | cons e es ih => cases e <;> simp [created_options, ih]

/-- The print at `done` creates no context. -/
lemma created_options_finish (status : Int) (events : List Event) :
    created_options (finish status events).events = created_options events := by
  unfold finish
  by_cases h : status = 0 <;> simp [h, created_options_append, created_options]

/-- Started from options with the common flags cleared, the batch loop gives
every context those same options. -/
lemma created_options_batch_cleared {σ : Type} (B : Backend σ) (files : List CStr) :
    ∀ (st : σ) (opts : Options) (status : Int),
      created_options (batch_loop B st (clear_common opts) status files).2 =
        List.replicate files.length (clear_common opts) := by
  induction files with
  | nil => intro st opts status; rfl
  | cons f rest ih =>
    intro st opts status
    simp only [batch_loop]
    have hcc : clear_common (clear_common opts) = clear_common opts := rfl
    rw [hcc, created_options_append, created_options_append, created_options_append, ih]
    split <;> simp [created_options, List.replicate_succ]

/-- The batch loop gives the first context the options it starts from and every
later context those options with the common flags cleared. -/
lemma created_options_batch {σ : Type} (B : Backend σ) (f : CStr) (rest : List CStr)
    (st : σ) (opts : Options) (status : Int) :
    created_options (batch_loop B st opts status (f :: rest)).2 =
      opts :: List.replicate rest.length (clear_common opts) := by
  simp only [batch_loop]
  rw [created_options_append, created_options_append, created_options_append,
    created_options_batch_cleared]
  split <;> simp [created_options]

/-- The tokens left for the batch loop when the flag loop stopped inside the
argument vector. -/
lemma drop_cons_of_lt (argv : List CStr) (i : Nat) (h : i < argv.length) :
    ∃ f rest, argv.drop i = f :: rest ∧ rest.length + 1 + i = argv.length := by
  cases hd : argv.drop i with
  | nil =>
    have := congrArg List.length hd
    simp at this
    omega
  | cons f rest =>
    refine ⟨f, rest, rfl, ?_⟩
    have := congrArg List.length hd
    simp at this
    omega

/-- The flag loop of `main` leaves the reader flag as `flatcc_init_options` set
it: false. -/
lemma flag_loop_cgen_reader (reflection : Bool) (argv : List CStr) (fuel i : Nat)
    (opts : Options) (j : Nat)
    (h : flag_loop reflection argv fuel i flatcc_init_options = Exec.ret (opts, j)) :
    opts.cgen_reader = false :=
  flag_loop_preserves reflection (fun o => o.cgen_reader = false)
    (fun o s a o1 k hP hs => (set_opt_cgen_reader reflection o s a o1 k hs).trans hP)
    argv fuel i flatcc_init_options opts j rfl h

/-- The reader flag of the options the batch loop starts from, in terms of the
options the flag loop returned. -/
lemma batch_options_cgen_reader (opts : Options) (hr : opts.cgen_reader = false) :
    (batch_options opts).cgen_reader = true ↔
      opts.bgen_bfbs = false ∧ (opts.cgen_builder = true ∨
        (opts.cgen_builder = false ∧ opts.cgen_verifier = false ∧
          opts.cgen_common_reader = false ∧ opts.cgen_json_parser_flag = false ∧
          opts.cgen_json_printer = false)) := by
  unfold batch_options default_reader cgen_requested set_common_builder
  cases hb : opts.bgen_bfbs <;> cases hw : opts.cgen_builder <;>
    cases hv : opts.cgen_verifier <;> cases hc : opts.cgen_common_reader <;>
    cases hp : opts.cgen_json_parser_flag <;> cases hq : opts.cgen_json_printer <;>
    simp [hr, hb, hw, hv, hc, hp, hq]

/-- A long option name, which starts with a dash, matches no text that starts
with another character. -/
lemma match_long_arg_ne_dash (name : CStr) (c : Char) (t : CStr) (n : Nat) (hc : c ≠ '-') :
    match_long_arg ('-' :: name) (c :: t) n = false := by
  unfold match_long_arg
  cases n with
  | zero => simp
  | succ n =>
    have : ('-' == c) = false := by
      simpa using fun h => hc h.symm
    simp [strncmp_eq, this]

/-- On text that starts neither with a dash nor with `h`, `set_opt` is its
final switch. -/
lemma set_opt_short (reflection : Bool) (opts : Options) (c : Char) (t : CStr)
    (a0 : Option CStr) (hdash : c ≠ '-') (hh : c ≠ 'h') :
    set_opt reflection opts (c :: t) a0
      = set_opt_switch opts (c :: t) (arg_after_eq (c :: t) a0) := by
  have hne : ∀ name : String, name.toList.head? = some '-' → c :: t ≠ name.toList := by
    intro name hname h
    rw [← h] at hname
    simp only [List.head?_cons, Option.some.injEq] at hname
    exact hdash hname
  have hm : ∀ name : String, name.toList.head? = some '-' →
      ¬ (match_long_arg name.toList (c :: t) (name_len (c :: t)) = true) := by
    intro name hname
    cases hn : name.toList with
    | nil => rw [hn] at hname; simp at hname
    | cons d name1 =>
      rw [hn] at hname
      simp only [List.head?_cons, Option.some.injEq] at hname
      rw [hname, match_long_arg_ne_dash name1 c t _ hdash]
      simp
  unfold set_opt
  rw [if_neg (by
    rintro (h | h)
    · simp only [List.head?_cons, Option.some.injEq] at h
      exact hh h
    · exact hne "-help" rfl h)]
  rw [if_neg (hne "-version" rfl), if_neg (hne "-stdout" rfl),
    if_neg (fun h => hne "-schema" rfl h.2), if_neg (hne "-json-parser" rfl),
    if_neg (hne "-json-printer" rfl), if_neg (hne "-json" rfl),
    if_neg (fun h => hm "-schema-namespace" rfl h.2),
    if_neg (fun h => hm "-schema-length" rfl h.2),
    if_neg (hm "-common-prefix" rfl), if_neg (hm "-prefix" rfl)]

/-- No flag character, no change. -/
lemma niladic_apply_nil (opts : Options) : niladic_apply opts [] = opts := by
  simp [niladic_apply, niladic_requested]

/-- Applying the flags of two runs of characters in a row is applying the flags
of their concatenation. -/
lemma niladic_apply_append (opts : Options) (xs ys : List Char) :
    niladic_apply (niladic_apply opts xs) ys = niladic_apply opts (xs ++ ys) := by
  simp only [niladic_apply, niladic_requested, List.contains_eq_any_beq, List.any_append,
    Options.mk.injEq, true_and, and_true]
  refine ⟨?_, ?_, ?_, ?_⟩ <;>
  · generalize List.any xs _ = p1
    generalize List.any ys _ = p2
    generalize List.any xs _ = p3
    generalize List.any ys _ = p4
    cases p1 <;> cases p2 <;> cases p3 <;> cases p4 <;> simp

/-- The switch of `set_opt` on a niladic flag character. -/
lemma set_opt_switch_niladic (opts : Options) (c : Char) (t : CStr) (a : Option CStr)
    (hc : is_niladic c = true) :
    set_opt_switch opts (c :: t) a = Exec.ret (niladic_apply opts [c], ArgKind.noarg) := by
  simp only [is_niladic, Bool.or_eq_true, beq_iff_eq] at hc
  rcases hc with (((rfl | rfl) | rfl) | rfl) | rfl <;>
    simp [set_opt_switch, niladic_apply, niladic_requested]

/-- A niladic flag character is neither a dash nor `h`. -/
lemma is_niladic_ne (c : Char) (hc : is_niladic c = true) : c ≠ '-' ∧ c ≠ 'h' := by
  constructor <;>
  · rintro rfl
    revert hc
    decide

/-- The scan of a run of niladic flag characters switches their flags on and
consumes no extra token. -/
lemma get_opt_scan_niladic (reflection : Bool) (cs : List Char) :
    ∀ (opts : Options) (a : Option CStr), (∀ c ∈ cs, is_niladic c = true) →
      get_opt_scan reflection opts cs a = Exec.ret (niladic_apply opts cs, 0) := by
  induction cs with
  | nil => intro opts a _; simp [get_opt_scan, niladic_apply_nil]
  | cons c cs ih =>
    intro opts a h
    have hc := h c (List.mem_cons_self _ _)
    simp only [get_opt_scan]
    rw [set_opt_short reflection opts c cs a (is_niladic_ne c hc).1 (is_niladic_ne c hc).2,
      set_opt_switch_niladic opts c cs _ hc]
    simp only
    rw [ih _ _ (fun d hd => h d (List.mem_cons_of_mem _ hd)), niladic_apply_append]
    rfl

/-- A token of niladic flag characters switches their flags on and consumes no
extra token. -/
lemma get_opt_niladic (reflection : Bool) (opts : Options) (cs : List Char)
    (a : Option CStr) (hne : cs ≠ []) (h : ∀ c ∈ cs, is_niladic c = true) :
    get_opt reflection opts (dash cs) a = Exec.ret (niladic_apply opts cs, 0) := by
  cases cs with
  | nil => exact absurd rfl hne
  | cons c cs =>
    have hc := h c (List.mem_cons_self _ _)
    unfold get_opt dash
    rw [if_neg (by
      simp only [List.tail_cons, List.head?_cons, Option.some.injEq]
      exact (is_niladic_ne c hc).1), if_neg (by simp)]
    exact get_opt_scan_niladic reflection (c :: cs) opts a h

/-- One iteration of the flag loop on a token that starts with a dash and that
`get_opt` accepts. -/
lemma flag_loop_step (reflection : Bool) (argv : List CStr) (fuel i : Nat) (opts : Options)
    (tok : CStr) (opts1 : Options) (k : Nat)
    (htok : argv[i]? = some tok) (hdash : tok.head? = some '-')
    (hget : get_opt reflection opts tok argv[i + 1]? = Exec.ret (opts1, k)) :
    flag_loop reflection argv (fuel + 1) i opts
      = flag_loop reflection argv fuel (i + k + 1) opts1 := by
  simp only [flag_loop, htok, hdash, if_true, hget]

/-- The flag loop stops where the tokens end or where a token does not start
with a dash. -/
lemma flag_loop_stop (reflection : Bool) (argv : List CStr) (fuel i : Nat) (opts : Options)
    (h : ∀ tok, argv[i]? = some tok → tok.head? ≠ some '-') :
    flag_loop reflection argv (fuel + 1) i opts = Exec.ret (opts, i) := by
  simp only [flag_loop]
  cases htok : argv[i]? with
  | none => rfl
  | some tok => simp [h tok htok]

/-- The flag loop over tokens of niladic flag characters, started anywhere in
the argument vector. -/
lemma flag_loop_niladic (reflection : Bool) (tokens : List (List Char)) (files : List CStr)
    (hfiles : ∀ f, files.head? = some f → f.head? ≠ some '-') :
    ∀ (pre : List CStr) (opts : Options) (fuel : Nat),
      (∀ t ∈ tokens, t ≠ [] ∧ ∀ c ∈ t, is_niladic c = true) →
      tokens.length < fuel →
      flag_loop reflection (pre ++ (tokens.map dash ++ files)) fuel pre.length opts
        = Exec.ret (niladic_apply opts tokens.flatten, pre.length + tokens.length) := by
  induction tokens with
  | nil =>
    intro pre opts fuel _ hfuel
    obtain ⟨fuel, rfl⟩ : ∃ f, fuel = f + 1 := ⟨fuel - 1, by simp at hfuel; omega⟩
    rw [flag_loop_stop]
    · simp [niladic_apply_nil]
    · intro tok htok
      apply hfiles
      simpa [List.getElem?_append_right, List.head?_eq_getElem?] using htok
  | cons t ts ih =>
    intro pre opts fuel hvalid hfuel
    obtain ⟨fuel, rfl⟩ : ∃ f, fuel = f + 1 := ⟨fuel - 1, by simp at hfuel; omega⟩
    have ht := hvalid t (List.mem_cons_self _ _)
    rw [flag_loop_step reflection _ fuel pre.length opts (dash t) (niladic_apply opts t) 0
      (by rw [List.getElem?_append_right (Nat.le_refl _)]; simp) rfl
      (get_opt_niladic reflection opts t _ ht.1 ht.2)]
    have := ih (pre ++ [dash t]) (niladic_apply opts t) fuel
      (fun u hu => hvalid u (List.mem_cons_of_mem _ hu))
      (by simp only [List.length_cons] at hfuel; omega)
    simp only [List.append_assoc, List.singleton_append, List.length_append,
      List.length_singleton] at this
    simp only [List.map_cons, List.cons_append, Nat.add_zero, List.flatten_cons,
      List.length_cons]
    rw [this, niladic_apply_append]
    congr 2
    omega

/-- The options with the flags requested by `chars` switched on depend on
`chars` only through which of the four flags are requested. -/
lemma niladic_apply_congr (opts : Options) (xs ys : List Char)
    (h : ∀ c ∈ ['c', 'w', 'v', 'r'], niladic_requested xs c = niladic_requested ys c) :
    niladic_apply opts xs = niladic_apply opts ys := by
  simp only [niladic_apply, h 'c' (by decide), h 'w' (by decide), h 'v' (by decide),
    h 'r' (by decide)]

/-- If the switch of `set_opt` returns without a next token, it returns the same
with any next token. -/
lemma set_opt_switch_none (opts : Options) (s : CStr) (r : Options × ArgKind)
    (h : set_opt_switch opts s none = Exec.ret r) (a : Option CStr) :
    set_opt_switch opts s a = Exec.ret r := by
  obtain ⟨opts1, k⟩ := r
  rcases set_opt_switch_ret _ _ _ _ _ h with
    ⟨t, rfl, ht, rfl, rfl⟩ | ⟨x, _, hx, _⟩ | ⟨t, rfl, ht, ho, rfl, rfl⟩ | ⟨x, _, hx, _⟩ |
    ⟨t, rfl, rfl, rfl⟩ | ⟨t, rfl, rfl, rfl⟩ | ⟨t, rfl, rfl, rfl⟩ | ⟨t, rfl, rfl, rfl⟩ |
    ⟨t, rfl, rfl, rfl⟩
  · simp [set_opt_switch, ht]
  · cases hx
  · simp [set_opt_switch, ht, ho]
  · cases hx
  · simp [set_opt_switch]
  · simp [set_opt_switch]
  · simp [set_opt_switch]
  · simp [set_opt_switch]
  · simp [set_opt_switch]

/-- If `set_opt` returns without a next token, it returns the same with any
next token: a token it reads is a token it needs. -/
lemma set_opt_none (reflection : Bool) (opts : Options) (s : CStr) (r : Options × ArgKind)
    (h : set_opt reflection opts s none = Exec.ret r) (a : Option CStr) :
    set_opt reflection opts s a = Exec.ret r := by
  cases hv : strchr s '=' with
  | some w =>
    have ha : ∀ b, arg_after_eq s b = some w.tail := by
      intro b
      simp only [arg_after_eq, hv]
    unfold set_opt at h ⊢
    rw [ha] at h ⊢
    exact h
  | none =>
    have ha : ∀ b, arg_after_eq s b = b := by
      intro b
      simp only [arg_after_eq, hv]
    unfold set_opt at h ⊢
    rw [ha] at h ⊢
    by_cases c1 : (s.head? = some 'h' ∨ s = "-help".toList)
    · rw [if_pos c1] at h; cases h
    rw [if_neg c1] at h ⊢
    by_cases c2 : s = "-version".toList
    · rw [if_pos c2] at h; cases h
    rw [if_neg c2] at h ⊢
    by_cases c3 : s = "-stdout".toList
    · rw [if_pos c3] at h ⊢; exact h
    rw [if_neg c3] at h ⊢
    by_cases c4 : (reflection = true ∧ s = "-schema".toList)
    · rw [if_pos c4] at h ⊢; exact h
    rw [if_neg c4] at h ⊢
    by_cases c5 : s = "-json-parser".toList
    · rw [if_pos c5] at h ⊢; exact h
    rw [if_neg c5] at h ⊢
    by_cases c6 : s = "-json-printer".toList
    · rw [if_pos c6] at h ⊢; exact h
    rw [if_neg c6] at h ⊢
    by_cases c7 : s = "-json".toList
    · rw [if_pos c7] at h ⊢; exact h
    rw [if_neg c7] at h ⊢
    by_cases c8 : (reflection = true ∧
        match_long_arg "-schema-namespace".toList s (name_len s) = true)
    · rw [if_pos c8] at h; cases h
    rw [if_neg c8] at h ⊢
    by_cases c9 : (reflection = true ∧
        match_long_arg "-schema-length".toList s (name_len s) = true)
    · rw [if_pos c9] at h; cases h
    rw [if_neg c9] at h ⊢
    by_cases c10 : match_long_arg "-common-prefix".toList s (name_len s) = true
    · rw [if_pos c10] at h; cases h
    rw [if_neg c10] at h ⊢
    by_cases c11 : match_long_arg "-prefix".toList s (name_len s) = true
    · rw [if_pos c11] at h; cases h
    rw [if_neg c11] at h ⊢
    exact set_opt_switch_none opts s r h a

/-- If the scan of a short-option token returns without a next token, it returns
the same with any next token. -/
lemma get_opt_scan_none (reflection : Bool) (cs : List Char) :
    ∀ (opts : Options) (r : Options × Nat),
      get_opt_scan reflection opts cs none = Exec.ret r →
      ∀ a, get_opt_scan reflection opts cs a = Exec.ret r := by
  induction cs with
  | nil => intro opts r h a; simpa [get_opt_scan] using h
  | cons c cs ih =>
    intro opts r h a
    simp only [get_opt_scan] at h ⊢
    split at h
    · rename_i o2 heq
      rw [set_opt_none reflection opts _ _ heq a]
      exact ih _ _ h a
    · rename_i o2 heq
      rw [set_opt_none reflection opts _ _ heq a]
      exact h
    · rename_i o2 heq
      rw [set_opt_none reflection opts _ _ heq a]
      exact h
    · cases h
    · cases h

/-- If `get_opt` returns without a next token, it returns the same with any next
token. -/
lemma get_opt_none (reflection : Bool) (opts : Options) (s : CStr) (r : Options × Nat)
    (h : get_opt reflection opts s none = Exec.ret r) (a : Option CStr) :
    get_opt reflection opts s a = Exec.ret r := by
  unfold get_opt at h ⊢
  split at h
  · rename_i hd
    rw [if_pos hd]
    split at h
    · rename_i o2 k2 heq
      rw [set_opt_none reflection opts _ _ heq a]
      exact h
    · cases h
    · cases h
  · rename_i hd
    rw [if_neg hd]
    split at h
    · cases h
    · rename_i hne
      rw [if_neg hne]
      exact get_opt_scan_none reflection _ _ _ h a

/-- More fuel does not change a result of the flag loop that is not a lack of
fuel. -/
lemma flag_loop_fuel_mono (reflection : Bool) (argv : List CStr) :
    ∀ (fuel i : Nat) (opts : Options) (r : Exec (Options × Nat)),
      flag_loop reflection argv fuel i opts = r → r ≠ Exec.fuel_out →
      ∀ extra, flag_loop reflection argv (fuel + extra) i opts = r := by
  intro fuel
  induction fuel with
  | zero =>
    intro i opts r h hr
    simp only [flag_loop] at h
    exact absurd h.symm hr
  | succ fuel ih =>
    intro i opts r h hr extra
    rw [show fuel + 1 + extra = (fuel + extra) + 1 by omega]
    simp only [flag_loop] at h ⊢
    split
    · rename_i hnone
      simpa only [hnone] using h
    · rename_i tok htok
      simp only [htok] at h
      split
      · rename_i hdash
        simp only [hdash, if_true] at h
        split
        · rename_i o1 k heq
          simp only [heq] at h
          exact ih _ _ _ h hr extra
        · rename_i st out heq
          simpa only [heq] using h
        · rename_i heq
          simpa only [heq] using h
      · rename_i hdash
        simpa only [hdash, if_false] using h

/-- If the flag loop consumes all of the tokens `front` as options, then on
`front ++ back` it goes on from the first token of `back` with the options it
had reached. -/
lemma flag_loop_append (reflection : Bool) (front back : List CStr) :
    ∀ (fuel i : Nat) (opts opts1 : Options),
      flag_loop reflection front fuel i opts = Exec.ret (opts1, front.length) →
      ∀ (more : Nat) (r : Exec (Options × Nat)),
        flag_loop reflection (front ++ back) more front.length opts1 = r →
        r ≠ Exec.fuel_out →
        flag_loop reflection (front ++ back) (fuel + more) i opts = r := by
  intro fuel
  induction fuel with
  | zero => intro i opts opts1 h; simp [flag_loop] at h
  | succ fuel ih =>
    intro i opts opts1 h more r hmore hr
    simp only [flag_loop] at h
    split at h
    · simp only [Exec.ret.injEq, Prod.mk.injEq] at h
      obtain ⟨rfl, rfl⟩ := h
      have := flag_loop_fuel_mono reflection _ _ _ _ _ hmore hr (fuel + 1)
      rw [show fuel + 1 + more = more + (fuel + 1) by omega]
      exact this
    · rename_i tok htok
      have hi : i < front.length := by
        by_contra hge
        rw [List.getElem?_eq_none (by omega)] at htok
        cases htok
      split at h
      · rename_i hdash
        split at h
        · rename_i o1 k heq
          have hget : get_opt reflection opts tok (front ++ back)[i + 1]? = Exec.ret (o1, k) := by
            by_cases hi1 : i + 1 < front.length
            · rw [List.getElem?_append_left hi1]
              exact heq
            · rw [List.getElem?_eq_none (by omega)] at heq
              exact get_opt_none reflection opts tok _ heq _
          rw [show fuel + 1 + more = (fuel + more) + 1 by omega,
            flag_loop_step reflection _ _ i opts tok o1 k
              (by rw [List.getElem?_append_left hi]; exact htok) hdash hget]
          exact ih _ _ _ h more r hmore hr
        · cases h
        · cases h
      · simp only [Exec.ret.injEq, Prod.mk.injEq] at h
        omega

/-- What `main` does when the flag loop exits. -/
lemma main_exit {σ : Type} (reflection : Bool) (B : Backend σ) (st : σ) (argv : List CStr)
    (status : Int) (out : List (Stream × Msg)) (hlen : 2 ≤ argv.length)
    (h : flag_loop reflection argv argv.length 1 flatcc_init_options = Exec.exit status out) :
    main reflection B st argv
      = some { status := status, events := out.map (fun m => Event.print m.1 m.2) } := by
  unfold main
  simp only [show ¬ argv.length < 2 by omega, if_false, h]

/-- If the tokens `pre` after the program name are all consumed as options, the
flag loop on a longer command line does at the token after `pre` what one
iteration does there with the options reached. -/
lemma flag_loop_reach (reflection : Bool) (prog : CStr) (pre : List CStr) (tok : CStr)
    (post : List CStr) (opts1 : Options) (r : Exec (Options × Nat))
    (hpre : flag_loop reflection (prog :: pre) (prog :: pre).length 1 flatcc_init_options
      = Exec.ret (opts1, (prog :: pre).length))
    (hstep : flag_loop reflection (prog :: pre ++ tok :: post) 1 (prog :: pre).length opts1 = r)
    (hr : r ≠ Exec.fuel_out) :
    flag_loop reflection (prog :: pre ++ tok :: post) (prog :: pre ++ tok :: post).length 1
      flatcc_init_options = r := by
  have h1 := flag_loop_append reflection (prog :: pre) (tok :: post) _ _ _ _ hpre 1 r hstep hr
  have h2 := flag_loop_fuel_mono reflection _ _ _ _ _ h1 hr post.length
  rw [show (prog :: pre ++ tok :: post).length = (prog :: pre).length + 1 + post.length by
    simp only [List.length_cons, List.length_append]; omega]
  exact h2

/-- One iteration of the flag loop on a token that starts with a dash and on
which `get_opt` exits. -/
lemma flag_loop_step_exit (reflection : Bool) (argv : List CStr) (fuel i : Nat)
    (opts : Options) (tok : CStr) (status : Int) (out : List (Stream × Msg))
    (htok : argv[i]? = some tok) (hdash : tok.head? = some '-')
    (hget : get_opt reflection opts tok argv[i + 1]? = Exec.exit status out) :
    flag_loop reflection argv (fuel + 1) i opts = Exec.exit status out := by
  simp only [flag_loop, htok, hdash, if_true, hget]

/-- The scan of niladic flag characters followed by more text switches their
flags on and goes on with the rest. -/
lemma get_opt_scan_niladic_append (reflection : Bool) (pack : List Char) (rest : CStr) :
    ∀ (opts : Options) (a : Option CStr), (∀ c ∈ pack, is_niladic c = true) →
      get_opt_scan reflection opts (pack ++ rest) a
        = get_opt_scan reflection (niladic_apply opts pack) rest a := by
  induction pack with
  | nil => intro opts a _; simp [niladic_apply_nil]
  | cons c cs ih =>
    intro opts a h
    have hc := h c (List.mem_cons_self _ _)
    rw [List.cons_append, get_opt_scan,
      set_opt_short reflection opts c (cs ++ rest) a (is_niladic_ne c hc).1
      (is_niladic_ne c hc).2, set_opt_switch_niladic opts c _ _ hc]
    simp only
    rw [ih _ _ (fun d hd => h d (List.mem_cons_of_mem _ hd)), niladic_apply_append]
    rfl

/-- A token whose scan reaches the flag `o` when the output path is already set
makes `get_opt` exit with status -1. -/
lemma get_opt_second_outpath (reflection : Bool) (opts : Options) (pack : List Char)
    (rest : CStr) (a : Option CStr) (hpack : ∀ c ∈ pack, is_niladic c = true)
    (hout : opts.outpath.isSome = true) :
    get_opt reflection opts (dash (pack ++ 'o' :: rest)) a
      = Exec.exit (-1) [(Stream.stderr, Msg.outpath_once)] := by
  have hscan : get_opt_scan reflection opts (pack ++ 'o' :: rest) a
      = Exec.exit (-1) [(Stream.stderr, Msg.outpath_once)] := by
    rw [get_opt_scan_niladic_append reflection pack _ opts a hpack]
    simp only [get_opt_scan]
    rw [set_opt_short reflection _ 'o' rest a (by decide) (by decide)]
    have : (niladic_apply opts pack).outpath.isSome = true := hout
    simp [set_opt_switch, this]
  unfold get_opt dash
  cases pack with
  | nil =>
    rw [if_neg (by simp), if_neg (by simp)]
    exact hscan
  | cons c cs =>
    have hc := hpack c (List.mem_cons_self _ _)
    rw [if_neg (by
      simp only [List.cons_append, List.tail_cons, List.head?_cons, Option.some.injEq]
      exact (is_niladic_ne c hc).1), if_neg (by simp)]
    exact hscan

/-- Printing creates no context. -/
lemma created_options_prints (out : List (Stream × Msg)) :
    created_options (out.map (fun m => Event.print m.1 m.2)) = [] := by
  induction out with
  | nil => rfl
  | cons m ms ih => simpa [created_options] using ih

/-- Every context of the batch loop gets the options the loop started from or
those options with the common flags cleared. -/
lemma created_options_batch_mem {σ : Type} (B : Backend σ) (files : List CStr)
    (st : σ) (opts : Options) (status : Int) (o : Options)
    (ho : o ∈ created_options (batch_loop B st opts status files).2) :
    o = opts ∨ o = clear_common opts := by
  cases files with
  | nil => simp [batch_loop, created_options] at ho
  | cons f rest =>
    rw [created_options_batch] at ho
    rcases List.mem_cons.mp ho with h | h
    · exact Or.inl h
    · exact Or.inr (List.eq_of_mem_replicate h)

/-- With fewer than two arguments the flag loop of `main` cannot return options
other than the initial ones. -/
lemma flag_loop_short_argv (reflection : Bool) (argv : List CStr) (opts : Options) (i : Nat)
    (hlen : argv.length < 2)
    (h : flag_loop reflection argv argv.length 1 flatcc_init_options = Exec.ret (opts, i)) :
    opts = flatcc_init_options := by
  match argv, hlen with
  | [], _ => simp [flag_loop] at h
  | [x], _ =>
    simp [flag_loop] at h
    exact h.1.symm

/-- When `strchr` finds the character, the character occurs in the string. -/
lemma strchr_some_mem (c : Char) : ∀ (s w : CStr), strchr s c = some w → c ∈ s := by
  intro s
  induction s with
  | nil => intro w h; simp [strchr] at h
  | cons x xs ih =>
    intro w h
    simp only [strchr] at h
    split at h
    · rename_i hx
      simp [hx]
    · exact List.mem_cons_of_mem _ (ih w h)

/-- Equality up to the length of the second string, for strings of the same
length, is equality. -/
lemma strncmp_eq_full : ∀ (x y : CStr), strncmp_eq x y y.length = true →
    x.length = y.length → x = y := by
  intro x
  induction x with
  | nil =>
    intro y _ hlen
    cases y with
    | nil => rfl
    | cons d y => simp at hlen
  | cons c x ih =>
    intro y h hlen
    cases y with
    | nil => simp at hlen
    | cons d y =>
      simp only [List.length_cons, strncmp_eq, Bool.and_eq_true, beq_iff_eq] at h
      simp only [List.length_cons, Nat.add_right_cancel_iff] at hlen
      rw [h.1, ih y h.2 hlen]

/-- A long option name that matches a text without `=` is that text. -/
lemma match_long_arg_no_eq (name s : CStr) (hv : strchr s '=' = none)
    (h : match_long_arg name s (name_len s) = true) : s = name := by
  unfold match_long_arg name_len at h
  simp only [hv, Bool.and_eq_true, beq_iff_eq] at h
  exact (strncmp_eq_full name s h.1 h.2).symm

/-- A long option accepted by `set_opt` leaves the search paths alone, and takes
the next token exactly when the grammar of the spec says so. -/
lemma set_opt_long_spec (reflection : Bool) (opts : Options) (body : CStr)
    (a : Option CStr) (opts1 : Options) (k : ArgKind) (b : Bool)
    (h : set_opt reflection opts ('-' :: body) a = Exec.ret (opts1, k))
    (hspec : spec_long_takes_next body = some b) :
    opts1.inpaths = opts.inpaths ∧ opts1.inpath_count = opts.inpath_count ∧
      (k = ArgKind.nextarg ↔ b = true) := by
  have hvalue : ∀ name : CStr, name ∈ spec_value_long →
      match_long_arg ('-' :: name) ('-' :: body) (name_len ('-' :: body)) = true →
      k = long_arg_kind ('-' :: body) → (k = ArgKind.nextarg ↔ b = true) := by
    intro name hname hmatch hk
    cases hv : strchr ('-' :: body) '=' with
    | none =>
      have hb := match_long_arg_no_eq _ _ hv hmatch
      injection hb with _ hb
      subst hb
      have hk2 : k = ArgKind.nextarg := by simp [hk, long_arg_kind, hv]
      have hb2 : b = true := by
        simp only [spec_value_long, List.mem_cons, List.mem_singleton, List.not_mem_nil,
          or_false] at hname
        rcases hname with rfl | rfl | rfl | rfl <;>
        · have : some true = some b := hspec ▸ (by decide)
          injection this with this
          exact this.symm
      simp [hk2, hb2]
    | some w =>
      have hk2 : k = ArgKind.noarg := by simp [hk, long_arg_kind, hv]
      have hmem : '=' ∈ body := by
        have := strchr_some_mem '=' _ _ hv
        simpa using this
      have hb2 : b = false := by
        unfold spec_long_takes_next at hspec
        split at hspec
        · injection hspec with hspec
          exact hspec.symm
        · rw [if_pos (by simpa using hmem)] at hspec
          split at hspec
          · injection hspec with hspec
            exact hspec.symm
          · cases hspec
      simp [hk2, hb2]
  have hnil : ∀ name : CStr, name ∈ spec_niladic_long → body = name → b = false := by
    intro name hname hb
    subst hb
    unfold spec_long_takes_next at hspec
    rw [if_pos hname] at hspec
    injection hspec with hspec
    exact hspec.symm
  rcases set_opt_ret _ _ _ _ _ _ h with h | h | h | h | h | h | h | h | h | h
  · obtain ⟨hs, rfl, rfl⟩ := h
    have := hnil "stdout".toList (by decide) (by injection hs)
    simp [this]
  · obtain ⟨_, hs, rfl, rfl⟩ := h
    have := hnil "schema".toList (by decide) (by injection hs)
    simp [this]
  · obtain ⟨hs, rfl, rfl⟩ := h
    have := hnil "json-parser".toList (by decide) (by injection hs)
    simp [this]
  · obtain ⟨hs, rfl, rfl⟩ := h
    have := hnil "json-printer".toList (by decide) (by injection hs)
    simp [this]
  · obtain ⟨hs, rfl, rfl⟩ := h
    have := hnil "json".toList (by decide) (by injection hs)
    simp [this]
  · obtain ⟨_, hm, x, _, _, hk, rfl⟩ := h
    exact ⟨rfl, rfl, hvalue "schema-namespace".toList (by decide) hm hk⟩
  · obtain ⟨_, hm, x, _, _, hk, rfl⟩ := h
    exact ⟨rfl, rfl, hvalue "schema-length".toList (by decide) hm hk⟩
  · obtain ⟨hm, x, _, hk, rfl⟩ := h
    exact ⟨rfl, rfl, hvalue "common-prefix".toList (by decide) hm hk⟩
  · obtain ⟨hm, x, _, hk, rfl⟩ := h
    exact ⟨rfl, rfl, hvalue "prefix".toList (by decide) hm hk⟩
  · have := h.2
    simp [set_opt_switch] at this

/-- The scan of a short-option token, when it returns, appends to the search
paths the `-I` value the grammar of the spec reads off the token, and takes the
next token exactly when that grammar says so. -/
lemma get_opt_scan_spec (reflection : Bool) (cs : List Char) :
    ∀ (opts : Options) (a : Option CStr) (opts1 : Options) (k : Nat)
      (v : Option CStr) (b : Bool),
      get_opt_scan reflection opts cs a = Exec.ret (opts1, k) →
      spec_short_scan cs a = some (v, b) →
      opts1.inpaths = opts.inpaths ++ v.toList ∧
        opts1.inpath_count = opts.inpath_count + v.toList.length ∧
        k = (if b = true then 1 else 0) := by
  induction cs with
  | nil =>
    intro opts a opts1 k v b h hspec
    simp only [get_opt_scan, Exec.ret.injEq, Prod.mk.injEq] at h
    simp only [spec_short_scan, Option.some.injEq, Prod.mk.injEq] at hspec
    obtain ⟨rfl, rfl⟩ := h
    obtain ⟨rfl, rfl⟩ := hspec
    simp
  | cons c cs ih =>
    intro opts a opts1 k v b h hspec
    by_cases hI : c = 'I'
    · subst hI
      rw [get_opt_scan, set_opt_short reflection opts 'I' cs a (by decide) (by decide)] at h
      by_cases hcs : cs = []
      · subst hcs
        have ha : arg_after_eq ['I'] a = a := by simp [arg_after_eq, strchr]
        rw [ha] at h
        cases a with
        | none => simp [spec_short_scan] at hspec
        | some x =>
          simp only [spec_short_scan, ne_eq, not_true_eq_false, if_false, Option.map_some',
            Option.some.injEq, Prod.mk.injEq] at hspec
          obtain ⟨rfl, rfl⟩ := hspec
          simp only [set_opt_switch, ne_eq, not_true_eq_false, if_false, Exec.ret.injEq,
            Prod.mk.injEq] at h
          obtain ⟨rfl, rfl⟩ := h
          simp
      · simp only [spec_short_scan, ne_eq, hcs, not_false_eq_true, if_true,
          Option.some.injEq, Prod.mk.injEq] at hspec
        obtain ⟨rfl, rfl⟩ := hspec
        simp only [set_opt_switch, ne_eq, hcs, not_false_eq_true, if_true, Exec.ret.injEq,
          Prod.mk.injEq] at h
        obtain ⟨rfl, rfl⟩ := h
        simp
    · by_cases ho : c = 'o'
      · subst ho
        rw [get_opt_scan, set_opt_short reflection opts 'o' cs a (by decide) (by decide)] at h
        by_cases hcs : cs = []
        · subst hcs
          have ha : arg_after_eq ['o'] a = a := by simp [arg_after_eq, strchr]
          rw [ha] at h
          cases a with
          | none => simp [spec_short_scan] at hspec
          | some x =>
            simp only [spec_short_scan, ne_eq, not_true_eq_false, if_false, Option.map_some',
              Option.some.injEq, Prod.mk.injEq] at hspec
            obtain ⟨rfl, rfl⟩ := hspec
            by_cases hout : opts.outpath.isSome = true
            · simp [set_opt_switch, hout] at h
            · simp only [set_opt_switch, hout, ne_eq, not_true_eq_false, if_false,
                Exec.ret.injEq, Prod.mk.injEq] at h
              obtain ⟨rfl, rfl⟩ := h
              simp
        · simp only [spec_short_scan, ne_eq, hcs, not_false_eq_true, if_true,
            Option.some.injEq, Prod.mk.injEq] at hspec
          obtain ⟨rfl, rfl⟩ := hspec
          by_cases hout : opts.outpath.isSome = true
          · simp [set_opt_switch, hout] at h
          · simp only [set_opt_switch, hout, ne_eq, hcs, not_false_eq_true, if_true,
              if_false, Exec.ret.injEq, Prod.mk.injEq] at h
            obtain ⟨rfl, rfl⟩ := h
            simp
      · have hspec2 : (if is_niladic c = true then spec_short_scan cs a else none)
            = some (v, b) := by
          rw [← hspec, spec_short_scan.eq_4 _ _ _ hI ho]
        by_cases hn : is_niladic c = true
        · rw [if_pos hn] at hspec2
          rw [get_opt_scan, set_opt_short reflection opts c cs a (is_niladic_ne c hn).1
            (is_niladic_ne c hn).2, set_opt_switch_niladic opts c cs _ hn] at h
          simp only at h
          have := ih _ _ _ _ _ _ h hspec2
          simpa [niladic_apply] using this
        · rw [if_neg hn] at hspec2
          cases hspec2

/-- A flag token that `get_opt` accepts and that the grammar of the spec lets
through: `get_opt` appends to the search paths the `-I` value the grammar reads
off the token, and reports one extra token exactly when the grammar says the
next token is taken as a value. -/
lemma get_opt_spec (reflection : Bool) (opts : Options) (tok : CStr) (a : Option CStr)
    (opts1 : Options) (k : Nat) (v : Option CStr) (b : Bool)
    (h : get_opt reflection opts tok a = Exec.ret (opts1, k))
    (hspec : spec_token tok a = some (v, b)) :
    opts1.inpaths = opts.inpaths ++ v.toList ∧
      opts1.inpath_count = opts.inpath_count + v.toList.length ∧
      k = (if b = true then 1 else 0) := by
  match tok with
  | [] => simp [spec_token] at hspec
  | [x] => simp [spec_token] at hspec
  | x :: y :: rest =>
    by_cases hx : x = '-'
    · subst hx
      by_cases hy : y = '-'
      · subst hy
        rw [spec_token.eq_1] at hspec
        unfold get_opt at h
        rw [if_pos (by simp)] at h
        simp only [List.tail_cons] at h
        split at h
        · rename_i o2 k2 heq
          simp only [Exec.ret.injEq, Prod.mk.injEq] at h
          obtain ⟨rfl, rfl⟩ := h
          cases hb : spec_long_takes_next rest with
          | none => simp [hb] at hspec
          | some b2 =>
            have hl := set_opt_long_spec reflection opts rest a _ _ b2 heq hb
            cases b2 with
            | true =>
              simp only [hb] at hspec
              cases a with
              | none => simp at hspec
              | some nxt =>
                simp only [Option.map_some', Option.some.injEq, Prod.mk.injEq] at hspec
                obtain ⟨rfl, rfl⟩ := hspec
                have hk : k2 = ArgKind.nextarg := hl.2.2.mpr rfl
                simp [hl.1, hl.2.1, hk]
            | false =>
              simp only [hb, Option.some.injEq, Prod.mk.injEq] at hspec
              obtain ⟨rfl, rfl⟩ := hspec
              have hk : ¬ k2 = ArgKind.nextarg := fun hk => by
                have := hl.2.2.mp hk
                cases this
              simp [hl.1, hl.2.1, hk]
        · cases h
        · cases h
      · have hs : spec_token ('-' :: y :: rest) a = spec_short_scan (y :: rest) a := by
          unfold spec_token
          split
          · rename_i heq
            injection heq with _ heq
            injection heq with heq _
            exact absurd heq hy
          · rename_i heq
            injection heq with _ heq
            injection heq with h1 h2
            subst h1
            subst h2
            rfl
          · rename_i hne
            exact absurd rfl (hne y rest)
        rw [hs] at hspec
        unfold get_opt at h
        rw [if_neg (by simpa using hy), if_neg (by simp)] at h
        exact get_opt_scan_spec reflection _ _ _ _ _ _ _ h hspec
    · have : spec_token (x :: y :: rest) a = none := by
        unfold spec_token
        split
        · rename_i heq
          injection heq with heq _
          exact absurd heq hx
        · rename_i heq
          injection heq with heq _
          exact absurd heq hx
        · rfl
      rw [this] at hspec
      cases hspec

/-- The tokens from an index on: none past the end, else the token at the index
followed by the tokens from the next index on. -/
lemma drop_of_getElem? (argv : List CStr) (i : Nat) :
    (argv[i]? = none → argv.drop i = []) ∧
      (∀ tok, argv[i]? = some tok → argv.drop i = tok :: argv.drop (i + 1)) := by
  constructor
  · intro h
    exact List.drop_eq_nil_of_le (List.getElem?_eq_none_iff.mp h)
  · intro tok h
    obtain ⟨hlt, heq⟩ := List.getElem?_eq_some_iff.mp h
    rw [← heq]
    exact List.drop_eq_getElem_cons hlt

/-- When the flag loop returns on a command line whose remaining tokens the
grammar of the spec lets through, it has appended to the search paths the values
of the remaining `-I` occurrences, in order. -/
lemma flag_loop_spec (reflection : Bool) (argv : List CStr) :
    ∀ (fuel i : Nat) (opts opts1 : Options) (j : Nat) (vs : List CStr),
      flag_loop reflection argv fuel i opts = Exec.ret (opts1, j) →
      spec_include_values (argv.drop i) = some vs →
      opts1.inpaths = opts.inpaths ++ vs ∧
        opts1.inpath_count = opts.inpath_count + vs.length := by
  intro fuel
  induction fuel with
  | zero => intro i opts opts1 j vs h; simp [flag_loop] at h
  | succ fuel ih =>
    intro i opts opts1 j vs h hspec
    simp only [flag_loop] at h
    cases htok : argv[i]? with
    | none =>
      simp only [htok, Exec.ret.injEq, Prod.mk.injEq] at h
      rw [(drop_of_getElem? argv i).1 htok] at hspec
      simp only [spec_include_values, Option.some.injEq] at hspec
      obtain ⟨rfl, _⟩ := h
      subst hspec
      simp
    | some tok =>
      simp only [htok] at h
      rw [(drop_of_getElem? argv i).2 tok htok] at hspec
      by_cases hdash : tok.head? = some '-'
      · simp only [hdash, if_true] at h
        cases hget : get_opt reflection opts tok argv[i + 1]? with
        | fuel_out => simp [hget] at h
        | exit status out => simp [hget] at h
        | ret r =>
          obtain ⟨opts2, k⟩ := r
          simp only [hget] at h
          cases hnext : argv[i + 1]? with
          | none =>
            rw [hnext] at hget
            rw [(drop_of_getElem? argv (i + 1)).1 hnext] at hspec
            simp only [spec_include_values, hdash, if_true, Option.map_eq_some'] at hspec
            obtain ⟨⟨v, b⟩, hv, rfl⟩ := hspec
            have hg := get_opt_spec reflection opts tok none opts2 k v b hget hv
            have hend : argv.drop (i + k + 1) = [] := by
              apply List.drop_eq_nil_of_le
              have := List.getElem?_eq_none_iff.mp hnext
              omega
            have := ih _ _ _ _ [] h (by rw [hend]; rfl)
            simp only [List.append_nil, List.length_nil, Nat.add_zero] at this
            rw [this.1, this.2]
            exact ⟨hg.1, hg.2.1⟩
          | some nxt =>
            rw [hnext] at hget
            rw [(drop_of_getElem? argv (i + 1)).2 nxt hnext] at hspec
            rw [spec_include_values.eq_3, if_pos hdash] at hspec
            cases hv : spec_token tok (some nxt) with
            | none => simp [hv] at hspec
            | some r =>
              obtain ⟨v, b⟩ := r
              have hg := get_opt_spec reflection opts tok (some nxt) opts2 k v b hget hv
              cases b with
              | false =>
                simp only [hv, Option.map_eq_some'] at hspec
                obtain ⟨vs1, hvs1, rfl⟩ := hspec
                have hk : k = 0 := by simpa using hg.2.2
                subst hk
                rw [← (drop_of_getElem? argv (i + 1)).2 nxt hnext] at hvs1
                have := ih _ _ _ _ vs1 h hvs1
                rw [this.1, this.2, hg.1, hg.2.1]
                simp only [List.append_assoc, List.length_append, true_and]
                omega
              | true =>
                simp only [hv, Option.map_eq_some'] at hspec
                obtain ⟨vs1, hvs1, rfl⟩ := hspec
                have hk : k = 1 := by simpa using hg.2.2
                subst hk
                have := ih _ _ _ _ vs1 h hvs1
                rw [this.1, this.2, hg.1, hg.2.1]
                simp only [List.append_assoc, List.length_append, true_and]
                omega
      · simp only [hdash, if_false, Exec.ret.injEq, Prod.mk.injEq] at h
        obtain ⟨rfl, _⟩ := h
        have : spec_include_values (tok :: argv.drop (i + 1)) = some [] := by
          cases argv.drop (i + 1) <;> simp [spec_include_values, hdash]
        rw [this] at hspec
        injection hspec with hspec
        subst hspec
        simp

/-- The switch of `set_opt` returns or exits. -/
lemma set_opt_switch_ne_fuel_out (opts : Options) (s : CStr) (a : Option CStr) :
    set_opt_switch opts s a ≠ Exec.fuel_out := by
  unfold set_opt_switch
  repeat' split
  all_goals exact fun h => Exec.noConfusion h

/-- The source's `set_opt` returns or exits. -/
lemma set_opt_ne_fuel_out (reflection : Bool) (opts : Options) (s : CStr) (a : Option CStr) :
    set_opt reflection opts s a ≠ Exec.fuel_out := by
  have hb : ∀ name store b, set_long_bool name store s b ≠ Exec.fuel_out := by
    intro name store b
    unfold set_long_bool
    repeat' split
    all_goals exact fun h => Exec.noConfusion h
  have hv : ∀ name store b, set_long_value name store s b ≠ Exec.fuel_out := by
    intro name store b
    unfold set_long_value
    split
    all_goals exact fun h => Exec.noConfusion h
  unfold set_opt
  by_cases c1 : (s.head? = some 'h' ∨ s = "-help".toList)
  · rw [if_pos c1]; exact fun h => Exec.noConfusion h
  rw [if_neg c1]
  by_cases c2 : s = "-version".toList
  · rw [if_pos c2]; exact fun h => Exec.noConfusion h
  rw [if_neg c2]
  by_cases c3 : s = "-stdout".toList
  · rw [if_pos c3]; exact fun h => Exec.noConfusion h
  rw [if_neg c3]
  by_cases c4 : (reflection = true ∧ s = "-schema".toList)
  · rw [if_pos c4]; exact fun h => Exec.noConfusion h
  rw [if_neg c4]
  by_cases c5 : s = "-json-parser".toList
  · rw [if_pos c5]; exact fun h => Exec.noConfusion h
  rw [if_neg c5]
  by_cases c6 : s = "-json-printer".toList
  · rw [if_pos c6]; exact fun h => Exec.noConfusion h
  rw [if_neg c6]
  by_cases c7 : s = "-json".toList
  · rw [if_pos c7]; exact fun h => Exec.noConfusion h
  rw [if_neg c7]
  by_cases c8 : (reflection = true ∧
      match_long_arg "-schema-namespace".toList s (name_len s) = true)
  · rw [if_pos c8]; exact hb _ _ _
  rw [if_neg c8]
  by_cases c9 : (reflection = true ∧
      match_long_arg "-schema-length".toList s (name_len s) = true)
  · rw [if_pos c9]; exact hb _ _ _
  rw [if_neg c9]
  by_cases c10 : match_long_arg "-common-prefix".toList s (name_len s) = true
  · rw [if_pos c10]; exact hv _ _ _
  rw [if_neg c10]
  by_cases c11 : match_long_arg "-prefix".toList s (name_len s) = true
  · rw [if_pos c11]; exact hv _ _ _
  rw [if_neg c11]
  exact set_opt_switch_ne_fuel_out _ _ _

/-- The scan of a short-option token returns or exits. -/
lemma get_opt_scan_ne_fuel_out (reflection : Bool) (cs : List Char) :
    ∀ (opts : Options) (a : Option CStr),
      get_opt_scan reflection opts cs a ≠ Exec.fuel_out := by
  induction cs with
  | nil => intro opts a h; simp [get_opt_scan] at h
  | cons c cs ih =>
    intro opts a
    simp only [get_opt_scan]
    split
    · exact ih _ _
    · exact fun h => Exec.noConfusion h
    · exact fun h => Exec.noConfusion h
    · exact fun h => Exec.noConfusion h
    · rename_i heq
      exact absurd heq (set_opt_ne_fuel_out _ _ _ _)

/-- The source's `get_opt` returns or exits. -/
lemma get_opt_ne_fuel_out (reflection : Bool) (opts : Options) (s : CStr) (a : Option CStr) :
    get_opt reflection opts s a ≠ Exec.fuel_out := by
  unfold get_opt
  split
  · split
    · exact fun h => Exec.noConfusion h
    · exact fun h => Exec.noConfusion h
    · rename_i heq
      exact absurd heq (set_opt_ne_fuel_out _ _ _ _)
  · split
    · exact fun h => Exec.noConfusion h
    · exact get_opt_scan_ne_fuel_out _ _ _ _

/-- The flag loop does not run out of fuel when the fuel covers the tokens from
the index on and the one last test of the loop condition. -/
lemma flag_loop_enough_fuel (reflection : Bool) (argv : List CStr) :
    ∀ (fuel i : Nat) (opts : Options), 1 ≤ fuel → argv.length + 1 ≤ fuel + i →
      flag_loop reflection argv fuel i opts ≠ Exec.fuel_out := by
  intro fuel
  induction fuel with
  | zero => intro i opts h; omega
  | succ fuel ih =>
    intro i opts _ hlen
    simp only [flag_loop]
    split
    · exact fun h => Exec.noConfusion h
    · rename_i tok htok
      have hi : i < argv.length := (List.getElem?_eq_some_iff.mp htok).1
      split
      · split
        · exact ih _ _ (by omega) (by omega)
        · exact fun h => Exec.noConfusion h
        · rename_i heq
          exact absurd heq (get_opt_ne_fuel_out _ _ _ _)
      · exact fun h => Exec.noConfusion h

/-- The source's `main` returns on every argument vector: the fuel it gives the
flag loop, `argc`, is enough. -/
lemma main_returns {σ : Type} (reflection : Bool) (B : Backend σ) (st : σ)
    (argv : List CStr) : (main reflection B st argv).isSome = true := by
  unfold main
  dsimp only
  split
  · rfl
  · rename_i hlen
    split
    · rename_i heq
      exact absurd heq (flag_loop_enough_fuel reflection argv _ _ _ (by omega) (by omega))
    · rfl
    · repeat' split
      all_goals rfl

/-- The offset at which `strchr` finds a character is the length of the text
before the first occurrence of the character. -/
lemma strchr_offset (c : Char) : ∀ (s w : CStr), strchr s c = some w →
    s.length - w.length = (s.takeWhile (fun d => d != c)).length ∧ w.length ≤ s.length := by
  intro s
  induction s with
  | nil => intro w h; simp [strchr] at h
  | cons x xs ih =>
    intro w h
    simp only [strchr] at h
    split at h
    · rename_i hx
      injection h with h
      subst h
      simp [List.takeWhile, hx]
    · rename_i hx
      have := ih w h
      have hne : (x != c) = true := by simpa using hx
      simp only [List.takeWhile, hne, List.length_cons]
      omega

/-- A name that matches the first `n` characters of a text and has length `n` is
the text cut after `n` characters. -/
lemma strncmp_eq_take : ∀ (x y : CStr) (n : Nat), strncmp_eq x y n = true →
    x.length = n → x = y.take n := by
  intro x
  induction x with
  | nil =>
    intro y n _ hlen
    simp only [List.length_nil] at hlen
    subst hlen
    simp
  | cons c x ih =>
    intro y n h hlen
    cases n with
    | zero => simp at hlen
    | succ n =>
      cases y with
      | nil => simp [strncmp_eq] at h
      | cons d y =>
        simp only [strncmp_eq, Bool.and_eq_true, beq_iff_eq] at h
        simp only [List.length_cons, Nat.add_right_cancel_iff] at hlen
        rw [h.1, List.take_succ_cons, ← ih y n h.2 hlen]

/-- Cutting a text after as many characters as its longest prefix satisfying a
test has gives that prefix. -/
lemma take_length_takeWhile (p : Char → Bool) : ∀ s : CStr,
    s.take (s.takeWhile p).length = s.takeWhile p := by
  intro s
  induction s with
  | nil => rfl
  | cons x xs ih =>
    by_cases hx : p x = true
    · simp [List.takeWhile, hx, ih]
    · simp [List.takeWhile, hx]

/-- A long option name that matches a text with `=` is the text before the
first `=`. -/
lemma match_long_arg_with_eq (name s w : CStr) (hv : strchr s '=' = some w)
    (h : match_long_arg name s (name_len s) = true) :
    name = s.takeWhile (fun d => d != '=') := by
  unfold match_long_arg name_len at h
  simp only [hv, Bool.and_eq_true, beq_iff_eq] at h
  have := strncmp_eq_take name s _ h.1 h.2
  rw [(strchr_offset '=' s w hv).1, take_length_takeWhile] at this
  exact this

/-- A long option accepted by `set_opt` is a long option of the grammar of the
spec. -/
lemma set_opt_long_spec_defined (reflection : Bool) (opts : Options) (body : CStr)
    (a : Option CStr) (opts1 : Options) (k : ArgKind)
    (h : set_opt reflection opts ('-' :: body) a = Exec.ret (opts1, k)) :
    ∃ b, spec_long_takes_next body = some b ∧ (b = true → a.isSome = true) := by
  have hnil : ∀ name : CStr, name ∈ spec_niladic_long → body = name →
      ∃ b, spec_long_takes_next body = some b ∧ (b = true → a.isSome = true) := by
    intro name hname hb
    subst hb
    refine ⟨false, ?_, fun hf => by cases hf⟩
    unfold spec_long_takes_next
    rw [if_pos hname]
  have hvalue : ∀ name : CStr, name ∈ spec_value_long →
      match_long_arg ('-' :: name) ('-' :: body) (name_len ('-' :: body)) = true →
      (∃ x, arg_after_eq ('-' :: body) a = some x) →
      ∃ b, spec_long_takes_next body = some b ∧ (b = true → a.isSome = true) := by
    intro name hname hmatch hx
    cases hv : strchr ('-' :: body) '=' with
    | none =>
      have hb := match_long_arg_no_eq _ _ hv hmatch
      injection hb with _ hb
      subst hb
      obtain ⟨x, hx⟩ := hx
      simp only [arg_after_eq, hv] at hx
      refine ⟨true, ?_, fun _ => by simp [hx]⟩
      simp only [spec_value_long, List.mem_cons, List.mem_singleton, List.not_mem_nil,
        or_false] at hname
      rcases hname with rfl | rfl | rfl | rfl <;> decide
    | some w =>
      have hmem : '=' ∈ body := by
        have := strchr_some_mem '=' _ _ hv
        simpa using this
      have hname2 := match_long_arg_with_eq _ _ w hv hmatch
      have hne : ('-' != '=') = true := by decide
      simp only [List.takeWhile, hne] at hname2
      injection hname2 with _ hname2
      refine ⟨false, ?_, fun hf => by cases hf⟩
      unfold spec_long_takes_next
      split
      · rfl
      · rw [if_pos (by simpa using hmem), if_pos (hname2 ▸ hname)]
  rcases set_opt_ret _ _ _ _ _ _ h with h | h | h | h | h | h | h | h | h | h
  · exact hnil "stdout".toList (by decide) (by injection h.1)
  · exact hnil "schema".toList (by decide) (by injection h.2.1)
  · exact hnil "json-parser".toList (by decide) (by injection h.1)
  · exact hnil "json-printer".toList (by decide) (by injection h.1)
  · exact hnil "json".toList (by decide) (by injection h.1)
  · obtain ⟨_, hm, x, hx, _⟩ := h
    exact hvalue "schema-namespace".toList (by decide) hm ⟨x, hx⟩
  · obtain ⟨_, hm, x, hx, _⟩ := h
    exact hvalue "schema-length".toList (by decide) hm ⟨x, hx⟩
  · obtain ⟨hm, x, hx, _⟩ := h
    exact hvalue "common-prefix".toList (by decide) hm ⟨x, hx⟩
  · obtain ⟨hm, x, hx, _⟩ := h
    exact hvalue "prefix".toList (by decide) hm ⟨x, hx⟩
  · have := h.2
    simp [set_opt_switch] at this

/-- A short-option token whose scan returns and does not come upon a dash is a
run of short options of the grammar of the spec. -/
lemma get_opt_scan_spec_defined (reflection : Bool) (cs : List Char) :
    ∀ (opts : Options) (a : Option CStr) (opts1 : Options) (k : Nat),
      get_opt_scan reflection opts cs a = Exec.ret (opts1, k) →
      scan_meets_dash cs = false →
      ∃ r, spec_short_scan cs a = some r := by
  induction cs with
  | nil => intro opts a opts1 k _ _; exact ⟨_, rfl⟩
  | cons c cs ih =>
    intro opts a opts1 k h hdash
    have hc : c ≠ '-' := by
      rintro rfl
      simp [scan_meets_dash] at hdash
    have hh : c ≠ 'h' := by
      rintro rfl
      have : set_opt reflection opts ('h' :: cs) a = Exec.exit 0 [(Stream.stdout, Msg.help)] := by
        unfold set_opt
        rw [if_pos]
        exact Or.inl rfl
      rw [get_opt_scan, this] at h
      cases h
    rw [get_opt_scan, set_opt_short reflection opts c cs a hc hh] at h
    cases hs : set_opt_switch opts (c :: cs) (arg_after_eq (c :: cs) a) with
    | fuel_out => simp [hs] at h
    | exit status out => simp [hs] at h
    | ret r =>
      obtain ⟨opts2, kind⟩ := r
      have hnil : is_niladic c = true → kind = ArgKind.noarg →
          ∃ r, spec_short_scan (c :: cs) a = some r := by
        intro hn hk
        subst hk
        simp only [hs] at h
        have hd : scan_meets_dash cs = false := by
          simpa [scan_meets_dash, hc, hn] using hdash
        obtain ⟨r, hr⟩ := ih _ _ _ _ h hd
        refine ⟨r, ?_⟩
        rw [spec_short_scan.eq_4 _ _ _ (by rintro rfl; revert hn; decide)
          (by rintro rfl; revert hn; decide), if_pos hn]
        exact hr
      rcases set_opt_switch_ret _ _ _ _ _ hs with
        ⟨t, ht, hne, _, _⟩ | ⟨x, ht, hx, _, _⟩ | ⟨t, ht, hne, _, _, _⟩ | ⟨x, ht, hx, _, _, _⟩ |
        ⟨t, ht, hk, _⟩ | ⟨t, ht, hk, _⟩ | ⟨t, ht, hk, _⟩ | ⟨t, ht, hk, _⟩ | ⟨t, ht, hk, _⟩
      · injection ht with h1 h2
        subst h1; subst h2
        exact ⟨(some cs, false), by simp [spec_short_scan, hne]⟩
      · injection ht with h1 h2
        subst h1; subst h2
        have ha : arg_after_eq ['I'] a = a := by simp [arg_after_eq, strchr]
        rw [ha] at hx
        subst hx
        exact ⟨(some x, true), by simp [spec_short_scan]⟩
      · injection ht with h1 h2
        subst h1; subst h2
        exact ⟨(none, false), by simp [spec_short_scan, hne]⟩
      · injection ht with h1 h2
        subst h1; subst h2
        have ha : arg_after_eq ['o'] a = a := by simp [arg_after_eq, strchr]
        rw [ha] at hx
        subst hx
        exact ⟨(none, true), by simp [spec_short_scan]⟩
      · injection ht with h1 _
        exact hnil (by rw [h1]; decide) hk
      · injection ht with h1 _
        exact hnil (by rw [h1]; decide) hk
      · injection ht with h1 _
        exact hnil (by rw [h1]; decide) hk
      · injection ht with h1 _
        exact hnil (by rw [h1]; decide) hk
      · injection ht with h1 _
        exact hnil (by rw [h1]; decide) hk

/-- A flag token that `get_opt` accepts and that has no dash inside its flags is
a flag token of the grammar of the spec. -/
lemma get_opt_spec_defined (reflection : Bool) (opts : Options) (tok : CStr)
    (a : Option CStr) (opts1 : Options) (k : Nat)
    (h : get_opt reflection opts tok a = Exec.ret (opts1, k))
    (hdash : tok.head? = some '-') (hin : dash_inside_flags tok = false) :
    ∃ r, spec_token tok a = some r := by
  match tok, hdash with
  | [x], hdash =>
    unfold get_opt at h
    rw [if_neg (by simp), if_pos (by simp)] at h
    cases h
  | x :: y :: rest, hdash =>
    simp only [List.head?_cons, Option.some.injEq] at hdash
    subst hdash
    by_cases hy : y = '-'
    · subst hy
      unfold get_opt at h
      rw [if_pos (by simp)] at h
      simp only [List.tail_cons] at h
      split at h
      · rename_i o2 k2 heq
        obtain ⟨b, hb, hba⟩ := set_opt_long_spec_defined reflection opts rest a _ _ heq
        rw [spec_token.eq_1, hb]
        cases b with
        | false => exact ⟨_, rfl⟩
        | true =>
          cases a with
          | none => simp at hba
          | some nxt => exact ⟨_, rfl⟩
      · cases h
      · cases h
    · have hs : spec_token ('-' :: y :: rest) a = spec_short_scan (y :: rest) a := by
        unfold spec_token
        split
        · rename_i heq
          injection heq with _ heq
          injection heq with heq _
          exact absurd heq hy
        · rename_i heq
          injection heq with _ heq
          injection heq with h1 h2
          subst h1
          subst h2
          rfl
        · rename_i hne
          exact absurd rfl (hne y rest)
      rw [hs]
      unfold get_opt at h
      rw [if_neg (by simpa using hy), if_neg (by simp)] at h
      have hd : scan_meets_dash (y :: rest) = false := by
        unfold dash_inside_flags at hin
        have hne : (y != '-') = true := by simpa using hy
        simpa [hne] using hin
      exact get_opt_scan_spec_defined reflection _ _ _ _ _ h hd

/-- When the flag loop returns on a command line none of whose tokens has a dash
inside its flags, the grammar of the spec lets the remaining tokens through. -/
lemma flag_loop_spec_defined (reflection : Bool) (argv : List CStr)
    (hin : ∀ tok ∈ argv, dash_inside_flags tok = false) :
    ∀ (fuel i : Nat) (opts opts1 : Options) (j : Nat),
      flag_loop reflection argv fuel i opts = Exec.ret (opts1, j) →
      ∃ vs, spec_include_values (argv.drop i) = some vs := by
  intro fuel
  induction fuel with
  | zero => intro i opts opts1 j h; simp [flag_loop] at h
  | succ fuel ih =>
    intro i opts opts1 j h
    simp only [flag_loop] at h
    cases htok : argv[i]? with
    | none =>
      rw [(drop_of_getElem? argv i).1 htok]
      exact ⟨_, rfl⟩
    | some tok =>
      simp only [htok] at h
      rw [(drop_of_getElem? argv i).2 tok htok]
      have hmem : tok ∈ argv := by
        obtain ⟨hlt, heq⟩ := List.getElem?_eq_some_iff.mp htok
        rw [← heq]
        exact List.getElem_mem hlt
      by_cases hdash : tok.head? = some '-'
      · simp only [hdash, if_true] at h
        cases hget : get_opt reflection opts tok argv[i + 1]? with
        | fuel_out => simp [hget] at h
        | exit status out => simp [hget] at h
        | ret r =>
          obtain ⟨opts2, k⟩ := r
          simp only [hget] at h
          obtain ⟨⟨v, b⟩, hv⟩ := get_opt_spec_defined reflection opts tok _ _ _ hget hdash
            (hin tok hmem)
          have hg := get_opt_spec reflection opts tok _ opts2 k v b hget hv
          cases hnext : argv[i + 1]? with
          | none =>
            rw [hnext] at hv
            rw [(drop_of_getElem? argv (i + 1)).1 hnext]
            exact ⟨v.toList, by simp [spec_include_values, hdash, hv]⟩
          | some nxt =>
            rw [hnext] at hv
            rw [(drop_of_getElem? argv (i + 1)).2 nxt hnext, spec_include_values.eq_3,
              if_pos hdash, hv]
            cases b with
            | false =>
              have hk : k = 0 := by simpa using hg.2.2
              subst hk
              obtain ⟨vs1, hvs1⟩ := ih _ _ _ _ h
              rw [(drop_of_getElem? argv (i + 1)).2 nxt hnext] at hvs1
              exact ⟨v.toList ++ vs1, by simp [hvs1]⟩
            | true =>
              have hk : k = 1 := by simpa using hg.2.2
              subst hk
              obtain ⟨vs1, hvs1⟩ := ih _ _ _ _ h
              exact ⟨v.toList ++ vs1, by simp [hvs1]⟩
      · exact ⟨[], by cases argv.drop (i + 1) <;> simp [spec_include_values, hdash]⟩

/-- A text matches its own first characters. -/
lemma strncmp_eq_take_self : ∀ (s : CStr) (n : Nat), n ≤ s.length →
    strncmp_eq (s.take n) s n = true := by
  intro s
  induction s with
  | nil =>
    intro n hn
    simp only [List.length_nil, Nat.le_zero] at hn
    subst hn
    rfl
  | cons c s ih =>
    intro n hn
    cases n with
    | zero => rfl
    | succ n =>
      simp only [List.length_cons, Nat.add_le_add_iff_right] at hn
      simp [strncmp_eq, ih n hn]

/-- The length `set_opt` gives the option name is the length of the text before
the first `=`. -/
lemma take_name_len (s : CStr) :
    s.take (name_len s) = s.takeWhile (fun d => d != '=') ∧ name_len s ≤ s.length := by
  unfold name_len
  cases hv : strchr s '=' with
  | none =>
    have hall : ∀ t : CStr, strchr t '=' = none → t.takeWhile (fun d => d != '=') = t := by
      intro t
      induction t with
      | nil => intro _; rfl
      | cons x xs ih =>
        intro h
        simp only [strchr] at h
        split at h
        · cases h
        · rename_i hx
          have hne : (x != '=') = true := by simpa using hx
          simp [List.takeWhile, hne, ih h]
    simp [hall s hv]
  | some w =>
    have h := strchr_offset '=' s w hv
    simp only
    rw [h.1, take_length_takeWhile]
    exact ⟨rfl, by rw [← h.1]; omega⟩

/-- A long option name matches the text `set_opt` is given exactly when it is
the text before the first `=`. -/
lemma match_long_arg_iff (name s : CStr) :
    match_long_arg name s (name_len s) = true ↔ name = s.takeWhile (fun d => d != '=') := by
  have ht := take_name_len s
  constructor
  · intro h
    unfold match_long_arg at h
    simp only [Bool.and_eq_true, beq_iff_eq] at h
    rw [← ht.1]
    exact strncmp_eq_take name s _ h.1 h.2
  · intro h
    unfold match_long_arg
    rw [h, ← ht.1, strncmp_eq_take_self s _ ht.2]
    simp [List.length_take, ht.2]

/-- The text before the first `=` of a name without `=` followed by `=` and a
value is the name; `strchr` finds the `=` that follows the name. -/
lemma strchr_name_eq_value : ∀ (name v : CStr), '=' ∉ name →
    strchr (name ++ '=' :: v) '=' = some ('=' :: v) ∧
      (name ++ '=' :: v).takeWhile (fun d => d != '=') = name := by
  intro name
  induction name with
  | nil => intro v _; simp [strchr, List.takeWhile]
  | cons x xs ih =>
    intro v hmem
    have hx : x ≠ '=' := fun h => hmem (by simp [h])
    have hxs : '=' ∉ xs := fun h => hmem (List.mem_cons_of_mem _ h)
    have hne : (x != '=') = true := by simpa using hx
    simp [strchr, List.takeWhile, hx, hne, ih v hxs]

/-- In a text without `=`, `strchr` finds none and the text before the first
`=` is the whole text. -/
lemma strchr_no_eq : ∀ (s : CStr), '=' ∉ s →
    strchr s '=' = none ∧ s.takeWhile (fun d => d != '=') = s := by
  intro s
  induction s with
  | nil => intro _; simp [strchr]
  | cons x xs ih =>
    intro hmem
    have hx : x ≠ '=' := fun h => hmem (by simp [h])
    have hxs : '=' ∉ xs := fun h => hmem (List.mem_cons_of_mem _ h)
    have hne : (x != '=') = true := by simpa using hx
    simp [strchr, List.takeWhile, hx, hne, ih hxs]

/-- On a text that starts with a dash and is none of the long options compared
as whole texts, `set_opt` is its chain of value-taking long options followed by
its switch. -/
lemma set_opt_long_values (reflection : Bool) (opts : Options) (s : CStr)
    (a0 : Option CStr) (hd : s.head? = some '-') (hex : s ∉ exact_long_names) :
    set_opt reflection opts s a0 =
      if reflection = true ∧
          match_long_arg "-schema-namespace".toList s (name_len s) = true then
        set_long_bool "--schema-namespace".toList
          (fun b => { opts with bgen_qualify_names := b }) s (arg_after_eq s a0)
      else if reflection = true ∧
          match_long_arg "-schema-length".toList s (name_len s) = true then
        set_long_bool "--schema-length".toList
          (fun b => { opts with bgen_length_prefix := b }) s (arg_after_eq s a0)
      else if match_long_arg "-common-prefix".toList s (name_len s) = true then
        set_long_value "--common-prefix".toList
          (fun x => { opts with nsc := some x }) s (arg_after_eq s a0)
      else if match_long_arg "-prefix".toList s (name_len s) = true then
        set_long_value "-n".toList (fun x => { opts with ns := some x }) s (arg_after_eq s a0)
      else
        set_opt_switch opts s (arg_after_eq s a0) := by
  have hne : ∀ lit : CStr, lit ∈ exact_long_names → s ≠ lit := by
    intro lit hlit h
    exact hex (h ▸ hlit)
  unfold set_opt
  rw [if_neg (by
    rintro (h | h)
    · rw [hd] at h
      revert h
      decide
    · exact hne _ (by decide) h)]
  rw [if_neg (hne _ (by decide)), if_neg (hne _ (by decide)),
    if_neg (fun h => hne _ (by decide) h.2), if_neg (hne _ (by decide)),
    if_neg (hne _ (by decide)), if_neg (hne _ (by decide))]

/-- A text whose part before the first `=` is one of the value-taking long
option names starts with a dash and is none of the long options compared as
whole texts. -/
lemma value_name_not_exact (s name : CStr)
    (hname : name ∈ ["-schema-namespace".toList, "-schema-length".toList,
      "-common-prefix".toList, "-prefix".toList])
    (htw : s.takeWhile (fun d => d != '=') = name) :
    s.head? = some '-' ∧ s ∉ exact_long_names := by
  constructor
  · cases s with
    | nil =>
      simp only [List.takeWhile_nil] at htw
      subst htw
      exact absurd hname (by decide)
    | cons x xs =>
      by_cases hx : (x != '=') = true
      · simp only [List.takeWhile, hx] at htw
        have hh : name.head? = some x := by rw [← htw]; rfl
        have : name.head? = some '-' := by
          simp only [List.mem_cons, List.mem_singleton, List.not_mem_nil, or_false] at hname
          rcases hname with rfl | rfl | rfl | rfl <;> rfl
        rw [hh] at this
        simpa using this
      · simp only [List.takeWhile, hx] at htw
        subst htw
        exact absurd hname (by decide)
  · intro hmem
    have hself : ∀ lit ∈ exact_long_names, lit.takeWhile (fun d => d != '=') = lit := by
      decide
    have hdisj : ∀ lit ∈ exact_long_names,
        lit ∉ ["-schema-namespace".toList, "-schema-length".toList,
          "-common-prefix".toList, "-prefix".toList] := by
      decide
    rw [hself s hmem] at htw
    exact hdisj s hmem (htw ▸ hname)

/-- On a text whose part before the first `=` is `-prefix`, `set_opt` stores the
value as name space prefix. -/
lemma set_opt_prefix_option (reflection : Bool) (opts : Options) (s : CStr)
    (a0 : Option CStr) (htw : s.takeWhile (fun d => d != '=') = "-prefix".toList) :
    set_opt reflection opts s a0
      = set_long_value "-n".toList (fun x => { opts with ns := some x }) s
          (arg_after_eq s a0) := by
  have h := value_name_not_exact s _ (by decide) htw
  have hm : ∀ lit : CStr, lit ≠ "-prefix".toList →
      ¬ (match_long_arg lit s (name_len s) = true) := by
    intro lit hlit hmatch
    exact hlit (((match_long_arg_iff lit s).mp hmatch).trans htw)
  rw [set_opt_long_values reflection opts s a0 h.1 h.2,
    if_neg (fun hc => hm _ (by decide) hc.2), if_neg (fun hc => hm _ (by decide) hc.2),
    if_neg (hm _ (by decide)), if_pos ((match_long_arg_iff _ s).mpr htw.symm)]

/-- On a text whose part before the first `=` is `-common-prefix`, `set_opt`
stores the value as common prefix. -/
lemma set_opt_common_prefix_option (reflection : Bool) (opts : Options) (s : CStr)
    (a0 : Option CStr)
    (htw : s.takeWhile (fun d => d != '=') = "-common-prefix".toList) :
    set_opt reflection opts s a0
      = set_long_value "--common-prefix".toList (fun x => { opts with nsc := some x }) s
          (arg_after_eq s a0) := by
  have h := value_name_not_exact s _ (by decide) htw
  have hm : ∀ lit : CStr, lit ≠ "-common-prefix".toList →
      ¬ (match_long_arg lit s (name_len s) = true) := by
    intro lit hlit hmatch
    exact hlit (((match_long_arg_iff lit s).mp hmatch).trans htw)
  rw [set_opt_long_values reflection opts s a0 h.1 h.2,
    if_neg (fun hc => hm _ (by decide) hc.2), if_neg (fun hc => hm _ (by decide) hc.2),
    if_pos ((match_long_arg_iff _ s).mpr htw.symm)]

/-- With binary schema support compiled in, on a text whose part before the
first `=` is `-schema-namespace`, `set_opt` stores the boolean value of the
option or exits. -/
lemma set_opt_schema_namespace_option (opts : Options) (s : CStr) (a0 : Option CStr)
    (htw : s.takeWhile (fun d => d != '=') = "-schema-namespace".toList) :
    set_opt true opts s a0
      = set_long_bool "--schema-namespace".toList
          (fun b => { opts with bgen_qualify_names := b }) s (arg_after_eq s a0) := by
  have h := value_name_not_exact s _ (by decide) htw
  rw [set_opt_long_values true opts s a0 h.1 h.2,
    if_pos ⟨rfl, (match_long_arg_iff _ s).mpr htw.symm⟩]

/-- With binary schema support compiled in, on a text whose part before the
first `=` is `-schema-length`, `set_opt` stores the boolean value of the option
or exits. -/
lemma set_opt_schema_length_option (opts : Options) (s : CStr) (a0 : Option CStr)
    (htw : s.takeWhile (fun d => d != '=') = "-schema-length".toList) :
    set_opt true opts s a0
      = set_long_bool "--schema-length".toList
          (fun b => { opts with bgen_length_prefix := b }) s (arg_after_eq s a0) := by
  have h := value_name_not_exact s _ (by decide) htw
  have hm : ∀ lit : CStr, lit ≠ "-schema-length".toList →
      ¬ (match_long_arg lit s (name_len s) = true) := by
    intro lit hlit hmatch
    exact hlit (((match_long_arg_iff lit s).mp hmatch).trans htw)
  rw [set_opt_long_values true opts s a0 h.1 h.2,
    if_neg (fun hc => hm _ (by decide) hc.2),
    if_pos ⟨rfl, (match_long_arg_iff _ s).mpr htw.symm⟩]

/-- On a token of two dashes and more, `get_opt` is `set_opt` on the text after
the first dash, and reports one extra token exactly for `nextarg`. -/
lemma get_opt_long (reflection : Bool) (opts : Options) (s : CStr) (a : Option CStr)
    (hd : s.head? = some '-') :
    get_opt reflection opts ('-' :: s) a =
      match set_opt reflection opts s a with
      | Exec.ret (opts1, k) => Exec.ret (opts1, if k = ArgKind.nextarg then 1 else 0)
      | Exec.exit status out => Exec.exit status out
      | Exec.fuel_out => Exec.fuel_out := by
  unfold get_opt
  rw [if_pos (by simpa using hd)]
  rfl

/-- The values `parse_bool_arg` gives. -/
lemma parse_bool_arg_values (v : CStr) :
    (parse_bool_arg v = 0 ↔ v = "0".toList ∨ v = "no".toList) ∧
    (parse_bool_arg v = 1 ↔ v = "1".toList ∨ v = "yes".toList) ∧
    (parse_bool_arg v = -1 ↔
      ¬ (v = "0".toList ∨ v = "no".toList ∨ v = "1".toList ∨ v = "yes".toList)) := by
  have e01 : ¬ ((0 : Int) = 1) := by decide
  have e0m : ¬ ((0 : Int) = -1) := by decide
  have e10 : ¬ ((1 : Int) = 0) := by decide
  have e1m : ¬ ((1 : Int) = -1) := by decide
  have em0 : ¬ ((-1 : Int) = 0) := by decide
  have em1 : ¬ ((-1 : Int) = 1) := by decide
  unfold parse_bool_arg
  by_cases h0 : (v = ['0'] ∨ v = ['n', 'o'])
  · rw [if_pos h0]
    have h1 : ¬ (v = "1".toList ∨ v = "yes".toList) := by
      rcases h0 with rfl | rfl <;> decide
    exact ⟨⟨fun _ => h0, fun _ => rfl⟩, ⟨fun h => absurd h e01, fun h => absurd h h1⟩,
      ⟨fun h => absurd h e0m,
        fun h => absurd (h0.elim Or.inl (fun x => Or.inr (Or.inl x))) h⟩⟩
  · rw [if_neg h0]
    by_cases h1 : (v = ['1'] ∨ v = ['y', 'e', 's'])
    · rw [if_pos h1]
      exact ⟨⟨fun h => absurd h e10, fun h => absurd h h0⟩, ⟨fun _ => h1, fun _ => rfl⟩,
        ⟨fun h => absurd h e1m,
          fun h => absurd (h1.elim (fun x => Or.inr (Or.inr (Or.inl x)))
            (fun x => Or.inr (Or.inr (Or.inr x)))) h⟩⟩
    · rw [if_neg h1]
      refine ⟨⟨fun h => absurd h em0, fun h => absurd h h0⟩,
        ⟨fun h => absurd h em1, fun h => absurd h h1⟩, ⟨fun _ => ?_, fun _ => rfl⟩⟩
      rintro (h | h | h | h)
      · exact h0 (Or.inl h)
      · exact h0 (Or.inr h)
      · exact h1 (Or.inl h)
      · exact h1 (Or.inr h)

/-- The result of `set_long_bool` on a value, by the value of `parse_bool_arg`. -/
lemma set_long_bool_some (name : CStr) (store : Int → Options) (s v : CStr) :
    set_long_bool name store s (some v) =
      if parse_bool_arg v = -1 then Exec.exit (-1) [(Stream.stderr, Msg.invalid_boolean v)]
      else Exec.ret (store (parse_bool_arg v), long_arg_kind s) := by
  have hv := parse_bool_arg_values v
  unfold set_long_bool
  simp only
  by_cases h : parse_bool_arg v = -1
  · rw [if_pos h, if_pos (by rw [h]; decide)]
  · rw [if_neg h, if_neg]
    intro hneg
    apply h
    by_cases h0 : (v = "0".toList ∨ v = "no".toList)
    · rw [hv.1.mpr h0] at hneg
      exact absurd hneg (by decide)
    · by_cases h1 : (v = "1".toList ∨ v = "yes".toList)
      · rw [hv.2.1.mpr h1] at hneg
        exact absurd hneg (by decide)
      · exact hv.2.2.mpr (by
          rintro (h | h | h | h)
          · exact h0 (Or.inl h)
          · exact h0 (Or.inr h)
          · exact h1 (Or.inl h)
          · exact h1 (Or.inr h))

/-- The local values of `set_opt` on a long option name followed by `=` and a
value: the value is the text after the `=`, no next token is needed. -/
lemma inline_value (name v : CStr) (a0 : Option CStr) (hname : '=' ∉ name) :
    arg_after_eq (name ++ '=' :: v) a0 = some v ∧
      long_arg_kind (name ++ '=' :: v) = ArgKind.noarg ∧
      (name ++ '=' :: v).takeWhile (fun d => d != '=') = name := by
  have h := strchr_name_eq_value name v hname
  simp [arg_after_eq, long_arg_kind, h.1, h.2]

/-- The local values of `set_opt` on a long option name alone: the value is the
next token. -/
lemma next_value (name : CStr) (a0 : Option CStr) (hname : '=' ∉ name) :
    arg_after_eq name a0 = a0 ∧ long_arg_kind name = ArgKind.nextarg ∧
      name.takeWhile (fun d => d != '=') = name := by
  have h := strchr_no_eq name hname
  simp [arg_after_eq, long_arg_kind, h.1, h.2]

/-- With binary schema support compiled in, `get_opt` on `--schema-namespace`
with its value inline or in the next token. -/
lemma get_opt_schema_namespace (opts : Options) (v : CStr) :
    (∀ a, get_opt true opts ("--schema-namespace=".toList ++ v) a =
      if parse_bool_arg v = -1 then Exec.exit (-1) [(Stream.stderr, Msg.invalid_boolean v)]
      else Exec.ret ({ opts with bgen_qualify_names := parse_bool_arg v }, 0)) ∧
    get_opt true opts "--schema-namespace".toList (some v) =
      (if parse_bool_arg v = -1 then Exec.exit (-1) [(Stream.stderr, Msg.invalid_boolean v)]
      else Exec.ret ({ opts with bgen_qualify_names := parse_bool_arg v }, 1)) := by
  constructor
  · intro a
    have hi := inline_value "-schema-namespace".toList v a (by decide)
    show get_opt true opts ('-' :: ("-schema-namespace".toList ++ '=' :: v)) a = _
    rw [get_opt_long true opts ("-schema-namespace".toList ++ '=' :: v) a rfl,
      set_opt_schema_namespace_option opts _ a hi.2.2, hi.1, set_long_bool_some, hi.2.1]
    by_cases h : parse_bool_arg v = -1 <;> simp [h]
  · have hn := next_value "-schema-namespace".toList (some v) (by decide)
    show get_opt true opts ('-' :: "-schema-namespace".toList) (some v) = _
    rw [get_opt_long true opts "-schema-namespace".toList (some v) rfl,
      set_opt_schema_namespace_option opts _ _ hn.2.2, hn.1, set_long_bool_some, hn.2.1]
    by_cases h : parse_bool_arg v = -1 <;> simp [h]

/-- With binary schema support compiled in, `get_opt` on `--schema-length` with
its value inline or in the next token. -/
lemma get_opt_schema_length (opts : Options) (v : CStr) :
    (∀ a, get_opt true opts ("--schema-length=".toList ++ v) a =
      if parse_bool_arg v = -1 then Exec.exit (-1) [(Stream.stderr, Msg.invalid_boolean v)]
      else Exec.ret ({ opts with bgen_length_prefix := parse_bool_arg v }, 0)) ∧
    get_opt true opts "--schema-length".toList (some v) =
      (if parse_bool_arg v = -1 then Exec.exit (-1) [(Stream.stderr, Msg.invalid_boolean v)]
      else Exec.ret ({ opts with bgen_length_prefix := parse_bool_arg v }, 1)) := by
  constructor
  · intro a
    have hi := inline_value "-schema-length".toList v a (by decide)
    show get_opt true opts ('-' :: ("-schema-length".toList ++ '=' :: v)) a = _
    rw [get_opt_long true opts ("-schema-length".toList ++ '=' :: v) a rfl,
      set_opt_schema_length_option opts _ a hi.2.2, hi.1, set_long_bool_some, hi.2.1]
    by_cases h : parse_bool_arg v = -1 <;> simp [h]
  · have hn := next_value "-schema-length".toList (some v) (by decide)
    show get_opt true opts ('-' :: "-schema-length".toList) (some v) = _
    rw [get_opt_long true opts "-schema-length".toList (some v) rfl,
      set_opt_schema_length_option opts _ _ hn.2.2, hn.1, set_long_bool_some, hn.2.1]
    by_cases h : parse_bool_arg v = -1 <;> simp [h]

/-- A token of two dashes and a text that is no long option of the program makes
`get_opt` exit with status -1: the text is none of the niladic names and its
part before the first `=` is none of the value-taking names. -/
lemma unknown_long_option_fatal (reflection : Bool) (opts : Options) (body : CStr)
    (a : Option CStr)
    (hnil : body ∉ ["help".toList, "version".toList, "stdout".toList, "schema".toList,
      "json-parser".toList, "json-printer".toList, "json".toList])
    (hval : body.takeWhile (fun d => d != '=') ∉ spec_value_long) :
    get_opt reflection opts ('-' :: '-' :: body) a
      = Exec.exit (-1) [(Stream.stderr, Msg.invalid_option_str ('-' :: body))] := by
  have hex : '-' :: body ∉ exact_long_names := by
    intro h
    apply hnil
    simp only [exact_long_names, List.mem_cons, List.mem_singleton, List.not_mem_nil,
      or_false] at h
    rcases h with h | h | h | h | h | h | h <;>
    · injection h with _ h
      subst h
      decide
  have hm : ∀ name : CStr, name ∈ spec_value_long →
      ¬ (match_long_arg ('-' :: name) ('-' :: body) (name_len ('-' :: body)) = true) := by
    intro name hname hmatch
    have := (match_long_arg_iff _ _).mp hmatch
    have hne : ('-' != '=') = true := by decide
    simp only [List.takeWhile, hne] at this
    injection this with _ this
    exact hval (this ▸ hname)
  rw [get_opt_long reflection opts ('-' :: body) a rfl,
    set_opt_long_values reflection opts ('-' :: body) a rfl hex,
    if_neg (fun hc => hm "schema-namespace".toList (by decide) hc.2),
    if_neg (fun hc => hm "schema-length".toList (by decide) hc.2),
    if_neg (show ¬ (match_long_arg "-common-prefix".toList ('-' :: body)
      (name_len ('-' :: body)) = true) from hm "common-prefix".toList (by decide)),
    if_neg (show ¬ (match_long_arg "-prefix".toList ('-' :: body)
      (name_len ('-' :: body)) = true) from hm "prefix".toList (by decide))]
  rfl

/-- A single-dash token whose scan, after niladic flags, comes upon a character
that is neither a flag nor a dash makes `get_opt` exit with status -1. -/
lemma unknown_short_char_fatal (reflection : Bool) (opts : Options) (pack : List Char)
    (c : Char) (rest : CStr) (a : Option CStr) (hpack : ∀ d ∈ pack, is_niladic d = true)
    (hc : c ∉ ['c', 'w', 'v', 'r', 'a', 'I', 'o', 'h', '-']) :
    get_opt reflection opts (dash (pack ++ c :: rest)) a
      = Exec.exit (-1) [(Stream.stderr, Msg.invalid_option_chr c)] := by
  simp only [List.mem_cons, List.mem_singleton, List.not_mem_nil, or_false, not_or] at hc
  obtain ⟨h1, h2, h3, h4, h5, h6, h7, h8, h9⟩ := hc
  have hscan : get_opt_scan reflection opts (pack ++ c :: rest) a
      = Exec.exit (-1) [(Stream.stderr, Msg.invalid_option_chr c)] := by
    rw [get_opt_scan_niladic_append reflection pack _ opts a hpack, get_opt_scan,
      set_opt_short reflection _ c rest a h9 h8]
    have : set_opt_switch (niladic_apply opts pack) (c :: rest) (arg_after_eq (c :: rest) a)
        = Exec.exit (-1) [(Stream.stderr, Msg.invalid_option_chr c)] := by
      unfold set_opt_switch
      split
      · rename_i heq; injection heq with heq _; exact absurd heq h9
      · rename_i heq; injection heq with heq _; exact absurd heq h6
      · rename_i heq; injection heq with heq _; exact absurd heq h7
      · rename_i heq; injection heq with heq _; exact absurd heq h2
      · rename_i heq; injection heq with heq _; exact absurd heq h3
      · rename_i heq; injection heq with heq _; exact absurd heq h1
      · rename_i heq; injection heq with heq _; exact absurd heq h4
      · rename_i heq; injection heq with heq _; exact absurd heq h5
      · rename_i heq
        injection heq with heq _
        rw [heq]
      · rename_i heq; cases heq
    rw [this]
  unfold get_opt dash
  cases pack with
  | nil =>
    rw [if_neg (by simpa using h9), if_neg (by simp)]
    exact hscan
  | cons d ds =>
    have hd := hpack d (List.mem_cons_self _ _)
    rw [if_neg (by
      simp only [List.cons_append, List.tail_cons, List.head?_cons, Option.some.injEq]
      exact (is_niladic_ne d hd).1), if_neg (by simp)]
    exact hscan

/-- With the reader flag false, the value `main` gives `cgen` is true exactly
when one of builder, verifier, common reader, json parser and json printer is
set. -/
lemma cgen_requested_iff (opts : Options) (hr : opts.cgen_reader = false) :
    cgen_requested (set_common_builder opts) = true ↔
      (opts.cgen_builder = true ∨ opts.cgen_verifier = true ∨
        opts.cgen_common_reader = true ∨ opts.cgen_json_parser_flag = true ∨
        opts.cgen_json_printer = true) := by
  unfold cgen_requested set_common_builder
  cases hw : opts.cgen_builder <;> cases hv : opts.cgen_verifier <;>
    cases hc : opts.cgen_common_reader <;> cases hp : opts.cgen_json_parser_flag <;>
    cases hq : opts.cgen_json_printer <;> simp [hr, hw, hv, hc, hp, hq]

/-- The four ways one test of the loop condition and one iteration of the flag
loop can go, for the loop and for the list of its returning iterations. -/
lemma flag_loop_cases (reflection : Bool) (argv : List CStr) (fuel i : Nat) (opts : Options) :
    (argv[i]? = none ∧
      flag_loop reflection argv (fuel + 1) i opts = Exec.ret (opts, i) ∧
      flag_loop_trace reflection argv (fuel + 1) i opts = []) ∨
    (∃ tok, argv[i]? = some tok ∧ tok.head? ≠ some '-' ∧
      flag_loop reflection argv (fuel + 1) i opts = Exec.ret (opts, i) ∧
      flag_loop_trace reflection argv (fuel + 1) i opts = []) ∨
    (∃ tok status out, argv[i]? = some tok ∧ tok.head? = some '-' ∧
      get_opt reflection opts tok argv[i + 1]? = Exec.exit status out ∧
      flag_loop reflection argv (fuel + 1) i opts = Exec.exit status out ∧
      flag_loop_trace reflection argv (fuel + 1) i opts = []) ∨
    (∃ tok opts1 k, argv[i]? = some tok ∧ tok.head? = some '-' ∧
      get_opt reflection opts tok argv[i + 1]? = Exec.ret (opts1, k) ∧
      flag_loop reflection argv (fuel + 1) i opts
        = flag_loop reflection argv fuel (i + k + 1) opts1 ∧
      flag_loop_trace reflection argv (fuel + 1) i opts
        = (i, k, opts1) :: flag_loop_trace reflection argv fuel (i + k + 1) opts1) := by
  cases htok : argv[i]? with
  | none => exact Or.inl ⟨rfl, by simp [flag_loop, htok], by simp [flag_loop_trace, htok]⟩
  | some tok =>
    by_cases hdash : tok.head? = some '-'
    · cases hget : get_opt reflection opts tok argv[i + 1]? with
      | fuel_out => exact absurd hget (get_opt_ne_fuel_out _ _ _ _)
      | exit status out =>
        exact Or.inr (Or.inr (Or.inl ⟨tok, status, out, rfl, hdash, hget,
          by simp [flag_loop, htok, hdash, hget],
          by simp [flag_loop_trace, htok, hdash, hget]⟩))
      | ret r =>
        obtain ⟨opts1, k⟩ := r
        exact Or.inr (Or.inr (Or.inr ⟨tok, opts1, k, rfl, hdash, hget,
          by simp [flag_loop, htok, hdash, hget],
          by simp [flag_loop_trace, htok, hdash, hget]⟩))
    · exact Or.inr (Or.inl ⟨tok, rfl, hdash, by simp [flag_loop, htok, hdash],
        by simp [flag_loop_trace, htok, hdash]⟩)

/-- When `set_opt` answers `nextarg`, there is a next token. -/
lemma set_opt_nextarg_needs_next (reflection : Bool) (opts : Options) (s : CStr)
    (a0 : Option CStr) (opts1 : Options)
    (h : set_opt reflection opts s a0 = Exec.ret (opts1, ArgKind.nextarg)) :
    a0.isSome = true := by
  have hlong : ∀ x, arg_after_eq s a0 = some x → ArgKind.nextarg = long_arg_kind s →
      a0.isSome = true := by
    intro x hx hk
    cases hv : strchr s '=' with
    | none =>
      simp only [arg_after_eq, hv] at hx
      simp [hx]
    | some w => simp [long_arg_kind, hv] at hk
  rcases set_opt_ret _ _ _ _ _ _ h with h | h | h | h | h | h | h | h | h | h
  · exact absurd h.2.1 (by decide)
  · exact absurd h.2.2.1 (by decide)
  · exact absurd h.2.1 (by decide)
  · exact absurd h.2.1 (by decide)
  · exact absurd h.2.1 (by decide)
  · obtain ⟨_, _, x, hx, _, hk, _⟩ := h
    exact hlong x hx hk
  · obtain ⟨_, _, x, hx, _, hk, _⟩ := h
    exact hlong x hx hk
  · obtain ⟨_, x, hx, hk, _⟩ := h
    exact hlong x hx hk
  · obtain ⟨_, x, hx, hk, _⟩ := h
    exact hlong x hx hk
  · rcases set_opt_switch_ret _ _ _ _ _ h.2 with
      ⟨_, _, _, hk, _⟩ | ⟨x, hs, hx, _, _⟩ | ⟨_, _, _, _, hk, _⟩ | ⟨x, hs, hx, _, _, _⟩ |
      ⟨_, _, hk, _⟩ | ⟨_, _, hk, _⟩ | ⟨_, _, hk, _⟩ | ⟨_, _, hk, _⟩ | ⟨_, _, hk, _⟩
    · exact absurd hk (by decide)
    · subst hs
      have ha : arg_after_eq ['I'] a0 = a0 := by simp [arg_after_eq, strchr]
      rw [ha] at hx
      simp [hx]
    · exact absurd hk (by decide)
    · subst hs
      have ha : arg_after_eq ['o'] a0 = a0 := by simp [arg_after_eq, strchr]
      rw [ha] at hx
      simp [hx]
    · exact absurd hk (by decide)
    · exact absurd hk (by decide)
    · exact absurd hk (by decide)
    · exact absurd hk (by decide)
    · exact absurd hk (by decide)

/-- The scan of a short-option token reports 0 or 1 extra token, and 1 only
when there is a next token. -/
lemma get_opt_scan_extra (reflection : Bool) (cs : List Char) :
    ∀ (opts : Options) (a : Option CStr) (opts1 : Options) (k : Nat),
      get_opt_scan reflection opts cs a = Exec.ret (opts1, k) →
      k ≤ 1 ∧ (k = 1 → a.isSome = true) := by
  induction cs with
  | nil =>
    intro opts a opts1 k h
    simp only [get_opt_scan, Exec.ret.injEq, Prod.mk.injEq] at h
    omega
  | cons c cs ih =>
    intro opts a opts1 k h
    simp only [get_opt_scan] at h
    split at h
    · exact ih _ _ _ _ h
    · simp only [Exec.ret.injEq, Prod.mk.injEq] at h
      omega
    · rename_i o2 heq
      simp only [Exec.ret.injEq, Prod.mk.injEq] at h
      exact ⟨by omega, fun _ => set_opt_nextarg_needs_next _ _ _ _ _ heq⟩
    · cases h
    · cases h

/-- The source's `get_opt` reports 0 or 1 extra token, and 1 only when there is
a next token. -/
lemma get_opt_extra (reflection : Bool) (opts : Options) (s : CStr) (a : Option CStr)
    (opts1 : Options) (k : Nat) (h : get_opt reflection opts s a = Exec.ret (opts1, k)) :
    k ≤ 1 ∧ (k = 1 → a.isSome = true) := by
  unfold get_opt at h
  split at h
  · split at h
    · rename_i o2 k2 heq
      simp only [Exec.ret.injEq, Prod.mk.injEq] at h
      obtain ⟨_, hk⟩ := h
      by_cases hn : k2 = ArgKind.nextarg
      · subst hn
        exact ⟨by simp at hk; omega, fun _ => set_opt_nextarg_needs_next _ _ _ _ _ heq⟩
      · simp only [hn, if_false] at hk
        omega
    · cases h
    · cases h
  · split at h
    · cases h
    · exact get_opt_scan_extra reflection _ _ _ _ _ h

/-- With no fuel the list of iterations is empty. -/
lemma flag_loop_trace_zero (reflection : Bool) (argv : List CStr) (i : Nat) (opts : Options) :
    flag_loop_trace reflection argv 0 i opts = [] := rfl

/-- Every returning iteration of the flag loop reads a token inside the argument
vector that starts with a dash, at or after the index the loop started from;
`get_opt` reported 0 or 1 extra token for it, and 1 only when a next token
exists. -/
lemma flag_loop_trace_entries (reflection : Bool) (argv : List CStr) :
    ∀ (fuel s : Nat) (opts : Options), ∀ e ∈ flag_loop_trace reflection argv fuel s opts,
      s ≤ e.1 ∧ e.1 < argv.length ∧
        (∃ tok, argv[e.1]? = some tok ∧ tok.head? = some '-') ∧
        e.2.1 ≤ 1 ∧ (e.2.1 = 1 → e.1 + 1 < argv.length) := by
  intro fuel
  induction fuel with
  | zero => intro s opts e he; simp [flag_loop_trace] at he
  | succ fuel ih =>
    intro s opts e he
    rcases flag_loop_cases reflection argv fuel s opts with
      ⟨_, _, ht⟩ | ⟨_, _, _, _, ht⟩ | ⟨_, _, _, _, _, _, _, ht⟩ |
      ⟨tok, opts1, k, htok, hdash, hget, _, ht⟩
    · rw [ht] at he; cases he
    · rw [ht] at he; cases he
    · rw [ht] at he; cases he
    · rw [ht] at he
      have hs : s < argv.length := (List.getElem?_eq_some_iff.mp htok).1
      have hk := get_opt_extra _ _ _ _ _ _ hget
      rcases List.mem_cons.mp he with rfl | hrest
      · refine ⟨Nat.le_refl _, hs, ⟨tok, htok, hdash⟩, hk.1, fun h1 => ?_⟩
        have := hk.2 h1
        by_contra hge
        rw [List.getElem?_eq_none (by omega)] at this
        cases this
      · have := ih _ _ e hrest
        exact ⟨by omega, this.2⟩

/-- The indices of the tokens the flag loop reads increase strictly. -/
lemma flag_loop_trace_increasing (reflection : Bool) (argv : List CStr) :
    ∀ (fuel s : Nat) (opts : Options),
      List.Pairwise (fun x y => x < y)
        ((flag_loop_trace reflection argv fuel s opts).map (fun e => e.1)) := by
  intro fuel
  induction fuel with
  | zero => intro s opts; simp [flag_loop_trace]
  | succ fuel ih =>
    intro s opts
    rcases flag_loop_cases reflection argv fuel s opts with
      ⟨_, _, ht⟩ | ⟨_, _, _, _, ht⟩ | ⟨_, _, _, _, _, _, _, ht⟩ |
      ⟨tok, opts1, k, htok, hdash, hget, _, ht⟩
    · rw [ht]; simp
    · rw [ht]; simp
    · rw [ht]; simp
    · rw [ht, List.map_cons, List.pairwise_cons]
      refine ⟨fun j hj => ?_, ih _ _⟩
      obtain ⟨e, he, rfl⟩ := List.mem_map.mp hj
      have := (flag_loop_trace_entries reflection argv _ _ _ e he).1
      omega

/-- The index at which the flag loop returns is at most `argc`, and the token
there, if any, does not start with a dash. -/
lemma flag_loop_index_le (reflection : Bool) (argv : List CStr) :
    ∀ (fuel s : Nat) (opts opts1 : Options) (i : Nat),
      flag_loop reflection argv fuel s opts = Exec.ret (opts1, i) → s ≤ argv.length →
      i ≤ argv.length ∧ ∀ tok, argv[i]? = some tok → tok.head? ≠ some '-' := by
  intro fuel
  induction fuel with
  | zero => intro s opts opts1 i h; simp [flag_loop] at h
  | succ fuel ih =>
    intro s opts opts1 i h hs
    rcases flag_loop_cases reflection argv fuel s opts with
      ⟨hnone, hl, _⟩ | ⟨tok, htok, hdash, hl, _⟩ | ⟨_, _, _, _, _, _, hl, _⟩ |
      ⟨tok, o1, k, htok, hdash, hget, hl, _⟩
    · rw [hl] at h
      simp only [Exec.ret.injEq, Prod.mk.injEq] at h
      obtain ⟨_, rfl⟩ := h
      exact ⟨hs, fun tok htok => by rw [hnone] at htok; cases htok⟩
    · rw [hl] at h
      simp only [Exec.ret.injEq, Prod.mk.injEq] at h
      obtain ⟨_, rfl⟩ := h
      refine ⟨hs, fun tok2 htok2 => ?_⟩
      rw [htok] at htok2
      injection htok2 with htok2
      subst htok2
      exact hdash
    · rw [hl] at h; cases h
    · rw [hl] at h
      have hlt : s < argv.length := (List.getElem?_eq_some_iff.mp htok).1
      have hk := get_opt_extra _ _ _ _ _ _ hget
      apply ih _ _ _ _ h
      by_cases h1 : k = 1
      · have := hk.2 h1
        have hlt2 : s + 1 < argv.length := by
          by_contra hge
          rw [List.getElem?_eq_none (by omega)] at this
          cases this
        omega
      · omega

/-- The options the flag loop returns are those left by its last returning
iteration, or those it started from if there is none. -/
lemma flag_loop_trace_last (reflection : Bool) (argv : List CStr) :
    ∀ (fuel s : Nat) (opts opts1 : Options) (i : Nat),
      flag_loop reflection argv fuel s opts = Exec.ret (opts1, i) →
      (flag_loop_trace reflection argv fuel s opts = [] ∧ opts1 = opts ∧ i = s) ∨
      (∃ e, (flag_loop_trace reflection argv fuel s opts).getLast? = some e ∧
        opts1 = e.2.2 ∧ i = e.1 + e.2.1 + 1) := by
  intro fuel
  induction fuel with
  | zero => intro s opts opts1 i h; simp [flag_loop] at h
  | succ fuel ih =>
    intro s opts opts1 i h
    rcases flag_loop_cases reflection argv fuel s opts with
      ⟨_, hl, ht⟩ | ⟨_, _, _, hl, ht⟩ | ⟨_, _, _, _, _, _, hl, _⟩ |
      ⟨tok, o1, k, htok, hdash, hget, hl, ht⟩
    · rw [hl] at h
      simp only [Exec.ret.injEq, Prod.mk.injEq] at h
      exact Or.inl ⟨ht, h.1.symm, h.2.symm⟩
    · rw [hl] at h
      simp only [Exec.ret.injEq, Prod.mk.injEq] at h
      exact Or.inl ⟨ht, h.1.symm, h.2.symm⟩
    · rw [hl] at h; cases h
    · rw [hl] at h
      rw [ht]
      rcases ih _ _ _ _ h with ⟨hnil, ho, hi⟩ | ⟨e, he, ho, hi⟩
      · exact Or.inr ⟨(s, k, o1), by rw [hnil]; rfl, ho, hi⟩
      · refine Or.inr ⟨e, ?_, ho, hi⟩
        rw [List.getLast?_cons]
        simp [he]

/-- A returning call of `set_opt` leaves the number of search paths alone, or
adds one and does not answer `noarg`; it keeps the number equal to the length of
the path list. -/
lemma set_opt_inpath_count (reflection : Bool) (opts : Options) (s : CStr)
    (a : Option CStr) (opts1 : Options) (k : ArgKind)
    (h : set_opt reflection opts s a = Exec.ret (opts1, k)) :
    (opts1.inpath_count = opts.inpath_count ∨
      (k ≠ ArgKind.noarg ∧ opts1.inpath_count = opts.inpath_count + 1)) ∧
    (opts.inpaths.length = opts.inpath_count →
      opts1.inpaths.length = opts1.inpath_count) := by
  rcases set_opt_ret _ _ _ _ _ _ h with h | h | h | h | h | h | h | h | h | h
  · rw [h.2.2]; exact ⟨Or.inl rfl, id⟩
  · rw [h.2.2.2]; exact ⟨Or.inl rfl, id⟩
  · rw [h.2.2]; exact ⟨Or.inl rfl, id⟩
  · rw [h.2.2]; exact ⟨Or.inl rfl, id⟩
  · rw [h.2.2]; exact ⟨Or.inl rfl, id⟩
  · obtain ⟨_, _, x, _, _, _, h⟩ := h; rw [h]; exact ⟨Or.inl rfl, id⟩
  · obtain ⟨_, _, x, _, _, _, h⟩ := h; rw [h]; exact ⟨Or.inl rfl, id⟩
  · obtain ⟨_, x, _, _, h⟩ := h; rw [h]; exact ⟨Or.inl rfl, id⟩
  · obtain ⟨_, x, _, _, h⟩ := h; rw [h]; exact ⟨Or.inl rfl, id⟩
  · rcases set_opt_switch_ret _ _ _ _ _ h.2 with
      ⟨_, _, _, hk, h⟩ | ⟨_, _, _, hk, h⟩ | ⟨_, _, _, _, _, h⟩ | ⟨_, _, _, _, _, h⟩ |
      ⟨_, _, _, h⟩ | ⟨_, _, _, h⟩ | ⟨_, _, _, h⟩ | ⟨_, _, _, h⟩ | ⟨_, _, _, h⟩
    · rw [h, hk]
      exact ⟨Or.inr ⟨by decide, rfl⟩, fun hl => by simp [hl]⟩
    · rw [h, hk]
      exact ⟨Or.inr ⟨by decide, rfl⟩, fun hl => by simp [hl]⟩
    · rw [h]; exact ⟨Or.inl rfl, id⟩
    · rw [h]; exact ⟨Or.inl rfl, id⟩
    · rw [h]; exact ⟨Or.inl rfl, id⟩
    · rw [h]; exact ⟨Or.inl rfl, id⟩
    · rw [h]; exact ⟨Or.inl rfl, id⟩
    · rw [h]; exact ⟨Or.inl rfl, id⟩
    · rw [h]; exact ⟨Or.inl rfl, id⟩

/-- The scan of a short-option token adds at most one search path. -/
lemma get_opt_scan_inpath_count (reflection : Bool) (cs : List Char) :
    ∀ (opts : Options) (a : Option CStr) (opts1 : Options) (k : Nat),
      get_opt_scan reflection opts cs a = Exec.ret (opts1, k) →
      opts1.inpath_count ≤ opts.inpath_count + 1 := by
  induction cs with
  | nil =>
    intro opts a opts1 k h
    simp only [get_opt_scan, Exec.ret.injEq, Prod.mk.injEq] at h
    rw [← h.1]
    omega
  | cons c cs ih =>
    intro opts a opts1 k h
    simp only [get_opt_scan] at h
    split at h
    · rename_i o2 heq
      have h1 := (set_opt_inpath_count _ _ _ _ _ _ heq).1
      have h2 := ih _ _ _ _ h
      rcases h1 with h1 | h1
      · omega
      · exact absurd rfl h1.1
    · rename_i o2 heq
      simp only [Exec.ret.injEq, Prod.mk.injEq] at h
      have h1 := (set_opt_inpath_count _ _ _ _ _ _ heq).1
      rw [← h.1]
      omega
    · rename_i o2 heq
      simp only [Exec.ret.injEq, Prod.mk.injEq] at h
      have h1 := (set_opt_inpath_count _ _ _ _ _ _ heq).1
      rw [← h.1]
      omega
    · cases h
    · cases h

/-- The source's `get_opt` adds at most one search path per token. -/
lemma get_opt_inpath_count (reflection : Bool) (opts : Options) (s : CStr)
    (a : Option CStr) (opts1 : Options) (k : Nat)
    (h : get_opt reflection opts s a = Exec.ret (opts1, k)) :
    opts1.inpath_count ≤ opts.inpath_count + 1 := by
  unfold get_opt at h
  split at h
  · split at h
    · rename_i o2 k2 heq
      simp only [Exec.ret.injEq, Prod.mk.injEq] at h
      have h1 := (set_opt_inpath_count _ _ _ _ _ _ heq).1
      rw [← h.1]
      omega
    · cases h
    · cases h
  · split at h
    · cases h
    · exact get_opt_scan_inpath_count reflection _ _ _ _ _ h

/-- A property of the options that every returning call of `set_opt` preserves
holds after every returning iteration of the flag loop. -/
lemma flag_loop_trace_preserves (reflection : Bool) (P : Options → Prop)
    (hset : ∀ opts s a opts1 k, P opts →
      set_opt reflection opts s a = Exec.ret (opts1, k) → P opts1)
    (argv : List CStr) :
    ∀ (fuel s : Nat) (opts : Options), P opts →
      ∀ e ∈ flag_loop_trace reflection argv fuel s opts, P e.2.2 := by
  intro fuel
  induction fuel with
  | zero => intro s opts _ e he; simp [flag_loop_trace] at he
  | succ fuel ih =>
    intro s opts hP e he
    rcases flag_loop_cases reflection argv fuel s opts with
      ⟨_, _, ht⟩ | ⟨_, _, _, _, ht⟩ | ⟨_, _, _, _, _, _, _, ht⟩ |
      ⟨tok, opts1, k, htok, hdash, hget, _, ht⟩
    · rw [ht] at he; cases he
    · rw [ht] at he; cases he
    · rw [ht] at he; cases he
    · rw [ht] at he
      have hP1 := get_opt_preserves reflection P hset _ _ _ _ _ hP hget
      rcases List.mem_cons.mp he with rfl | hrest
      · exact hP1
      · exact ih _ _ hP1 e hrest

/-- After its `n`-th returning iteration (counted from 0) the flag loop has added
at most `n + 1` search paths, and the token it read then is at least `n` places
after the index the loop started from. -/
lemma flag_loop_trace_counts (reflection : Bool) (argv : List CStr) :
    ∀ (fuel s : Nat) (opts : Options) (n : Nat) (e : Nat × Nat × Options),
      (flag_loop_trace reflection argv fuel s opts)[n]? = some e →
      e.2.2.inpath_count ≤ opts.inpath_count + (n + 1) ∧ s + n ≤ e.1 := by
  intro fuel
  induction fuel with
  | zero => intro s opts n e he; simp [flag_loop_trace] at he
  | succ fuel ih =>
    intro s opts n e he
    rcases flag_loop_cases reflection argv fuel s opts with
      ⟨_, _, ht⟩ | ⟨_, _, _, _, ht⟩ | ⟨_, _, _, _, _, _, _, ht⟩ |
      ⟨tok, opts1, k, htok, hdash, hget, _, ht⟩
    · rw [ht] at he; simp at he
    · rw [ht] at he; simp at he
    · rw [ht] at he; simp at he
    · rw [ht] at he
      have hc := get_opt_inpath_count _ _ _ _ _ _ hget
      cases n with
      | zero =>
        simp only [List.getElem?_cons_zero, Option.some.injEq] at he
        subst he
        exact ⟨by simpa using hc, by simp⟩
      | succ n =>
        simp only [List.getElem?_cons_succ] at he
        have := ih _ _ n e he
        constructor <;> omega

/-- The result of the flag loop does not depend on the fuel, once it is
enough. -/
lemma flag_loop_fuel_indep (reflection : Bool) (argv : List CStr) (f1 f2 s : Nat)
    (opts : Options)
    (h1 : flag_loop reflection argv f1 s opts ≠ Exec.fuel_out)
    (h2 : flag_loop reflection argv f2 s opts ≠ Exec.fuel_out) :
    flag_loop reflection argv f1 s opts = flag_loop reflection argv f2 s opts := by
  rcases Nat.le_total f1 f2 with h | h
  · obtain ⟨e, rfl⟩ := Nat.exists_eq_add_of_le h
    exact (flag_loop_fuel_mono reflection argv f1 s opts _ rfl h1 e).symm
  · obtain ⟨e, rfl⟩ := Nat.exists_eq_add_of_le h
    exact flag_loop_fuel_mono reflection argv f2 s opts _ rfl h2 e

/-- The flag loop depends on the argument vector only through the tokens from
its start index on: on another vector with the same tokens from another index on
it ends the same way, with the index shifted. -/
lemma flag_loop_shift (reflection : Bool) (argv argv2 : List CStr) :
    ∀ (fuel s s2 : Nat) (opts : Options),
      (∀ j, argv2[s2 + j]? = argv[s + j]?) →
      (∀ o d, flag_loop reflection argv fuel s opts = Exec.ret (o, s + d) →
        flag_loop reflection argv2 fuel s2 opts = Exec.ret (o, s2 + d)) ∧
      (∀ status out, flag_loop reflection argv fuel s opts = Exec.exit status out →
        flag_loop reflection argv2 fuel s2 opts = Exec.exit status out) := by
  intro fuel
  induction fuel with
  | zero =>
    intro s s2 opts _
    refine ⟨fun o d h => ?_, fun status out h => ?_⟩
    · simp [flag_loop] at h
    · simp [flag_loop] at h
  | succ fuel ih =>
    intro s s2 opts hag
    have h0 : argv2[s2]? = argv[s]? := hag 0
    have h1 : argv2[s2 + 1]? = argv[s + 1]? := hag 1
    rcases flag_loop_cases reflection argv fuel s opts with
      ⟨hnone, hfl, _⟩ | ⟨tok, htok, hnd, hfl, _⟩ | ⟨tok, status, out, htok, hd, hget, hfl, _⟩ |
      ⟨tok, opts1, k, htok, hd, hget, hfl, _⟩
    · have hstop : flag_loop reflection argv2 (fuel + 1) s2 opts = Exec.ret (opts, s2) := by
        apply flag_loop_stop
        intro tok htok
        rw [h0, hnone] at htok
        exact absurd htok (by simp)
      rw [hfl, hstop]
      refine ⟨fun o d h => ?_, fun status out h => ?_⟩
      · simp only [Exec.ret.injEq, Prod.mk.injEq] at h
        obtain ⟨ho, hd⟩ := h
        have : d = 0 := by omega
        rw [ho, this]
        rfl
      · exact absurd h (by simp)
    · have hstop : flag_loop reflection argv2 (fuel + 1) s2 opts = Exec.ret (opts, s2) := by
        apply flag_loop_stop
        intro tok2 htok2
        rw [h0, htok] at htok2
        cases htok2
        exact hnd
      rw [hfl, hstop]
      refine ⟨fun o d h => ?_, fun status out h => ?_⟩
      · simp only [Exec.ret.injEq, Prod.mk.injEq] at h
        obtain ⟨ho, hd⟩ := h
        have : d = 0 := by omega
        rw [ho, this]
        rfl
      · exact absurd h (by simp)
    · have hex := flag_loop_step_exit reflection argv2 fuel s2 opts tok status out
        (by rw [h0, htok]) hd (by rw [h1]; exact hget)
      rw [hfl, hex]
      refine ⟨fun o d h => ?_, fun status out h => h⟩
      exact absurd h (by simp)
    · have hst := flag_loop_step reflection argv2 fuel s2 opts tok opts1 k
        (by rw [h0, htok]) hd (by rw [h1]; exact hget)
      rw [hfl, hst]
      have hag2 : ∀ j, argv2[s2 + k + 1 + j]? = argv[s + k + 1 + j]? := by
        intro j
        have := hag (k + 1 + j)
        rw [show s2 + (k + 1 + j) = s2 + k + 1 + j by omega,
          show s + (k + 1 + j) = s + k + 1 + j by omega] at this
        exact this
      have hrec := ih (s + k + 1) (s2 + k + 1) opts1 hag2
      refine ⟨fun o d h => ?_, hrec.2⟩
      have hs := flag_loop_index_pos reflection argv _ _ _ _ _ h
      obtain ⟨d2, hd2⟩ : ∃ d2, d = k + 1 + d2 := ⟨d - (k + 1), by omega⟩
      rw [hd2, show s + (k + 1 + d2) = s + k + 1 + d2 by omega] at h
      rw [hd2, show s2 + (k + 1 + d2) = s2 + k + 1 + d2 by omega]
      exact hrec.1 o d2 h

/-- The three JSON options as whole tokens: `--json` switches on what
`--json-parser` and `--json-printer` switch on one by one; none takes a value. -/
lemma get_opt_json (reflection : Bool) (opts : Options) (a : Option CStr) :
    get_opt reflection opts "--json".toList a
        = Exec.ret ({ opts with cgen_json_parser_flag := true, cgen_json_printer := true }, 0) ∧
      get_opt reflection opts "--json-parser".toList a
        = Exec.ret ({ opts with cgen_json_parser_flag := true }, 0) ∧
      get_opt reflection opts "--json-printer".toList a
        = Exec.ret ({ opts with cgen_json_printer := true }, 0) := by
  cases reflection <;> exact ⟨rfl, rfl, rfl⟩

/-- Two lists with the same tokens from an index each on have the same rest
there. -/
lemma drop_eq_of_getElem? (l1 l2 : List CStr) (a b : Nat)
    (h : ∀ j, l1[a + j]? = l2[b + j]?) : l1.drop a = l2.drop b := by
  apply List.ext_getElem?
  intro j
  rw [List.getElem?_drop, List.getElem?_drop]
  exact h j

/-- What `main` does depends on the argument vector through the result of the
flag loop and the tokens left after it only. -/
lemma main_congr {σ : Type} (reflection : Bool) (B : Backend σ) (st : σ)
    (argv argv2 : List CStr) (o : Options) (i i2 : Nat)
    (h1 : flag_loop reflection argv argv.length 1 flatcc_init_options = Exec.ret (o, i))
    (h2 : flag_loop reflection argv2 argv2.length 1 flatcc_init_options = Exec.ret (o, i2))
    (hl1 : 2 ≤ argv.length) (hl2 : 2 ≤ argv2.length)
    (hd : argv.drop i = argv2.drop i2) :
    main reflection B st argv = main reflection B st argv2 := by
  have hi1 := (flag_loop_index_le reflection argv _ _ _ _ _ h1 (by omega)).1
  have hi2 := (flag_loop_index_le reflection argv2 _ _ _ _ _ h2 (by omega)).1
  have hlen := congrArg List.length hd
  rw [List.length_drop, List.length_drop] at hlen
  have hiff : i = argv.length ↔ i2 = argv2.length := by omega
  unfold main
  simp only [show ¬ argv.length < 2 by omega, show ¬ argv2.length < 2 by omega, if_false,
    h1, h2, hd]
  by_cases hi : i = argv.length
  · rw [if_pos hi, if_pos (hiff.mp hi)]
  · rw [if_neg hi, if_neg (fun h => hi (hiff.mpr h))]

/-- Replacing a flag token that takes no value by two flag tokens that take none
and lead to the same options: when the tokens before it are all consumed as
options, the flag loop ends the same way, one index later. -/
lemma flag_loop_replace (reflection : Bool) (front : List CStr) (t u1 u2 : CStr)
    (post : List CStr) (opts1 oj om : Options)
    (hfront : flag_loop reflection front front.length 1 flatcc_init_options
      = Exec.ret (opts1, front.length))
    (htd : t.head? = some '-') (ht : ∀ a, get_opt reflection opts1 t a = Exec.ret (oj, 0))
    (hu1d : u1.head? = some '-')
    (hu1 : ∀ a, get_opt reflection opts1 u1 a = Exec.ret (om, 0))
    (hu2d : u2.head? = some '-')
    (hu2 : ∀ a, get_opt reflection om u2 a = Exec.ret (oj, 0)) :
    (∀ o i, flag_loop reflection (front ++ t :: post) (front ++ t :: post).length 1
        flatcc_init_options = Exec.ret (o, i) →
      front.length + 1 ≤ i ∧
      flag_loop reflection (front ++ u1 :: u2 :: post) (front ++ u1 :: u2 :: post).length 1
        flatcc_init_options = Exec.ret (o, i + 1)) ∧
    (∀ status out, flag_loop reflection (front ++ t :: post) (front ++ t :: post).length 1
        flatcc_init_options = Exec.exit status out →
      flag_loop reflection (front ++ u1 :: u2 :: post) (front ++ u1 :: u2 :: post).length 1
        flatcc_init_options = Exec.exit status out) := by
  have hL : 1 ≤ front.length := flag_loop_index_pos reflection front _ _ _ _ _ hfront
  have hlenA : (front ++ t :: post).length = front.length + 1 + post.length := by
    simp only [List.length_append, List.length_cons]; omega
  have hlenA2 : (front ++ u1 :: u2 :: post).length = front.length + 2 + post.length := by
    simp only [List.length_append, List.length_cons]; omega
  have hA0 : (front ++ t :: post)[front.length]? = some t := by
    rw [List.getElem?_append_right (Nat.le_refl _)]; simp
  have hB0 : (front ++ u1 :: u2 :: post)[front.length]? = some u1 := by
    rw [List.getElem?_append_right (Nat.le_refl _)]; simp
  have hB1 : (front ++ u1 :: u2 :: post)[front.length + 0 + 1]? = some u2 := by
    rw [List.getElem?_append_right (by omega)]; simp
  have hag : ∀ j, (front ++ u1 :: u2 :: post)[front.length + 0 + 1 + 0 + 1 + j]?
      = (front ++ t :: post)[front.length + 0 + 1 + j]? := by
    intro j
    rw [List.getElem?_append_right (by omega), List.getElem?_append_right (by omega),
      show front.length + 0 + 1 + 0 + 1 + j - front.length = j + 1 + 1 by omega,
      show front.length + 0 + 1 + j - front.length = j + 1 by omega]
    simp only [List.getElem?_cons_succ]
  -- the loop on the shorter vector
  have hneA : flag_loop reflection (front ++ t :: post) (front.length + 2 + post.length)
      (front.length + 0 + 1) oj ≠ Exec.fuel_out :=
    flag_loop_enough_fuel reflection _ _ _ _ (by omega) (by rw [hlenA]; omega)
  have hstepA : flag_loop reflection (front ++ t :: post) (front.length + 2 + post.length + 1)
      front.length opts1
      = flag_loop reflection (front ++ t :: post) (front.length + 2 + post.length)
        (front.length + 0 + 1) oj :=
    flag_loop_step reflection _ _ _ opts1 t oj 0 hA0 htd (ht _)
  have hfullA := flag_loop_append reflection front (t :: post) _ _ _ _ hfront
    (front.length + 2 + post.length + 1) _ hstepA hneA
  have hneA0 : flag_loop reflection (front ++ t :: post) (front ++ t :: post).length 1
      flatcc_init_options ≠ Exec.fuel_out :=
    flag_loop_enough_fuel reflection _ _ _ _ (by rw [hlenA]; omega) (by omega)
  have hA := (flag_loop_fuel_indep reflection _ _ _ _ _ hneA0 (by rw [hfullA]; exact hneA)).trans
    hfullA
  -- the loop on the longer vector
  have hneB : flag_loop reflection (front ++ u1 :: u2 :: post) (front.length + 2 + post.length)
      (front.length + 0 + 1 + 0 + 1) oj ≠ Exec.fuel_out :=
    flag_loop_enough_fuel reflection _ _ _ _ (by omega) (by rw [hlenA2]; omega)
  have hstepB2 : flag_loop reflection (front ++ u1 :: u2 :: post)
      (front.length + 2 + post.length + 1) (front.length + 0 + 1) om
      = flag_loop reflection (front ++ u1 :: u2 :: post) (front.length + 2 + post.length)
        (front.length + 0 + 1 + 0 + 1) oj :=
    flag_loop_step reflection _ _ _ om u2 oj 0 hB1 hu2d (hu2 _)
  have hstepB1 : flag_loop reflection (front ++ u1 :: u2 :: post)
      (front.length + 2 + post.length + 1 + 1) front.length opts1
      = flag_loop reflection (front ++ u1 :: u2 :: post) (front.length + 2 + post.length + 1)
        (front.length + 0 + 1) om :=
    flag_loop_step reflection _ _ _ opts1 u1 om 0 hB0 hu1d (hu1 _)
  have hfullB := flag_loop_append reflection front (u1 :: u2 :: post) _ _ _ _ hfront
    (front.length + 2 + post.length + 1 + 1) _ (hstepB1.trans hstepB2) hneB
  have hneB0 : flag_loop reflection (front ++ u1 :: u2 :: post)
      (front ++ u1 :: u2 :: post).length 1 flatcc_init_options ≠ Exec.fuel_out :=
    flag_loop_enough_fuel reflection _ _ _ _ (by rw [hlenA2]; omega) (by omega)
  have hB := (flag_loop_fuel_indep reflection _ _ _ _ _ hneB0 (by rw [hfullB]; exact hneB)).trans
    hfullB
  have hshift := flag_loop_shift reflection (front ++ t :: post) (front ++ u1 :: u2 :: post)
    (front.length + 2 + post.length) (front.length + 0 + 1) (front.length + 0 + 1 + 0 + 1) oj hag
  rw [hA, hB]
  refine ⟨fun o i h => ?_, hshift.2⟩
  have hs := flag_loop_index_pos reflection _ _ _ _ _ _ h
  refine ⟨by omega, ?_⟩
  obtain ⟨d, hd⟩ : ∃ d, i = front.length + 0 + 1 + d := ⟨i - (front.length + 1), by omega⟩
  rw [hd] at h
  rw [hd, show front.length + 0 + 1 + d + 1 = front.length + 0 + 1 + 0 + 1 + d by omega]
  exact hshift.1 o d h

/-- Replacing a flag token that takes no value by two flag tokens that take none
and lead to the same options does not change what `main` does, when the tokens
before it are all consumed as options. -/
lemma main_replace {σ : Type} (reflection : Bool) (B : Backend σ) (st : σ)
    (front : List CStr) (t u1 u2 : CStr)
    (post : List CStr) (opts1 oj om : Options)
    (hfront : flag_loop reflection front front.length 1 flatcc_init_options
      = Exec.ret (opts1, front.length))
    (htd : t.head? = some '-') (ht : ∀ a, get_opt reflection opts1 t a = Exec.ret (oj, 0))
    (hu1d : u1.head? = some '-')
    (hu1 : ∀ a, get_opt reflection opts1 u1 a = Exec.ret (om, 0))
    (hu2d : u2.head? = some '-')
    (hu2 : ∀ a, get_opt reflection om u2 a = Exec.ret (oj, 0)) :
    main reflection B st (front ++ t :: post)
      = main reflection B st (front ++ u1 :: u2 :: post) := by
  have hL : 1 ≤ front.length := flag_loop_index_pos reflection front _ _ _ _ _ hfront
  have hlenA : 2 ≤ (front ++ t :: post).length := by
    simp only [List.length_append, List.length_cons]; omega
  have hlenA2 : 2 ≤ (front ++ u1 :: u2 :: post).length := by
    simp only [List.length_append, List.length_cons]; omega
  have hrep := flag_loop_replace reflection front t u1 u2 post opts1 oj om hfront htd ht
    hu1d hu1 hu2d hu2
  cases hr : flag_loop reflection (front ++ t :: post) (front ++ t :: post).length 1
      flatcc_init_options with
  | fuel_out =>
    exact absurd hr (flag_loop_enough_fuel reflection _ _ _ _ (by omega) (by omega))
  | exit status out =>
    rw [main_exit reflection B st _ _ _ hlenA hr,
      main_exit reflection B st _ _ _ hlenA2 (hrep.2 status out hr)]
  | ret p =>
    obtain ⟨o, i⟩ := p
    obtain ⟨hi, hr2⟩ := hrep.1 o i hr
    apply main_congr reflection B st _ _ o i (i + 1) hr hr2 hlenA hlenA2
    apply drop_eq_of_getElem?
    intro j
    rw [List.getElem?_append_right (by omega), List.getElem?_append_right (by omega)]
    obtain ⟨d, hd⟩ : ∃ d, i = front.length + 1 + d := ⟨i - (front.length + 1), by omega⟩
    rw [show i + j - front.length = d + j + 1 by omega,
      show i + 1 + j - front.length = d + j + 1 + 1 by omega]
    simp only [List.getElem?_cons_succ]

/-- On a short-option token that packs niladic flags before the flag character
`I` or `o`, `get_opt` applies the niladic flags and then acts on the result of
the `switch` of `set_opt` at that character. -/
lemma get_opt_short_value (reflection : Bool) (opts : Options) (pack : List Char) (c : Char)
    (t : CStr) (a : Option CStr) (hpack : ∀ d ∈ pack, is_niladic d = true)
    (hc : c = 'I' ∨ c = 'o') :
    get_opt reflection opts (dash (pack ++ c :: t)) a =
      match set_opt_switch (niladic_apply opts pack) (c :: t) (arg_after_eq (c :: t) a) with
      | Exec.ret (o, ArgKind.noarg) => get_opt_scan reflection o t a
      | Exec.ret (o, ArgKind.suffixarg) => Exec.ret (o, 0)
      | Exec.ret (o, ArgKind.nextarg) => Exec.ret (o, 1)
      | Exec.exit status out => Exec.exit status out
      | Exec.fuel_out => Exec.fuel_out := by
  have hcd : c ≠ '-' ∧ c ≠ 'h' := by
    rcases hc with rfl | rfl <;> exact ⟨by decide, by decide⟩
  have hhead : ¬ ((pack ++ c :: t).head? = some '-') := by
    cases pack with
    | nil =>
      simp only [List.nil_append, List.head?_cons, Option.some.injEq]
      exact hcd.1
    | cons d ds =>
      simp only [List.cons_append, List.head?_cons, Option.some.injEq]
      exact (is_niladic_ne d (hpack d (List.mem_cons_self _ _))).1
  have hne : ¬ (pack ++ c :: t = []) := by simp
  unfold get_opt dash
  simp only [List.tail_cons]
  rw [if_neg hhead, if_neg hne, get_opt_scan_niladic_append reflection pack (c :: t) opts a hpack]
  simp only [get_opt_scan]
  rw [set_opt_short reflection _ c t a hcd.1 hcd.2]

/-- Value resolution of `-I`: suffix, next token, or no value at all. -/
lemma get_opt_I (reflection : Bool) (opts : Options) (pack : List Char)
    (hpack : ∀ d ∈ pack, is_niladic d = true) :
    (∀ (v : CStr) (a : Option CStr), v ≠ [] →
      get_opt reflection opts (dash (pack ++ 'I' :: v)) a
        = Exec.ret ({ niladic_apply opts pack with
            inpaths := opts.inpaths ++ [v], inpath_count := opts.inpath_count + 1 }, 0)) ∧
    (∀ x : CStr, get_opt reflection opts (dash (pack ++ ['I'])) (some x)
        = Exec.ret ({ niladic_apply opts pack with
            inpaths := opts.inpaths ++ [x], inpath_count := opts.inpath_count + 1 }, 1)) ∧
    get_opt reflection opts (dash (pack ++ ['I'])) none
      = Exec.exit (-1) [(Stream.stderr, Msg.needs_argument ['-', 'I'])] := by
  refine ⟨fun v a hv => ?_, fun x => ?_, ?_⟩
  · rw [get_opt_short_value reflection opts pack 'I' v a hpack (Or.inl rfl)]
    simp only [set_opt_switch]
    rw [if_pos hv]
    rfl
  · rw [get_opt_short_value reflection opts pack 'I' [] (some x) hpack (Or.inl rfl)]
    rfl
  · rw [get_opt_short_value reflection opts pack 'I' [] none hpack (Or.inl rfl)]
    rfl

/-- Value resolution of `-o`: an error when an output path is set already, else
suffix, next token, or no value at all. -/
lemma get_opt_o (reflection : Bool) (opts : Options) (pack : List Char)
    (hpack : ∀ d ∈ pack, is_niladic d = true) :
    (opts.outpath = none →
      (∀ (v : CStr) (a : Option CStr), v ≠ [] →
        get_opt reflection opts (dash (pack ++ 'o' :: v)) a
          = Exec.ret ({ niladic_apply opts pack with outpath := some v }, 0)) ∧
      (∀ x : CStr, get_opt reflection opts (dash (pack ++ ['o'])) (some x)
          = Exec.ret ({ niladic_apply opts pack with outpath := some x }, 1)) ∧
      get_opt reflection opts (dash (pack ++ ['o'])) none
        = Exec.exit (-1) [(Stream.stderr, Msg.needs_argument ['-', 'o'])]) ∧
    (opts.outpath.isSome = true → ∀ (t : CStr) (a : Option CStr),
      get_opt reflection opts (dash (pack ++ 'o' :: t)) a
        = Exec.exit (-1) [(Stream.stderr, Msg.outpath_once)]) := by
  have hout : (niladic_apply opts pack).outpath = opts.outpath := rfl
  refine ⟨fun hnone => ⟨fun v a hv => ?_, fun x => ?_, ?_⟩, fun hsome t a => ?_⟩
  · rw [get_opt_short_value reflection opts pack 'o' v a hpack (Or.inr rfl)]
    simp only [set_opt_switch]
    rw [hout, hnone, if_neg (by simp), if_pos hv]
  · rw [get_opt_short_value reflection opts pack 'o' [] (some x) hpack (Or.inr rfl)]
    simp only [set_opt_switch]
    rw [hout, hnone, if_neg (by simp), if_neg (by simp)]
    rfl
  · rw [get_opt_short_value reflection opts pack 'o' [] none hpack (Or.inr rfl)]
    simp only [set_opt_switch]
    rw [hout, hnone, if_neg (by simp), if_neg (by simp)]
    rfl
  · rw [get_opt_short_value reflection opts pack 'o' t a hpack (Or.inr rfl)]
    simp only [set_opt_switch]
    rw [hout, if_pos hsome]

/-- Value resolution of `--prefix`: inline, next token, or no value at all. -/
lemma get_opt_prefix_option (reflection : Bool) (opts : Options) :
    (∀ (v : CStr) (a : Option CStr),
      get_opt reflection opts ("--prefix=".toList ++ v) a
        = Exec.ret ({ opts with ns := some v }, 0)) ∧
    (∀ x : CStr, get_opt reflection opts "--prefix".toList (some x)
        = Exec.ret ({ opts with ns := some x }, 1)) ∧
    get_opt reflection opts "--prefix".toList none
      = Exec.exit (-1) [(Stream.stderr, Msg.needs_argument "-n".toList)] := by
  refine ⟨fun v a => ?_, fun x => ?_, ?_⟩
  · have hi := inline_value "-prefix".toList v a (by decide)
    show get_opt reflection opts ('-' :: ("-prefix".toList ++ '=' :: v)) a = _
    rw [get_opt_long reflection opts ("-prefix".toList ++ '=' :: v) a rfl,
      set_opt_prefix_option reflection opts _ a hi.2.2, hi.1]
    simp only [set_long_value, hi.2.1]
    rfl
  · have hn := next_value "-prefix".toList (some x) (by decide)
    show get_opt reflection opts ('-' :: "-prefix".toList) (some x) = _
    rw [get_opt_long reflection opts "-prefix".toList (some x) rfl,
      set_opt_prefix_option reflection opts _ _ hn.2.2, hn.1]
    simp only [set_long_value, hn.2.1]
    rfl
  · have hn := next_value "-prefix".toList none (by decide)
    show get_opt reflection opts ('-' :: "-prefix".toList) none = _
    rw [get_opt_long reflection opts "-prefix".toList none rfl,
      set_opt_prefix_option reflection opts _ _ hn.2.2, hn.1]
    rfl

/-- Value resolution of `--common-prefix`: inline, next token, or no value at
all. -/
lemma get_opt_common_prefix_option (reflection : Bool) (opts : Options) :
    (∀ (v : CStr) (a : Option CStr),
      get_opt reflection opts ("--common-prefix=".toList ++ v) a
        = Exec.ret ({ opts with nsc := some v }, 0)) ∧
    (∀ x : CStr, get_opt reflection opts "--common-prefix".toList (some x)
        = Exec.ret ({ opts with nsc := some x }, 1)) ∧
    get_opt reflection opts "--common-prefix".toList none
      = Exec.exit (-1) [(Stream.stderr, Msg.needs_argument "--common-prefix".toList)] := by
  refine ⟨fun v a => ?_, fun x => ?_, ?_⟩
  · have hi := inline_value "-common-prefix".toList v a (by decide)
    show get_opt reflection opts ('-' :: ("-common-prefix".toList ++ '=' :: v)) a = _
    rw [get_opt_long reflection opts ("-common-prefix".toList ++ '=' :: v) a rfl,
      set_opt_common_prefix_option reflection opts _ a hi.2.2, hi.1]
    simp only [set_long_value, hi.2.1]
    rfl
  · have hn := next_value "-common-prefix".toList (some x) (by decide)
    show get_opt reflection opts ('-' :: "-common-prefix".toList) (some x) = _
    rw [get_opt_long reflection opts "-common-prefix".toList (some x) rfl,
      set_opt_common_prefix_option reflection opts _ _ hn.2.2, hn.1]
    simp only [set_long_value, hn.2.1]
    rfl
  · have hn := next_value "-common-prefix".toList none (by decide)
    show get_opt reflection opts ('-' :: "-common-prefix".toList) none = _
    rw [get_opt_long reflection opts "-common-prefix".toList none rfl,
      set_opt_common_prefix_option reflection opts _ _ hn.2.2, hn.1]
    rfl

/-- With binary schema support compiled in, the boolean options without any
value end the run. -/
lemma get_opt_schema_no_value (opts : Options) :
    get_opt true opts "--schema-namespace".toList none
        = Exec.exit (-1) [(Stream.stderr, Msg.needs_argument "--schema-namespace".toList)] ∧
      get_opt true opts "--schema-length".toList none
        = Exec.exit (-1) [(Stream.stderr, Msg.needs_argument "--schema-length".toList)] := by
  constructor
  · have hn := next_value "-schema-namespace".toList none (by decide)
    show get_opt true opts ('-' :: "-schema-namespace".toList) none = _
    rw [get_opt_long true opts "-schema-namespace".toList none rfl,
      set_opt_schema_namespace_option opts _ _ hn.2.2, hn.1]
    rfl
  · have hn := next_value "-schema-length".toList none (by decide)
    show get_opt true opts ('-' :: "-schema-length".toList) none = _
    rw [get_opt_long true opts "-schema-length".toList none rfl,
      set_opt_schema_length_option opts _ _ hn.2.2, hn.1]
    rfl

/-- Every attempt generates exactly when its parse returned 0, and the attempts
are the files in order. -/
lemma spec_attempts_files {σ : Type} (B : Backend σ) (files : List CStr) :
    ∀ (st : σ) (opts : Options),
      (spec_attempts B st opts files).map (fun a => a.file) = files ∧
      ∀ a ∈ spec_attempts B st opts files, (a.generate.isSome = true ↔ a.parse = 0) := by
  induction files with
  | nil => intro st opts; exact ⟨rfl, fun a ha => by simp [spec_attempts] at ha⟩
  | cons f rest ih =>
    intro st opts
    simp only [spec_attempts, List.map_cons, List.mem_cons]
    refine ⟨by rw [(ih _ _).1], ?_⟩
    intro a ha
    rcases ha with rfl | ha
    · by_cases hp : (B.parse_file (B.create_context opts (some f) st).1 f
          (B.create_context opts (some f) st).2).1 = 0 <;> simp [hp]
    · exact (ih _ _).2 a ha

/-- `attempts_ok` says that every attempted call returned 0. -/
lemma attempts_ok_iff (l : List Attempt) :
    attempts_ok l = true ↔
      ∀ a ∈ l, a.parse = 0 ∧ ∀ g, a.generate = some g → g = 0 := by
  unfold attempts_ok
  simp only [List.all_eq_true, Bool.and_eq_true, decide_eq_true_eq]
  constructor
  · intro h a ha
    refine ⟨(h a ha).1, fun g hg => ?_⟩
    rcases (h a ha).2 with h0 | h0
    · rw [h0] at hg; exact absurd hg (by simp)
    · rw [h0] at hg; exact (Option.some.inj hg).symm
  · intro h a ha
    refine ⟨(h a ha).1, ?_⟩
    cases hg : a.generate with
    | none => exact Or.inl rfl
    | some g => exact Or.inr (by rw [(h a ha).2 g hg])

/-- The batch loop of `main` makes the backend calls of the spec, file by file,
and its status is zero exactly when it started at zero and every attempted call
returned zero. -/
lemma batch_loop_attempts {σ : Type} (B : Backend σ) (files : List CStr) :
    ∀ (st : σ) (opts : Options) (status : Int),
      (batch_loop B st opts status files).2
          = ((spec_attempts B st opts files).map attempt_calls).flatten ∧
      ((batch_loop B st opts status files).1 = 0 ↔
        status = 0 ∧ attempts_ok (spec_attempts B st opts files) = true) := by
  induction files with
  | nil => intro st opts status; simp [batch_loop, spec_attempts, attempts_ok]
  | cons f rest ih =>
    intro st opts status
    simp only [batch_loop, spec_attempts, List.map_cons, List.flatten_cons]
    rw [(ih _ _ _).1, (ih _ _ _).2]
    by_cases hp : (B.parse_file (B.create_context opts (some f) st).1 f
        (B.create_context opts (some f) st).2).1 = 0
    · simp [hp, lor_eq_zero_iff, attempt_calls, attempts_ok]
      tauto
    · simp [hp, lor_eq_zero_iff, attempt_calls, attempts_ok]

/-- The reading of a short-option token at a niladic flag character goes on with
the characters after it. -/
lemma short_reading_niladic (c : Char) (rest : List Char) (next : Option CStr)
    (hc : is_niladic c = true) :
    short_reading (c :: rest) next = short_reading rest next := by
  have h1 : c ≠ 'I' := by rintro rfl; revert hc; decide
  have h2 : c ≠ 'o' := by rintro rfl; revert hc; decide
  have h3 : c ≠ '-' := by rintro rfl; revert hc; decide
  rw [short_reading.eq_5 _ _ _ h1 h2 h3, if_pos hc]

/-- The reading of a short-option token passes over a run of niladic flags. -/
lemma short_reading_pack (pack : List Char) (rest : List Char) (next : Option CStr)
    (hpack : ∀ c ∈ pack, is_niladic c = true) :
    short_reading (pack ++ rest) next = short_reading rest next := by
  induction pack with
  | nil => rfl
  | cons c cs ih =>
    rw [List.cons_append, short_reading_niladic c _ next (hpack c (List.mem_cons_self _ _))]
    exact ih (fun d hd => hpack d (List.mem_cons_of_mem _ hd))

/-- A long option of the grammar of the spec takes the next token exactly when it
is the bare name of a value-taking option. -/
lemma spec_long_takes_next_value (body : CStr) (b : Bool)
    (h : spec_long_takes_next body = some b) :
    b = decide (body ∈ spec_value_long) := by
  unfold spec_long_takes_next at h
  have hnoeq : body ∈ spec_value_long → body.contains '=' = false := by
    intro hm
    simp only [spec_value_long, List.mem_cons, List.mem_singleton, List.not_mem_nil,
      or_false] at hm
    rcases hm with rfl | rfl | rfl | rfl <;> decide
  have hdisj : body ∈ spec_niladic_long → body ∉ spec_value_long := by
    intro hm
    simp only [spec_niladic_long, List.mem_cons, List.mem_singleton, List.not_mem_nil,
      or_false] at hm
    rcases hm with rfl | rfl | rfl | rfl | rfl <;> decide
  by_cases h1 : body ∈ spec_niladic_long
  · rw [if_pos h1] at h
    injection h with h
    rw [← h]
    exact (decide_eq_false (hdisj h1)).symm
  · rw [if_neg h1] at h
    by_cases h2 : body.contains '=' = true
    · rw [if_pos h2] at h
      have hv : body ∉ spec_value_long := fun hm => by
        rw [hnoeq hm] at h2
        cases h2
      split at h
      · injection h with h
        rw [← h]
        exact (decide_eq_false hv).symm
      · cases h
    · rw [if_neg h2] at h
      by_cases h3 : body ∈ spec_value_long
      · rw [if_pos h3] at h
        injection h with h
        rw [← h]
        exact (decide_eq_true h3).symm
      · rw [if_neg h3] at h
        cases h

/-- Where the grammar of the spec reads a run of short options, the reading that
does not judge validity reads the same. -/
lemma short_reading_of_spec (cs : List Char) :
    ∀ (next : Option CStr) (v : Option CStr) (b : Bool),
      spec_short_scan cs next = some (v, b) → short_reading cs next = (v, b) := by
  induction cs with
  | nil =>
    intro next v b h
    simp only [spec_short_scan, Option.some.injEq] at h
    rw [← h]
    rfl
  | cons c cs ih =>
    intro next v b h
    by_cases hI : c = 'I'
    · subst hI
      by_cases hcs : cs = []
      · subst hcs
        cases next with
        | none => simp [spec_short_scan] at h
        | some x =>
          simp only [spec_short_scan, ne_eq, not_true_eq_false, if_false, Option.map_some',
            Option.some.injEq] at h
          rw [← h]
          simp [short_reading]
      · simp only [spec_short_scan, ne_eq, hcs, not_false_eq_true, if_true,
          Option.some.injEq] at h
        rw [← h]
        simp [short_reading, hcs]
    · by_cases ho : c = 'o'
      · subst ho
        by_cases hcs : cs = []
        · subst hcs
          cases next with
          | none => simp [spec_short_scan] at h
          | some x =>
            simp only [spec_short_scan, ne_eq, not_true_eq_false, if_false, Option.map_some',
              Option.some.injEq] at h
            rw [← h]
            simp [short_reading]
        · simp only [spec_short_scan, ne_eq, hcs, not_false_eq_true, if_true,
            Option.some.injEq] at h
          rw [← h]
          simp [short_reading, hcs]
      · rw [spec_short_scan.eq_4 _ _ _ hI ho] at h
        by_cases hn : is_niladic c = true
        · rw [if_pos hn] at h
          rw [short_reading_niladic c cs next hn]
          exact ih next v b h
        · rw [if_neg hn] at h
          cases h

/-- Where the grammar of the spec reads a flag token, the reading that does not
judge validity reads the same. -/
lemma token_reading_of_spec (tok : CStr) (next : Option CStr) (v : Option CStr) (b : Bool)
    (h : spec_token tok next = some (v, b)) : token_reading tok next = (v, b) := by
  match tok with
  | [] => simp [spec_token] at h
  | [x] => simp [spec_token] at h
  | x :: y :: rest =>
    by_cases hx : x = '-'
    · subst hx
      by_cases hy : y = '-'
      · subst hy
        rw [spec_token.eq_1] at h
        rw [token_reading.eq_1]
        cases hb : spec_long_takes_next rest with
        | none => simp [hb] at h
        | some b2 =>
          have hv := spec_long_takes_next_value rest b2 hb
          cases b2 with
          | true =>
            simp only [hb] at h
            cases next with
            | none => simp at h
            | some nxt =>
              simp only [Option.map_some', Option.some.injEq] at h
              rw [← h, ← hv]
          | false =>
            simp only [hb, Option.some.injEq] at h
            rw [← h, ← hv]
      · have hs : spec_token ('-' :: y :: rest) next = spec_short_scan (y :: rest) next := by
          unfold spec_token
          split
          · rename_i heq
            injection heq with _ heq
            injection heq with heq _
            exact absurd heq hy
          · rename_i heq
            injection heq with _ heq
            injection heq with h1 h2
            subst h1
            subst h2
            rfl
          · rename_i hne
            exact absurd rfl (hne y rest)
        have ht : token_reading ('-' :: y :: rest) next = short_reading (y :: rest) next := by
          unfold token_reading
          split
          · rename_i heq
            injection heq with _ heq
            injection heq with heq _
            exact absurd heq hy
          · rename_i heq
            injection heq with _ heq
            injection heq with h1 h2
            subst h1
            subst h2
            rfl
          · rename_i hne
            exact absurd rfl (hne y rest)
        rw [hs] at h
        rw [ht]
        exact short_reading_of_spec _ _ _ _ h
    · have : spec_token (x :: y :: rest) next = none := by
        unfold spec_token
        split
        · rename_i heq
          injection heq with heq _
          exact absurd heq hx
        · rename_i heq
          injection heq with heq _
          exact absurd heq hx
        · rfl
      rw [this] at h
      cases h

/-- On a text that starts with a dash `set_opt` never returns `suffixarg`. -/
lemma set_opt_dash_kind (reflection : Bool) (opts : Options) (body : CStr)
    (a : Option CStr) (opts1 : Options) (k : ArgKind)
    (h : set_opt reflection opts ('-' :: body) a = Exec.ret (opts1, k)) :
    k ≠ ArgKind.suffixarg := by
  have hl : long_arg_kind ('-' :: body) ≠ ArgKind.suffixarg := by
    unfold long_arg_kind
    split <;> exact fun hc => by cases hc
  rcases set_opt_ret _ _ _ _ _ _ h with h | h | h | h | h | h | h | h | h | h
  · rw [h.2.1]; exact fun hc => by cases hc
  · rw [h.2.2.1]; exact fun hc => by cases hc
  · rw [h.2.1]; exact fun hc => by cases hc
  · rw [h.2.1]; exact fun hc => by cases hc
  · rw [h.2.1]; exact fun hc => by cases hc
  · obtain ⟨_, _, x, _, _, hk, _⟩ := h
    rw [hk]; exact hl
  · obtain ⟨_, _, x, _, _, hk, _⟩ := h
    rw [hk]; exact hl
  · obtain ⟨_, x, _, hk, _⟩ := h
    rw [hk]; exact hl
  · obtain ⟨_, x, _, hk, _⟩ := h
    rw [hk]; exact hl
  · have := h.2
    simp [set_opt_switch] at this

/-- The scan of a short-option token at a character that is neither a flag nor a
dash does not return. -/
lemma get_opt_scan_unknown_char (reflection : Bool) (opts : Options) (c : Char)
    (rest : CStr) (a : Option CStr)
    (hc : c ∉ ['c', 'w', 'v', 'r', 'a', 'I', 'o', 'h', '-']) :
    get_opt_scan reflection opts (c :: rest) a
      = Exec.exit (-1) [(Stream.stderr, Msg.invalid_option_chr c)] := by
  have hd : c ≠ '-' := fun h => hc (by rw [h]; decide)
  have h := unknown_short_char_fatal reflection opts [] c rest a (by simp) hc
  unfold get_opt dash at h
  simp only [List.nil_append, List.tail_cons] at h
  rw [if_neg (by simpa using hd), if_neg (by simp)] at h
  exact h

/-- The scan of the text `ommon-prefix=...`, which is what is left of
`-common-prefix=...` two characters on: `o` takes the rest as output path. -/
lemma get_opt_scan_o_suffix (reflection : Bool) (opts : Options) (t : CStr)
    (a : Option CStr) (opts1 : Options) (k : Nat) (ht : t ≠ [])
    (h : get_opt_scan reflection opts ('o' :: t) a = Exec.ret (opts1, k)) :
    opts1.inpaths = opts.inpaths ∧ opts1.inpath_count = opts.inpath_count ∧ k = 0 := by
  rw [get_opt_scan, set_opt_short reflection opts 'o' t a (by decide) (by decide)] at h
  by_cases hout : opts.outpath.isSome = true
  · simp [set_opt_switch, hout] at h
  · simp only [set_opt_switch, hout, ne_eq, ht, not_false_eq_true, if_true,
      if_false, Exec.ret.injEq, Prod.mk.injEq] at h
    obtain ⟨rfl, rfl⟩ := h
    exact ⟨rfl, rfl, rfl⟩

/-- After a long option that `set_opt` met inside a short-option token and that
took no next token, the scan goes on one character further, inside the name of
that option. It returns only inside `common-prefix=...`, where `c` is a flag and
`o` takes the rest as output path; the search paths are left as they are. -/
lemma get_opt_scan_after_long (reflection : Bool) (body : CStr) (opts : Options)
    (a : Option CStr) (opts1 : Options) (k : Nat)
    (hb : spec_long_takes_next body = some false)
    (h : get_opt_scan reflection opts body a = Exec.ret (opts1, k)) :
    opts1.inpaths = opts.inpaths ∧ opts1.inpath_count = opts.inpath_count ∧ k = 0 := by
  have hbad : ∀ (c : Char) (t : CStr), body = c :: t →
      c ∉ ['c', 'w', 'v', 'r', 'a', 'I', 'o', 'h', '-'] →
      opts1.inpaths = opts.inpaths ∧ opts1.inpath_count = opts.inpath_count ∧ k = 0 := by
    intro c t hbody hc
    rw [hbody, get_opt_scan_unknown_char reflection opts c t a hc] at h
    cases h
  unfold spec_long_takes_next at hb
  by_cases h1 : body ∈ spec_niladic_long
  · simp only [spec_niladic_long, List.mem_cons, List.mem_singleton, List.not_mem_nil,
      or_false] at h1
    rcases h1 with h1 | h1 | h1 | h1 | h1
    · exact hbad 's' "tdout".toList h1 (by decide)
    · exact hbad 's' "chema".toList h1 (by decide)
    · exact hbad 'j' "son-parser".toList h1 (by decide)
    · exact hbad 'j' "son-printer".toList h1 (by decide)
    · exact hbad 'j' "son".toList h1 (by decide)
  · rw [if_neg h1] at hb
    by_cases h2 : body.contains '=' = true
    · rw [if_pos h2] at hb
      by_cases h3 : body.takeWhile (fun c => c != '=') ∈ spec_value_long
      · have hsplit : body = body.takeWhile (fun c => c != '=')
            ++ body.dropWhile (fun c => c != '=') := (List.takeWhile_append_dropWhile _ _).symm
        have hdrop : body.dropWhile (fun c => c != '=') ≠ [] := by
          intro hd
          rw [hd, List.append_nil] at hsplit
          have hm : '=' ∈ body := by simpa using h2
          rw [hsplit] at hm
          have := List.mem_takeWhile_imp hm
          simp at this
        simp only [spec_value_long, List.mem_cons, List.mem_singleton, List.not_mem_nil,
          or_false] at h3
        rcases h3 with h3 | h3 | h3 | h3
        · rw [h3] at hsplit
          exact hbad 'p' _ hsplit (by decide)
        · rw [h3] at hsplit
          obtain ⟨d, hbd⟩ : ∃ d, body = ['c'] ++ 'o' :: ("mmon-prefix".toList ++ d) :=
            ⟨_, hsplit⟩
          rw [hbd, get_opt_scan_niladic_append reflection ['c'] _ opts a (by decide)] at h
          have := get_opt_scan_o_suffix reflection _ _ a opts1 k (by simp) h
          exact ⟨this.1, this.2.1, this.2.2⟩
        · rw [h3] at hsplit
          exact hbad 's' _ hsplit (by decide)
        · rw [h3] at hsplit
          exact hbad 's' _ hsplit (by decide)
      · rw [if_neg h3] at hb
        cases hb
    · rw [if_neg h2] at hb
      split at hb <;> cases hb

/-- The scan of a short-option token at a dash: when it returns, the search
paths are left as they are, and the next token is taken exactly when the text
after the dash is the bare name of a value-taking long option. -/
lemma get_opt_scan_dash (reflection : Bool) (body : CStr) (opts : Options)
    (a : Option CStr) (opts1 : Options) (k : Nat)
    (h : get_opt_scan reflection opts ('-' :: body) a = Exec.ret (opts1, k)) :
    opts1.inpaths = opts.inpaths ∧ opts1.inpath_count = opts.inpath_count ∧
      k = (if decide (body ∈ spec_value_long) = true then 1 else 0) := by
  rw [get_opt_scan] at h
  cases hs : set_opt reflection opts ('-' :: body) a with
  | fuel_out => simp [hs] at h
  | exit status out => simp [hs] at h
  | ret r =>
    obtain ⟨o1, kind⟩ := r
    obtain ⟨b, hb, _⟩ := set_opt_long_spec_defined reflection opts body a _ _ hs
    have hl := set_opt_long_spec reflection opts body a _ _ b hs hb
    have hv := spec_long_takes_next_value body b hb
    have hk := set_opt_dash_kind reflection opts body a _ _ hs
    cases kind with
    | suffixarg => exact absurd rfl hk
    | nextarg =>
      simp only [hs, Exec.ret.injEq, Prod.mk.injEq] at h
      obtain ⟨rfl, rfl⟩ := h
      have hbt : b = true := hl.2.2.mp rfl
      rw [← hv, hbt]
      exact ⟨hl.1, hl.2.1, rfl⟩
    | noarg =>
      simp only [hs] at h
      have hbf : b = false := by
        cases b with
        | false => rfl
        | true =>
          have := hl.2.2.mpr rfl
          cases this
      rw [hbf] at hb hv
      have := get_opt_scan_after_long reflection body o1 a opts1 k hb h
      rw [← hv]
      exact ⟨this.1.trans hl.1, this.2.1.trans hl.2.1, this.2.2⟩

/-- The reading of a token of one dash and characters that do not start with a
second dash is the reading of those characters. -/
lemma token_reading_short (y : Char) (rest : List Char) (next : Option CStr) (hy : y ≠ '-') :
    token_reading ('-' :: y :: rest) next = short_reading (y :: rest) next := by
  unfold token_reading
  split
  · rename_i heq
    injection heq with _ heq
    injection heq with heq _
    exact absurd heq hy
  · rename_i heq
    injection heq with _ heq
    injection heq with h1 h2
    subst h1
    subst h2
    rfl
  · rename_i hne
    exact absurd rfl (hne y rest)

/-- The scan of a short-option token, whenever it returns, has appended to the
search paths the value of the `-I` occurrence read off the characters, and has
taken the next token exactly when the reading says so. -/
lemma get_opt_scan_reading (reflection : Bool) (cs : List Char) :
    ∀ (opts : Options) (a : Option CStr) (opts1 : Options) (k : Nat),
      get_opt_scan reflection opts cs a = Exec.ret (opts1, k) →
      opts1.inpaths = opts.inpaths ++ (short_reading cs a).1.toList ∧
        opts1.inpath_count = opts.inpath_count + (short_reading cs a).1.toList.length ∧
        k = (if (short_reading cs a).2 = true then 1 else 0) := by
  induction cs with
  | nil =>
    intro opts a opts1 k h
    simp only [get_opt_scan, Exec.ret.injEq, Prod.mk.injEq] at h
    obtain ⟨rfl, rfl⟩ := h
    simp [short_reading]
  | cons c cs ih =>
    intro opts a opts1 k h
    by_cases hd : c = '-'
    · subst hd
      have := get_opt_scan_dash reflection cs opts a opts1 k h
      have hr : short_reading ('-' :: cs) a = (none, decide (cs ∈ spec_value_long)) := rfl
      rw [hr]
      simpa using this
    · by_cases hh : c = 'h'
      · subst hh
        have : set_opt reflection opts ('h' :: cs) a
            = Exec.exit 0 [(Stream.stdout, Msg.help)] := by
          unfold set_opt
          rw [if_pos]
          exact Or.inl rfl
        rw [get_opt_scan, this] at h
        cases h
      · by_cases hI : c = 'I'
        · subst hI
          rw [get_opt_scan, set_opt_short reflection opts 'I' cs a (by decide) (by decide)] at h
          by_cases hcs : cs = []
          · subst hcs
            have ha : arg_after_eq ['I'] a = a := by simp [arg_after_eq, strchr]
            rw [ha] at h
            cases a with
            | none => simp [set_opt_switch] at h
            | some x =>
              simp only [set_opt_switch, ne_eq, not_true_eq_false, if_false, Exec.ret.injEq,
                Prod.mk.injEq] at h
              obtain ⟨rfl, rfl⟩ := h
              simp [short_reading]
          · simp only [set_opt_switch, ne_eq, hcs, not_false_eq_true, if_true, Exec.ret.injEq,
              Prod.mk.injEq] at h
            obtain ⟨rfl, rfl⟩ := h
            simp [short_reading, hcs]
        · by_cases ho : c = 'o'
          · subst ho
            rw [get_opt_scan, set_opt_short reflection opts 'o' cs a (by decide) (by decide)]
              at h
            by_cases hout : opts.outpath.isSome = true
            · simp [set_opt_switch, hout] at h
            · by_cases hcs : cs = []
              · subst hcs
                have ha : arg_after_eq ['o'] a = a := by simp [arg_after_eq, strchr]
                rw [ha] at h
                cases a with
                | none => simp [set_opt_switch, hout] at h
                | some x =>
                  simp only [set_opt_switch, hout, ne_eq, not_true_eq_false, if_false,
                    Exec.ret.injEq, Prod.mk.injEq] at h
                  obtain ⟨rfl, rfl⟩ := h
                  simp [short_reading]
              · simp only [set_opt_switch, hout, ne_eq, hcs, not_false_eq_true, if_true,
                  if_false, Exec.ret.injEq, Prod.mk.injEq] at h
                obtain ⟨rfl, rfl⟩ := h
                simp [short_reading, hcs]
          · by_cases hn : is_niladic c = true
            · rw [get_opt_scan, set_opt_short reflection opts c cs a hd hh,
                set_opt_switch_niladic opts c cs _ hn] at h
              simp only at h
              have := ih _ _ _ _ h
              rw [short_reading_niladic c cs a hn]
              simpa [niladic_apply] using this
            · have hbad : c ∉ ['c', 'w', 'v', 'r', 'a', 'I', 'o', 'h', '-'] := by
                simp only [List.mem_cons, List.mem_singleton, List.not_mem_nil, or_false,
                  not_or]
                refine ⟨?_, ?_, ?_, ?_, ?_, hI, ho, hh, hd⟩ <;>
                  exact fun hc => hn (by rw [hc]; decide)
              rw [get_opt_scan_unknown_char reflection opts c cs a hbad] at h
              cases h

/-- A flag token that `get_opt` accepts: `get_opt` has appended to the search
paths the value of the `-I` occurrence read off the token, and reports one extra
token exactly when the reading says the next token is taken as a value. -/
lemma get_opt_reading (reflection : Bool) (opts : Options) (tok : CStr) (a : Option CStr)
    (opts1 : Options) (k : Nat)
    (h : get_opt reflection opts tok a = Exec.ret (opts1, k))
    (hdash : tok.head? = some '-') :
    opts1.inpaths = opts.inpaths ++ (token_reading tok a).1.toList ∧
      opts1.inpath_count = opts.inpath_count + (token_reading tok a).1.toList.length ∧
      k = (if (token_reading tok a).2 = true then 1 else 0) := by
  match tok, hdash with
  | [x], hdash =>
    unfold get_opt at h
    rw [if_neg (by simp), if_pos (by simp)] at h
    cases h
  | x :: y :: rest, hdash =>
    simp only [List.head?_cons, Option.some.injEq] at hdash
    subst hdash
    by_cases hy : y = '-'
    · subst hy
      unfold get_opt at h
      rw [if_pos (by simp)] at h
      simp only [List.tail_cons] at h
      split at h
      · rename_i o2 k2 heq
        simp only [Exec.ret.injEq, Prod.mk.injEq] at h
        obtain ⟨rfl, rfl⟩ := h
        obtain ⟨b, hb, _⟩ := set_opt_long_spec_defined reflection opts rest a _ _ heq
        have hl := set_opt_long_spec reflection opts rest a _ _ b heq hb
        have hv := spec_long_takes_next_value rest b hb
        rw [token_reading.eq_1, ← hv]
        cases b with
        | true =>
          have hk : k2 = ArgKind.nextarg := hl.2.2.mpr rfl
          simp [hl.1, hl.2.1, hk]
        | false =>
          have hk : ¬ k2 = ArgKind.nextarg := fun hk => by
            have := hl.2.2.mp hk
            cases this
          simp [hl.1, hl.2.1, hk]
      · cases h
      · cases h
    · rw [token_reading_short y rest a hy]
      unfold get_opt at h
      rw [if_neg (by simpa using hy), if_neg (by simp)] at h
      exact get_opt_scan_reading reflection _ _ _ _ _ h

/-- Whenever the flag loop returns, it has appended to the search paths the
values of the `-I` occurrences of the tokens from its start index on, in
order. -/
lemma flag_loop_reading (reflection : Bool) (argv : List CStr) :
    ∀ (fuel i : Nat) (opts opts1 : Options) (j : Nat),
      flag_loop reflection argv fuel i opts = Exec.ret (opts1, j) →
      opts1.inpaths = opts.inpaths ++ include_occurrences (argv.drop i) ∧
        opts1.inpath_count = opts.inpath_count + (include_occurrences (argv.drop i)).length := by
  intro fuel
  induction fuel with
  | zero => intro i opts opts1 j h; simp [flag_loop] at h
  | succ fuel ih =>
    intro i opts opts1 j h
    rcases flag_loop_cases reflection argv fuel i opts with
      ⟨hnone, hfl, _⟩ | ⟨tok, htok, hnd, hfl, _⟩ | ⟨tok, status, out, _, _, _, hfl, _⟩ |
      ⟨tok, opts2, k, htok, hd, hget, hfl, _⟩
    · rw [hfl] at h
      simp only [Exec.ret.injEq, Prod.mk.injEq] at h
      rw [(drop_of_getElem? argv i).1 hnone, ← h.1]
      simp [include_occurrences]
    · rw [hfl] at h
      simp only [Exec.ret.injEq, Prod.mk.injEq] at h
      rw [(drop_of_getElem? argv i).2 tok htok, ← h.1]
      cases argv.drop (i + 1) <;> simp [include_occurrences, hnd]
    · rw [hfl] at h
      cases h
    · rw [hfl] at h
      have hrec := ih _ _ _ _ h
      have hg := get_opt_reading reflection opts tok _ opts2 k hget hd
      rw [(drop_of_getElem? argv i).2 tok htok]
      cases hnext : argv[i + 1]? with
      | none =>
        rw [hnext] at hg
        have hend : argv.drop (i + k + 1) = [] := by
          apply List.drop_eq_nil_of_le
          have := List.getElem?_eq_none_iff.mp hnext
          omega
        rw [hend] at hrec
        rw [(drop_of_getElem? argv (i + 1)).1 hnext]
        simp only [include_occurrences, hd, if_true, List.append_nil, List.length_nil,
          Nat.add_zero] at hrec ⊢
        rw [hrec.1, hrec.2]
        exact ⟨hg.1, hg.2.1⟩
      | some nxt =>
        rw [hnext] at hg
        rw [(drop_of_getElem? argv (i + 1)).2 nxt hnext, include_occurrences.eq_3,
          if_pos hd]
        by_cases hb : (token_reading tok (some nxt)).2 = true
        · rw [if_pos hb]
          have hk : k = 1 := by rw [hg.2.2, if_pos hb]
          subst hk
          rw [hrec.1, hrec.2, hg.1, hg.2.1]
          simp only [List.append_assoc, List.length_append]
          exact ⟨trivial, by omega⟩
        · rw [if_neg hb]
          have hk : k = 0 := by rw [hg.2.2, if_neg hb]
          subst hk
          rw [(drop_of_getElem? argv (i + 1)).2 nxt hnext] at hrec
          rw [hrec.1, hrec.2, hg.1, hg.2.1]
          simp only [List.append_assoc, List.length_append]
          exact ⟨trivial, by omega⟩

/-- The `-I` occurrence at the head of a command line, niladic flags packed
before it or not: in suffix form and in space form it gives the same value, and
the reading goes on after it. -/
lemma include_occurrences_forms (pack : List Char) (v : CStr) (rest : List CStr)
    (hpack : ∀ c ∈ pack, is_niladic c = true) (hv : v ≠ []) :
    include_occurrences (dash (pack ++ 'I' :: v) :: rest) = v :: include_occurrences rest ∧
      include_occurrences (dash (pack ++ ['I']) :: v :: rest)
        = v :: include_occurrences rest := by
  have hread : ∀ (t : List Char) (next : Option CStr),
      token_reading (dash (pack ++ 'I' :: t)) next = short_reading ('I' :: t) next := by
    intro t next
    unfold dash
    cases pack with
    | nil => exact token_reading_short 'I' t next (by decide)
    | cons d ds =>
      have hd := hpack d (List.mem_cons_self _ _)
      rw [List.cons_append, token_reading_short d _ next (is_niladic_ne d hd).1,
        ← List.cons_append, short_reading_pack (d :: ds) _ next hpack]
  have h1 : ∀ next, token_reading (dash (pack ++ 'I' :: v)) next = (some v, false) := by
    intro next
    rw [hread]
    simp [short_reading, hv]
  have h2 : token_reading (dash (pack ++ ['I'])) (some v) = (some v, true) := by
    rw [hread]
    simp [short_reading]
  have hdash : ∀ t : List Char, (dash t).head? = some '-' := fun _ => rfl
  constructor
  · cases rest with
    | nil => simp [include_occurrences, hdash, h1]
    | cons nxt rest => simp [include_occurrences, hdash, h1]
  · simp [include_occurrences, hdash, h2]

/-! ## The claims -/

/-- C1: when the flags parse, validation passes and at least one input file is
named, then for every backend `B`, that is, for every assignment of results to
the calls: `main` attempts every file named, in order; it returns 0 exactly when
every parse and every generate that `B` was asked for returned 0, and -1 in
every other case; and its events are the backend calls of those attempts, then
the closing diagnostic when the status is -1. The parse and generate results
are the values `B` returns for the files `argv[i..]`. -/
theorem main_status_zero_iff_backend_calls_zero {σ : Type} (reflection : Bool)
    (B : Backend σ) (st : σ) (argv : List CStr) (opts : Options) (i : Nat)
    (hparse : flag_loop reflection argv argv.length 1 flatcc_init_options = Exec.ret (opts, i))
    (hconflict : ¬ (opts.gen_stdout = true ∧ opts.outpath.isSome = true))
    (hfile : i < argv.length)
    (hmixed : ¬ (opts.bgen_bfbs = true ∧ cgen_requested (set_common_builder opts) = true
      ∧ opts.gen_stdout = true)) :
    main reflection B st argv = some
      { status :=
          if attempts_ok (spec_attempts B st (batch_options opts) (argv.drop i)) = true
          then 0 else -1
        events :=
          ((spec_attempts B st (batch_options opts) (argv.drop i)).map attempt_calls).flatten
            ++ (if attempts_ok (spec_attempts B st (batch_options opts) (argv.drop i)) = true
                then [] else [Event.print Stream.stderr Msg.output_failed]) } ∧
    (spec_attempts B st (batch_options opts) (argv.drop i)).map (fun a => a.file)
      = argv.drop i ∧
    (attempts_ok (spec_attempts B st (batch_options opts) (argv.drop i)) = true ↔
      ∀ a ∈ spec_attempts B st (batch_options opts) (argv.drop i),
        a.parse = 0 ∧ ∀ g, a.generate = some g → g = 0) ∧
    (∀ a ∈ spec_attempts B st (batch_options opts) (argv.drop i),
      (a.generate.isSome = true ↔ a.parse = 0)) ∧
    (∀ run, main reflection B st argv = some run →
      (run.status = 0 ↔
        ∀ a ∈ spec_attempts B st (batch_options opts) (argv.drop i),
          a.parse = 0 ∧ ∀ g, a.generate = some g → g = 0) ∧
      (run.status ≠ 0 → run.status = -1)) := by
  have hmain := main_batch reflection B st argv opts i hparse hconflict hfile hmixed
  have hb := batch_loop_attempts B (argv.drop i) st (batch_options opts) 0
  have hrun : main reflection B st argv = some
      { status :=
          if attempts_ok (spec_attempts B st (batch_options opts) (argv.drop i)) = true
          then 0 else -1
        events :=
          ((spec_attempts B st (batch_options opts) (argv.drop i)).map attempt_calls).flatten
            ++ (if attempts_ok (spec_attempts B st (batch_options opts) (argv.drop i)) = true
                then [] else [Event.print Stream.stderr Msg.output_failed]) } := by
    rw [hmain]
    unfold finish
    rw [hb.1]
    by_cases hok : attempts_ok (spec_attempts B st (batch_options opts) (argv.drop i)) = true
    · have h0 : (batch_loop B st (batch_options opts) 0 (argv.drop i)).1 = 0 :=
        hb.2.mpr ⟨rfl, hok⟩
      simp only [h0, hok, ne_eq, not_true_eq_false, if_false, if_true]
    · have h0 : ¬ (batch_loop B st (batch_options opts) 0 (argv.drop i)).1 = 0 :=
        fun h => hok (hb.2.mp h).2
      simp only [h0, hok, ne_eq, not_false_eq_true, if_true, if_false]
      rfl
  refine ⟨hrun, (spec_attempts_files B _ st _).1, attempts_ok_iff _,
    (spec_attempts_files B _ st _).2, ?_⟩
  intro run hr
  rw [hrun] at hr
  simp only [Option.some.injEq] at hr
  rw [← hr, ← attempts_ok_iff]
  by_cases hok : attempts_ok (spec_attempts B st (batch_options opts) (argv.drop i)) = true
  · simp [hok]
  · simp [hok]

/-- Witness for C1: `flatcc -c a.fbs b.fbs c.fbs`. On a backend whose second
parse returns 256 all three files are attempted and the status is -1; on a
backend whose every call returns 0 the status is 0. -/
theorem main_status_zero_iff_backend_calls_zero_witness :
    main true second_parse_fails (0, 0) args_three_files = some
      { status := -1
        events :=
          [Event.create { flatcc_init_options with cgen_common_reader := true }
              (some "a.fbs".toList) 0,
            Event.parse 0 "a.fbs".toList 0, Event.generate 0 0, Event.destroy 0,
            Event.create flatcc_init_options (some "b.fbs".toList) 2,
            Event.parse 2 "b.fbs".toList 256, Event.destroy 2,
            Event.create flatcc_init_options (some "c.fbs".toList) 3,
            Event.parse 3 "c.fbs".toList 0, Event.generate 3 0, Event.destroy 3,
            Event.print Stream.stderr Msg.output_failed] } ∧
    (main true all_calls_succeed (0, 0) args_three_files).map (fun run => run.status)
      = some 0 :=
  ⟨(main_status_zero_iff_backend_calls_zero true second_parse_fails (0, 0)
      args_three_files { flatcc_init_options with cgen_common_reader := true } 2
      (by decide) (by decide) (by decide) (by decide)).1.trans (by decide),
    (congrArg (Option.map (fun run => run.status))
      (main_status_zero_iff_backend_calls_zero true all_calls_succeed (0, 0)
        args_three_files { flatcc_init_options with cgen_common_reader := true } 2
        (by decide) (by decide) (by decide) (by decide)).1).trans (by decide)⟩

/-- C2: whatever the backend, the options, the status so far and the file
list, the events of the batch loop are, file by file in order, the calls the
backend `B` is to get for that file by the spec: create for that file, parse of
that file, generate exactly when the parse `B` returned for that file is 0,
destroy of that context; the handles and results logged are the ones `B`
returns. Every file is attempted, one context is live at a time and each is
destroyed before the next is created. -/
theorem batch_loop_calls_per_file {σ : Type} (B : Backend σ) (files : List CStr)
    (st : σ) (opts : Options) (status : Int) :
    (batch_loop B st opts status files).2
        = ((spec_attempts B st opts files).map attempt_calls).flatten ∧
      (spec_attempts B st opts files).map (fun a => a.file) = files ∧
      (∀ a ∈ spec_attempts B st opts files, (a.generate.isSome = true ↔ a.parse = 0)) ∧
      (∀ (f : CStr) (rest : List CStr),
        (batch_loop B st opts status (f :: rest)).2 =
          [Event.create opts (some f) (B.create_context opts (some f) st).1,
            Event.parse (B.create_context opts (some f) st).1 f
              (B.parse_file (B.create_context opts (some f) st).1 f
                (B.create_context opts (some f) st).2).1]
          ++ (if (B.parse_file (B.create_context opts (some f) st).1 f
                (B.create_context opts (some f) st).2).1 = 0
              then [Event.generate (B.create_context opts (some f) st).1
                (B.generate_files (B.create_context opts (some f) st).1
                  (B.parse_file (B.create_context opts (some f) st).1 f
                    (B.create_context opts (some f) st).2).2).1]
              else [])
          ++ [Event.destroy (B.create_context opts (some f) st).1]
          ++ ((spec_attempts B
                (B.destroy_context (B.create_context opts (some f) st).1
                  (if (B.parse_file (B.create_context opts (some f) st).1 f
                      (B.create_context opts (some f) st).2).1 = 0
                    then (B.generate_files (B.create_context opts (some f) st).1
                      (B.parse_file (B.create_context opts (some f) st).1 f
                        (B.create_context opts (some f) st).2).2).2
                    else (B.parse_file (B.create_context opts (some f) st).1 f
                      (B.create_context opts (some f) st).2).2))
                (clear_common opts) rest).map attempt_calls).flatten) ∧
      lifecycle_ok none (batch_loop B st opts status files).2 = true := by
  refine ⟨(batch_loop_attempts B files st opts status).1, (spec_attempts_files B files st opts).1,
    (spec_attempts_files B files st opts).2, fun f rest => ?_, ?_⟩
  · simp only [batch_loop]
    rw [(batch_loop_attempts B rest _ _ _).1]
  · have key : ∀ (files : List CStr) (st : σ) (opts : Options) (status : Int),
        lifecycle_ok none (batch_loop B st opts status files).2 = true := by
      intro files
      induction files with
      | nil => intro st opts status; rfl
      | cons f rest ih =>
        intro st opts status
        simp only [batch_loop]
        by_cases hp : (B.parse_file (B.create_context opts (some f) st).1 f
            (B.create_context opts (some f) st).2).1 = 0
        · have hlife := ih
            (B.destroy_context (B.create_context opts (some f) st).1
              (B.generate_files (B.create_context opts (some f) st).1
                (B.parse_file (B.create_context opts (some f) st).1 f
                  (B.create_context opts (some f) st).2).2).2)
            (clear_common opts)
            (Int.lor (Int.lor status (B.parse_file (B.create_context opts (some f) st).1 f
                (B.create_context opts (some f) st).2).1)
              (B.generate_files (B.create_context opts (some f) st).1
                (B.parse_file (B.create_context opts (some f) st).1 f
                  (B.create_context opts (some f) st).2).2).1)
          simp only [hp, if_true] at hlife ⊢
          simpa [lifecycle_ok] using hlife
        · have hlife := ih
            (B.destroy_context (B.create_context opts (some f) st).1
              (B.parse_file (B.create_context opts (some f) st).1 f
                (B.create_context opts (some f) st).2).2)
            (clear_common opts)
            (Int.lor status (B.parse_file (B.create_context opts (some f) st).1 f
                (B.create_context opts (some f) st).2).1)
          simp only [hp, if_false] at hlife ⊢
          simpa [lifecycle_ok] using hlife
    exact key files st opts status

/-- Witness for C2: three files on a backend whose second parse returns 256:
the second file gets no generate call, the third file is attempted all the
same. -/
theorem batch_loop_calls_per_file_witness :
    (batch_loop second_parse_fails (0, 0) flatcc_init_options 0
        ["a.fbs".toList, "b.fbs".toList, "c.fbs".toList]).2
      = [Event.create flatcc_init_options (some "a.fbs".toList) 0,
          Event.parse 0 "a.fbs".toList 0, Event.generate 0 0, Event.destroy 0,
          Event.create flatcc_init_options (some "b.fbs".toList) 2,
          Event.parse 2 "b.fbs".toList 256, Event.destroy 2,
          Event.create flatcc_init_options (some "c.fbs".toList) 3,
          Event.parse 3 "c.fbs".toList 0, Event.generate 3 0, Event.destroy 3] :=
  (batch_loop_calls_per_file second_parse_fails
    ["a.fbs".toList, "b.fbs".toList, "c.fbs".toList] (0, 0) flatcc_init_options 0).1.trans
    (by decide)

/-- C3: in a batch of at least one file, the first context is created with the
common-reader value the flags set and with common-builder equal to builder and
common-reader; every later context is created with both cleared, whatever the
backend returned for the first file. -/
theorem common_flags_first_context_only {σ : Type} (reflection : Bool)
    (B : Backend σ) (st : σ) (argv : List CStr) (opts : Options) (i : Nat)
    (hparse : flag_loop reflection argv argv.length 1 flatcc_init_options = Exec.ret (opts, i))
    (hconflict : ¬ (opts.gen_stdout = true ∧ opts.outpath.isSome = true))
    (hfile : i < argv.length)
    (hmixed : ¬ (opts.bgen_bfbs = true ∧ cgen_requested (set_common_builder opts) = true
      ∧ opts.gen_stdout = true)) :
    ∃ run first later, main reflection B st argv = some run ∧
      created_options run.events = first :: later ∧
      later.length + 1 + i = argv.length ∧
      first.cgen_common_reader = opts.cgen_common_reader ∧
      first.cgen_common_builder = (opts.cgen_builder && opts.cgen_common_reader) ∧
      ∀ o ∈ later, o.cgen_common_reader = false ∧ o.cgen_common_builder = false := by
  obtain ⟨f, rest, hdrop, hlen⟩ := drop_cons_of_lt argv i hfile
  refine ⟨_, batch_options opts, List.replicate rest.length (clear_common (batch_options opts)),
    main_batch reflection B st argv opts i hparse hconflict hfile hmixed, ?_, ?_, ?_, ?_, ?_⟩
  · rw [created_options_finish, hdrop, created_options_batch]
  · simpa using hlen
  · unfold batch_options default_reader set_common_builder
    split <;> rfl
  · unfold batch_options default_reader set_common_builder
    split <;> rfl
  · intro o ho
    rw [List.eq_of_mem_replicate ho]
    exact ⟨rfl, rfl⟩

/-- Witness for C3: `flatcc -c a.fbs b.fbs c.fbs` with a backend whose second
parse fails. -/
theorem common_flags_first_context_only_witness :
    flag_loop true args_three_files args_three_files.length 1 flatcc_init_options
        = Exec.ret ({ flatcc_init_options with cgen_common_reader := true }, 2) ∧
      ∃ run first later, main true second_parse_fails (0, 0) args_three_files = some run ∧
        created_options run.events = first :: later ∧
        later.length + 1 + 2 = args_three_files.length ∧
        first.cgen_common_reader = true ∧
        first.cgen_common_builder = (false && true) ∧
        ∀ o ∈ later, o.cgen_common_reader = false ∧ o.cgen_common_builder = false :=
  ⟨by decide, common_flags_first_context_only true second_parse_fails (0, 0)
    args_three_files { flatcc_init_options with cgen_common_reader := true } 2
    (by decide) (by decide) (by decide) (by decide)⟩

/-- C4: when the flags parse, validation passes and at least one input file is
named, contexts are created and each is created with reader generation enabled
exactly when binary schema is disabled and either builder is enabled or none of
builder, verifier, common reader, json parser and json printer is; the flag
loop itself leaves the reader flag false. -/
theorem reader_enabled_iff {σ : Type} (reflection : Bool)
    (B : Backend σ) (st : σ) (argv : List CStr) (opts : Options) (i : Nat)
    (hparse : flag_loop reflection argv argv.length 1 flatcc_init_options = Exec.ret (opts, i))
    (hconflict : ¬ (opts.gen_stdout = true ∧ opts.outpath.isSome = true))
    (hfile : i < argv.length)
    (hmixed : ¬ (opts.bgen_bfbs = true ∧ cgen_requested (set_common_builder opts) = true
      ∧ opts.gen_stdout = true)) :
    opts.cgen_reader = false ∧
    ∃ run, main reflection B st argv = some run ∧
      created_options run.events ≠ [] ∧
      ∀ o ∈ created_options run.events,
        (o.cgen_reader = true ↔
          opts.bgen_bfbs = false ∧ (opts.cgen_builder = true ∨
            (opts.cgen_builder = false ∧ opts.cgen_verifier = false ∧
              opts.cgen_common_reader = false ∧ opts.cgen_json_parser_flag = false ∧
              opts.cgen_json_printer = false))) := by
  have hr := flag_loop_cgen_reader reflection argv _ _ _ _ hparse
  obtain ⟨f, rest, hdrop, _⟩ := drop_cons_of_lt argv i hfile
  refine ⟨hr, _, main_batch reflection B st argv opts i hparse hconflict hfile hmixed, ?_, ?_⟩
  · rw [created_options_finish, hdrop, created_options_batch]
    exact List.cons_ne_nil _ _
  · intro o ho
    rw [created_options_finish, hdrop, created_options_batch] at ho
    have ho2 : o.cgen_reader = (batch_options opts).cgen_reader := by
      rcases List.mem_cons.mp ho with h | h
      · rw [h]
      · rw [List.eq_of_mem_replicate h]
        rfl
    rw [ho2]
    exact batch_options_cgen_reader opts hr

/-- Witness for C4: `flatcc -c a.fbs b.fbs c.fbs`. -/
theorem reader_enabled_iff_witness :
    flag_loop true args_three_files args_three_files.length 1 flatcc_init_options
        = Exec.ret ({ flatcc_init_options with cgen_common_reader := true }, 2) ∧
      ∃ run, main true second_parse_fails (0, 0) args_three_files = some run ∧
        created_options run.events ≠ [] ∧
        ∀ o ∈ created_options run.events, ¬ (o.cgen_reader = true) := by
  refine ⟨by decide, ?_⟩
  obtain ⟨_, run, hrun, hne, hall⟩ := reader_enabled_iff true second_parse_fails (0, 0)
    args_three_files { flatcc_init_options with cgen_common_reader := true } 2
    (by decide) (by decide) (by decide) (by decide)
  exact ⟨run, hrun, hne, fun o ho h => by
    have := (hall o ho).mp h
    revert this
    decide⟩

/-- C5, as stated, fails: with binary schema support compiled in,
`flatcc -w --schema a.fbs` parses, requests the builder, has one input file and
runs to status 0, and its only context is created with reader generation
disabled. -/
theorem builder_implies_reader_counterexample :
    flag_loop true args_builder_schema args_builder_schema.length 1 flatcc_init_options
        = Exec.ret ({ flatcc_init_options with cgen_builder := true, bgen_bfbs := true }, 3) ∧
      (main true all_calls_succeed (0, 0) args_builder_schema).map
          (fun run => (run.status, (created_options run.events).map
            (fun o => (o.cgen_builder, o.cgen_reader))))
        = some (0, [(true, false)]) := by
  decide

/-- C5, amended: when the flags parse with builder generation requested and
binary schema generation not requested, stdout mode and output path do not
conflict and at least one input file is named, contexts are created and every
one of them is created with reader generation enabled, although the flag loop
left the reader flag false. -/
theorem builder_implies_reader_without_schema {σ : Type} (reflection : Bool)
    (B : Backend σ) (st : σ) (argv : List CStr) (opts : Options) (i : Nat)
    (hparse : flag_loop reflection argv argv.length 1 flatcc_init_options = Exec.ret (opts, i))
    (hconflict : ¬ (opts.gen_stdout = true ∧ opts.outpath.isSome = true))
    (hfile : i < argv.length)
    (hbuilder : opts.cgen_builder = true)
    (hschema : opts.bgen_bfbs = false) :
    opts.cgen_reader = false ∧
    ∃ run, main reflection B st argv = some run ∧
      created_options run.events ≠ [] ∧
      ∀ o ∈ created_options run.events, o.cgen_reader = true := by
  have hr := flag_loop_cgen_reader reflection argv _ _ _ _ hparse
  have hmixed : ¬ (opts.bgen_bfbs = true ∧ cgen_requested (set_common_builder opts) = true
      ∧ opts.gen_stdout = true) := by
    simp [hschema]
  obtain ⟨f, rest, hdrop, _⟩ := drop_cons_of_lt argv i hfile
  refine ⟨hr, _, main_batch reflection B st argv opts i hparse hconflict hfile hmixed, ?_, ?_⟩
  · rw [created_options_finish, hdrop, created_options_batch]
    exact List.cons_ne_nil _ _
  · intro o ho
    rw [created_options_finish, hdrop, created_options_batch] at ho
    have ho2 : o.cgen_reader = (batch_options opts).cgen_reader := by
      rcases List.mem_cons.mp ho with h | h
      · rw [h]
      · rw [List.eq_of_mem_replicate h]
        rfl
    rw [ho2]
    exact (batch_options_cgen_reader opts hr).mpr ⟨hschema, Or.inl hbuilder⟩

/-- Witness for the amended C5: `flatcc -w a.fbs`. -/
theorem builder_implies_reader_without_schema_witness :
    flag_loop true args_builder args_builder.length 1 flatcc_init_options
        = Exec.ret ({ flatcc_init_options with cgen_builder := true }, 2) ∧
      ∃ run, main true all_calls_succeed (0, 0) args_builder = some run ∧
        created_options run.events ≠ [] ∧
        ∀ o ∈ created_options run.events, o.cgen_reader = true :=
  ⟨by decide, (builder_implies_reader_without_schema true all_calls_succeed (0, 0)
    args_builder { flatcc_init_options with cgen_builder := true } 2
    (by decide) (by decide) (by decide) rfl rfl).2⟩

/-- C6: on every command line whose flags the flag loop accepts, the search
paths the flag loop returns are exactly the values of the `-I` occurrences in the
order they appear, read off the tokens from left to right up to the first token
that is neither a flag nor the value of one, and their count is the number of
those occurrences. An occurrence gives the same value as a suffix (`-Ipath`) and
as the next token (`-I path`), niladic flags packed before it or not. Where the
option grammar of the spec reads the command line, it reads the same values, and
it reads every accepted command line in which no token has a dash inside its
flags. -/
theorem include_paths_are_occurrences_in_order (reflection : Bool) (argv : List CStr)
    (opts : Options) (i : Nat)
    (hparse : flag_loop reflection argv argv.length 1 flatcc_init_options
      = Exec.ret (opts, i)) :
    opts.inpaths = include_occurrences (argv.drop 1) ∧
    opts.inpath_count = (include_occurrences (argv.drop 1)).length ∧
    (∀ (pack : List Char) (v : CStr) (rest : List CStr),
      (∀ c ∈ pack, is_niladic c = true) → v ≠ [] →
      include_occurrences (dash (pack ++ 'I' :: v) :: rest) = v :: include_occurrences rest ∧
      include_occurrences (dash (pack ++ ['I']) :: v :: rest)
        = v :: include_occurrences rest) ∧
    (∀ vs, spec_include_values (argv.drop 1) = some vs →
      opts.inpaths = vs ∧ opts.inpath_count = vs.length) ∧
    ((∀ tok ∈ argv, dash_inside_flags tok = false) →
      spec_include_values (argv.drop 1) = some opts.inpaths) := by
  have hread := flag_loop_reading reflection argv _ _ _ _ _ hparse
  have h0 : flatcc_init_options.inpaths = [] := rfl
  have h1 : flatcc_init_options.inpath_count = 0 := rfl
  rw [h0, h1, List.nil_append, Nat.zero_add] at hread
  have hsound : ∀ vs, spec_include_values (argv.drop 1) = some vs →
      opts.inpaths = vs ∧ opts.inpath_count = vs.length := by
    intro vs hspec
    have := flag_loop_spec reflection argv _ _ _ _ _ vs hparse hspec
    simpa [flatcc_init_options] using this
  refine ⟨hread.1, hread.2,
    fun pack v rest hpack hv => include_occurrences_forms pack v rest hpack hv,
    hsound, fun hin => ?_⟩
  obtain ⟨vs, hvs⟩ := flag_loop_spec_defined reflection argv hin _ _ _ _ _ hparse
  rw [(hsound vs hvs).1]
  exact hvs

/-- Witness for C6: `flatcc -Ia -Ib x.fbs` and `flatcc -I a -Ib x.fbs` both
yield the search paths a, b, and so does `flatcc -c-prefix x -Ia -I b a.fbs`. -/
theorem include_paths_are_occurrences_in_order_witness :
    (∃ opts, flag_loop true ["flatcc".toList, "-Ia".toList, "-Ib".toList, "x.fbs".toList] 4 1
        flatcc_init_options = Exec.ret (opts, 3) ∧
      opts.inpaths = ["a".toList, "b".toList] ∧ opts.inpath_count = 2) ∧
    (∃ opts, flag_loop true
        ["flatcc".toList, "-I".toList, "a".toList, "-Ib".toList, "x.fbs".toList] 5 1
        flatcc_init_options = Exec.ret (opts, 4) ∧
      opts.inpaths = ["a".toList, "b".toList] ∧ opts.inpath_count = 2) ∧
    (∃ opts, flag_loop true
        ["flatcc".toList, "-c-prefix".toList, "x".toList, "-Ia".toList, "-I".toList,
          "b".toList, "a.fbs".toList] 7 1
        flatcc_init_options = Exec.ret (opts, 6) ∧
      opts.inpaths = ["a".toList, "b".toList] ∧ opts.inpath_count = 2) :=
  ⟨⟨{ flatcc_init_options with inpaths := ["a".toList, "b".toList], inpath_count := 2 },
      by decide,
      (include_paths_are_occurrences_in_order true
        ["flatcc".toList, "-Ia".toList, "-Ib".toList, "x.fbs".toList] _ 3
        (by decide)).1.trans (by decide),
      (include_paths_are_occurrences_in_order true
        ["flatcc".toList, "-Ia".toList, "-Ib".toList, "x.fbs".toList] _ 3
        (by decide)).2.1.trans (by decide)⟩,
    ⟨{ flatcc_init_options with inpaths := ["a".toList, "b".toList], inpath_count := 2 },
      by decide,
      (include_paths_are_occurrences_in_order true
        ["flatcc".toList, "-I".toList, "a".toList, "-Ib".toList, "x.fbs".toList] _ 4
        (by decide)).1.trans (by decide),
      (include_paths_are_occurrences_in_order true
        ["flatcc".toList, "-I".toList, "a".toList, "-Ib".toList, "x.fbs".toList] _ 4
        (by decide)).2.1.trans (by decide)⟩,
    ⟨{ flatcc_init_options with
        cgen_common_reader := true, ns := some "x".toList,
        inpaths := ["a".toList, "b".toList], inpath_count := 2 },
      by decide,
      (include_paths_are_occurrences_in_order true
        ["flatcc".toList, "-c-prefix".toList, "x".toList, "-Ia".toList, "-I".toList,
          "b".toList, "a.fbs".toList] _ 6 (by decide)).1.trans (by decide),
      (include_paths_are_occurrences_in_order true
        ["flatcc".toList, "-c-prefix".toList, "x".toList, "-Ia".toList, "-I".toList,
          "b".toList, "a.fbs".toList] _ 6 (by decide)).2.1.trans (by decide)⟩⟩

/-- C7: two command lines whose flag tokens are built only from the niladic
short flags c, w, v, r and a, in any order, packing and repetition, and that
request the same set of flags (a counting as all four), leave the flag loop with
the same Option Model: the initial options with exactly the requested flags
switched on. -/
theorem niladic_flags_depend_only_on_set (reflection : Bool) (prog1 prog2 : CStr)
    (tokens1 tokens2 : List (List Char)) (files1 files2 : List CStr)
    (hvalid1 : ∀ t ∈ tokens1, t ≠ [] ∧ ∀ c ∈ t, is_niladic c = true)
    (hvalid2 : ∀ t ∈ tokens2, t ≠ [] ∧ ∀ c ∈ t, is_niladic c = true)
    (hfiles1 : ∀ f, files1.head? = some f → f.head? ≠ some '-')
    (hfiles2 : ∀ f, files2.head? = some f → f.head? ≠ some '-')
    (hsame : ∀ c ∈ ['c', 'w', 'v', 'r'],
      niladic_requested tokens1.flatten c = niladic_requested tokens2.flatten c) :
    ∃ opts,
      opts = niladic_apply flatcc_init_options tokens1.flatten ∧
      flag_loop reflection (prog1 :: (tokens1.map dash ++ files1))
          (prog1 :: (tokens1.map dash ++ files1)).length 1 flatcc_init_options
        = Exec.ret (opts, 1 + tokens1.length) ∧
      flag_loop reflection (prog2 :: (tokens2.map dash ++ files2))
          (prog2 :: (tokens2.map dash ++ files2)).length 1 flatcc_init_options
        = Exec.ret (opts, 1 + tokens2.length) := by
  refine ⟨_, rfl, ?_, ?_⟩
  · exact flag_loop_niladic reflection tokens1 files1 hfiles1 [prog1] flatcc_init_options _
      hvalid1 (by simp; omega)
  · rw [niladic_apply_congr _ _ _ hsame]
    exact flag_loop_niladic reflection tokens2 files2 hfiles2 [prog2] flatcc_init_options _
      hvalid2 (by simp; omega)

/-- Witness for C7: `flatcc -a x.fbs` and `flatcc -rc -wvc x.fbs`. -/
theorem niladic_flags_depend_only_on_set_witness :
    ∃ opts,
      opts = niladic_apply flatcc_init_options ['a'] ∧
      flag_loop true ["flatcc".toList, "-a".toList, "x.fbs".toList] 3 1 flatcc_init_options
        = Exec.ret (opts, 2) ∧
      flag_loop true ["flatcc".toList, "-rc".toList, "-wvc".toList, "x.fbs".toList] 4 1
          flatcc_init_options
        = Exec.ret (opts, 3) :=
  niladic_flags_depend_only_on_set true "flatcc".toList "flatcc".toList
    [['a']] [['r', 'c'], ['w', 'v', 'c']] ["x.fbs".toList] ["x.fbs".toList]
    (by decide) (by decide) (by decide) (by decide) (by decide)

/-- C8: when the tokens before it are all consumed as options and have set the
output path, a token whose scan reaches the flag `o`, whether a value is attached
to it or not, ends the run with status -1 after the diagnostic and before any
context is created. -/
theorem second_outpath_is_fatal {σ : Type} (reflection : Bool) (B : Backend σ) (st : σ)
    (prog : CStr) (pre post : List CStr) (opts1 : Options) (pack : List Char) (rest : CStr)
    (hpre : flag_loop reflection (prog :: pre) (prog :: pre).length 1 flatcc_init_options
      = Exec.ret (opts1, (prog :: pre).length))
    (hout : opts1.outpath.isSome = true)
    (hpack : ∀ c ∈ pack, is_niladic c = true) :
    main reflection B st (prog :: pre ++ dash (pack ++ 'o' :: rest) :: post)
      = some { status := -1, events := [Event.print Stream.stderr Msg.outpath_once] } := by
  have hstep : flag_loop reflection (prog :: pre ++ dash (pack ++ 'o' :: rest) :: post) 1
      (prog :: pre).length opts1 = Exec.exit (-1) [(Stream.stderr, Msg.outpath_once)] :=
    flag_loop_step_exit reflection _ 0 _ opts1 (dash (pack ++ 'o' :: rest)) _ _
      (by rw [List.getElem?_append_right (Nat.le_refl _)]; simp) rfl
      (get_opt_second_outpath reflection opts1 pack rest _ hpack hout)
  have hloop := flag_loop_reach reflection prog pre _ post opts1 _ hpre hstep (by simp)
  rw [main_exit reflection B st _ _ _ (by simp; omega) hloop]
  rfl

/-- Witness for C8: `flatcc -o out -cox a.fbs`. -/
theorem second_outpath_is_fatal_witness :
    main true all_calls_succeed (0, 0)
        ["flatcc".toList, "-o".toList, "out".toList, "-cox".toList, "a.fbs".toList]
      = some { status := -1, events := [Event.print Stream.stderr Msg.outpath_once] } :=
  second_outpath_is_fatal true all_calls_succeed (0, 0) "flatcc".toList
    ["-o".toList, "out".toList] ["a.fbs".toList]
    { flatcc_init_options with outpath := some "out".toList } ['c'] ['x']
    (by decide) (by decide) (by decide)

/-- C9: when the flags parse and leave both stdout mode and an output path set,
`main` returns -1 after its diagnostics without creating any context, whatever
follows the flags; and in no run at all is a context created with options that
have both stdout mode and an output path set. -/
theorem stdout_with_outpath_is_fatal {σ : Type} (reflection : Bool) (B : Backend σ) (st : σ)
    (argv : List CStr) :
    (∀ (opts : Options) (i : Nat),
      flag_loop reflection argv argv.length 1 flatcc_init_options = Exec.ret (opts, i) →
      opts.gen_stdout = true → opts.outpath.isSome = true →
      main reflection B st argv = some
        { status := -1
          events := [Event.print Stream.stderr Msg.stdout_with_outpath,
                     Event.print Stream.stderr Msg.output_failed] }) ∧
    (∀ run, main reflection B st argv = some run →
      ∀ o ∈ created_options run.events,
        ¬ (o.gen_stdout = true ∧ o.outpath.isSome = true)) := by
  constructor
  · intro opts i hparse hs ho
    have hlen : ¬ argv.length < 2 := by
      intro hlt
      have := flag_loop_short_argv reflection argv opts i hlt hparse
      rw [this] at hs
      cases hs
    unfold main
    simp only [hlen, if_false, hparse]
    rw [if_pos ⟨hs, ho⟩]
    rfl
  · intro run hrun o ho
    unfold main at hrun
    dsimp only at hrun
    split at hrun
    · injection hrun with hrun
      subst hrun
      simp [created_options] at ho
    · split at hrun
      · cases hrun
      · injection hrun with hrun
        subst hrun
        rw [created_options_prints] at ho
        cases ho
      · rename_i opts0 i hparse
        split at hrun
        · injection hrun with hrun
          subst hrun
          rw [created_options_finish] at ho
          simp [created_options] at ho
        · rename_i hconflict
          split at hrun
          · split at hrun
            · injection hrun with hrun
              subst hrun
              rw [created_options_finish] at ho
              simp [created_options] at ho
            · injection hrun with hrun
              subst hrun
              rw [created_options_finish] at ho
              simp only [created_options, List.mem_singleton] at ho
              subst ho
              exact hconflict
          · split at hrun
            · injection hrun with hrun
              subst hrun
              rw [created_options_finish] at ho
              simp [created_options] at ho
            · injection hrun with hrun
              subst hrun
              rw [created_options_finish] at ho
              have hb : (default_reader (set_common_builder opts0)).gen_stdout
                    = opts0.gen_stdout ∧
                  (default_reader (set_common_builder opts0)).outpath = opts0.outpath := by
                unfold default_reader set_common_builder
                split <;> exact ⟨rfl, rfl⟩
              rcases created_options_batch_mem B _ _ _ _ o ho with h | h
              · rw [h, hb.1, hb.2]
                exact hconflict
              · rw [h]
                show ¬ ((default_reader (set_common_builder opts0)).gen_stdout = true ∧
                  (default_reader (set_common_builder opts0)).outpath.isSome = true)
                rw [hb.1, hb.2]
                exact hconflict

/-- Witness for C9: `flatcc -oout --stdout a.fbs`. -/
theorem stdout_with_outpath_is_fatal_witness :
    main true all_calls_succeed (0, 0)
        ["flatcc".toList, "-oout".toList, "--stdout".toList, "a.fbs".toList]
      = some
        { status := -1
          events := [Event.print Stream.stderr Msg.stdout_with_outpath,
                     Event.print Stream.stderr Msg.output_failed] } :=
  (stdout_with_outpath_is_fatal true all_calls_succeed (0, 0)
    ["flatcc".toList, "-oout".toList, "--stdout".toList, "a.fbs".toList]).1
    { flatcc_init_options with outpath := some "out".toList, gen_stdout := true } 3
    (by decide) rfl rfl

/-- C10, as stated, fails: in `flatcc -oa -ob -h` the flag tokens before `-h`
end the run with status -1 before `-h` is read, and in `flatcc -I -h` the token
`-h` is taken as the value of `-I`, so that the run ends with status -1 for want
of a file name; neither prints the help text. -/
theorem help_after_any_flags_counterexample :
    main true all_calls_succeed (0, 0)
        ["flatcc".toList, "-oa".toList, "-ob".toList, "-h".toList]
      = some { status := -1, events := [Event.print Stream.stderr Msg.outpath_once] } ∧
    main true all_calls_succeed (0, 0) ["flatcc".toList, "-I".toList, "-h".toList]
      = some
        { status := -1
          events := [Event.print Stream.stderr Msg.filename_missing,
                     Event.print Stream.stderr Msg.output_failed] } := by
  decide

/-- C10, amended: `-h` and `--help` behave identically whenever the flag loop
reaches them: when the tokens before one of them are all consumed as options
without ending the run, the run prints the help text to standard output and
ends with status 0, whatever those options were and whatever follows. -/
theorem help_when_reached {σ : Type} (reflection : Bool) (B : Backend σ) (st : σ)
    (prog : CStr) (pre post : List CStr) (opts1 : Options) (tok : CStr)
    (hpre : flag_loop reflection (prog :: pre) (prog :: pre).length 1 flatcc_init_options
      = Exec.ret (opts1, (prog :: pre).length))
    (htok : tok = "-h".toList ∨ tok = "--help".toList) :
    main reflection B st (prog :: pre ++ tok :: post)
      = some { status := 0, events := [Event.print Stream.stdout Msg.help] } := by
  have hget : ∀ a, get_opt reflection opts1 tok a
      = Exec.exit 0 [(Stream.stdout, Msg.help)] := by
    intro a
    rcases htok with rfl | rfl <;> rfl
  have hdash : tok.head? = some '-' := by
    rcases htok with rfl | rfl <;> rfl
  have hstep : flag_loop reflection (prog :: pre ++ tok :: post) 1
      (prog :: pre).length opts1 = Exec.exit 0 [(Stream.stdout, Msg.help)] :=
    flag_loop_step_exit reflection _ 0 _ opts1 tok _ _
      (by rw [List.getElem?_append_right (Nat.le_refl _)]; simp) hdash (hget _)
  have hloop := flag_loop_reach reflection prog pre _ post opts1 _ hpre hstep (by simp)
  rw [main_exit reflection B st _ _ _ (by simp; omega) hloop]
  rfl

/-- Witness for the amended C10: `flatcc -c -I inc --help a.fbs`. -/
theorem help_when_reached_witness :
    main true all_calls_succeed (0, 0)
        ["flatcc".toList, "-c".toList, "-I".toList, "inc".toList, "--help".toList,
          "a.fbs".toList]
      = some { status := 0, events := [Event.print Stream.stdout Msg.help] } :=
  help_when_reached true all_calls_succeed (0, 0) "flatcc".toList
    ["-c".toList, "-I".toList, "inc".toList] ["a.fbs".toList]
    { flatcc_init_options with
      cgen_common_reader := true, inpaths := ["inc".toList], inpath_count := 1 }
    "--help".toList (by decide) (Or.inr rfl)

/-- C11: `flatcc` alone prints the usage text and ends with status -1. With at
least one argument, when the flag loop returns with no token left and stdout
mode and output path do not conflict: if common reader is enabled and binary
schema is disabled, the backend `B` is asked for exactly one context, with no
file name, for one generate on the handle it returned, and for the destruction
of that context; parse is never called; the status is 0 exactly when that
generate call of `B` returned 0, and -1 after the closing diagnostic otherwise.
In every other case the run ends with status -1 after its diagnostics and
creates no context. -/
theorem zero_files_common_header_only {σ : Type} (reflection : Bool) (B : Backend σ)
    (st : σ) :
    (∀ prog : CStr, main reflection B st [prog]
      = some { status := -1, events := [Event.print Stream.stderr Msg.usage] }) ∧
    (∀ (argv : List CStr) (opts : Options), 2 ≤ argv.length →
      flag_loop reflection argv argv.length 1 flatcc_init_options
        = Exec.ret (opts, argv.length) →
      ¬ (opts.gen_stdout = true ∧ opts.outpath.isSome = true) →
      (opts.cgen_common_reader = true ∧ opts.bgen_bfbs = false →
        main reflection B st argv = some
          { status :=
              if (B.generate_files (B.create_context (set_common_builder opts) none st).1
                  (B.create_context (set_common_builder opts) none st).2).1 = 0
              then 0 else -1
            events :=
              [Event.create (set_common_builder opts) none
                  (B.create_context (set_common_builder opts) none st).1,
                Event.generate (B.create_context (set_common_builder opts) none st).1
                  (B.generate_files (B.create_context (set_common_builder opts) none st).1
                    (B.create_context (set_common_builder opts) none st).2).1,
                Event.destroy (B.create_context (set_common_builder opts) none st).1]
              ++ (if (B.generate_files (B.create_context (set_common_builder opts) none st).1
                    (B.create_context (set_common_builder opts) none st).2).1 = 0
                  then [] else [Event.print Stream.stderr Msg.output_failed]) } ∧
        ∀ run, main reflection B st argv = some run →
          (run.status = 0 ↔
            (B.generate_files (B.create_context (set_common_builder opts) none st).1
              (B.create_context (set_common_builder opts) none st).2).1 = 0) ∧
          (run.status ≠ 0 → run.status = -1) ∧
          parsed_names run.events = [] ∧ created_names run.events = [none]) ∧
      (¬ (opts.cgen_common_reader = true ∧ opts.bgen_bfbs = false) →
        main reflection B st argv = some
          { status := -1
            events := [Event.print Stream.stderr Msg.filename_missing,
                       Event.print Stream.stderr Msg.output_failed] })) := by
  refine ⟨fun prog => rfl, ?_⟩
  intro argv opts hargc hparse hconflict
  have hlen : ¬ argv.length < 2 := by omega
  constructor
  · rintro ⟨hc, hb⟩
    have hlegal : ¬ ((set_common_builder opts).cgen_common_reader = false ∨
        (set_common_builder opts).bgen_bfbs = true) := by
      simp [set_common_builder, hc, hb]
    have hrun : main reflection B st argv = some
        { status :=
            if (B.generate_files (B.create_context (set_common_builder opts) none st).1
                (B.create_context (set_common_builder opts) none st).2).1 = 0
            then 0 else -1
          events :=
            [Event.create (set_common_builder opts) none
                (B.create_context (set_common_builder opts) none st).1,
              Event.generate (B.create_context (set_common_builder opts) none st).1
                (B.generate_files (B.create_context (set_common_builder opts) none st).1
                  (B.create_context (set_common_builder opts) none st).2).1,
              Event.destroy (B.create_context (set_common_builder opts) none st).1]
            ++ (if (B.generate_files (B.create_context (set_common_builder opts) none st).1
                  (B.create_context (set_common_builder opts) none st).2).1 = 0
                then [] else [Event.print Stream.stderr Msg.output_failed]) } := by
      unfold main
      simp only [hlen, if_false, hparse]
      rw [if_neg hconflict, if_pos trivial, if_neg hlegal]
      simp only [finish]
      by_cases hg : (B.generate_files (B.create_context (set_common_builder opts) none st).1
          (B.create_context (set_common_builder opts) none st).2).1 = 0
      · simp [hg]
      · simp [hg]
    refine ⟨hrun, fun run hr => ?_⟩
    rw [hrun] at hr
    simp only [Option.some.injEq] at hr
    rw [← hr]
    by_cases hg : (B.generate_files (B.create_context (set_common_builder opts) none st).1
        (B.create_context (set_common_builder opts) none st).2).1 = 0
    · simp [hg, parsed_names, created_names]
    · simp [hg, parsed_names, created_names]
  · intro hnot
    have hillegal : (set_common_builder opts).cgen_common_reader = false ∨
        (set_common_builder opts).bgen_bfbs = true := by
      simp only [set_common_builder]
      cases hc : opts.cgen_common_reader <;> cases hb : opts.bgen_bfbs <;> simp_all
    unfold main
    simp only [hlen, if_false, hparse]
    rw [if_neg hconflict, if_pos trivial, if_pos hillegal]
    rfl

/-- Witness for C11: `flatcc -c` runs one context without a file name and ends
with status -1 on a backend whose generate returns 9, with status 0 on a backend
whose generate returns 0; `flatcc -w` ends with status -1 and no context. -/
theorem zero_files_common_header_only_witness :
    main true generate_fails (0, 0) ["flatcc".toList, "-c".toList] = some
      { status := -1
        events :=
          [Event.create { flatcc_init_options with cgen_common_reader := true } none 0,
            Event.generate 0 9, Event.destroy 0,
            Event.print Stream.stderr Msg.output_failed] } ∧
    main true all_calls_succeed (0, 0) ["flatcc".toList, "-c".toList] = some
      { status := 0
        events :=
          [Event.create { flatcc_init_options with cgen_common_reader := true } none 0,
            Event.generate 0 0, Event.destroy 0] } ∧
    main true all_calls_succeed (0, 0) ["flatcc".toList, "-w".toList] = some
      { status := -1
        events := [Event.print Stream.stderr Msg.filename_missing,
                   Event.print Stream.stderr Msg.output_failed] } :=
  ⟨(((zero_files_common_header_only true generate_fails (0, 0)).2
      ["flatcc".toList, "-c".toList] { flatcc_init_options with cgen_common_reader := true }
      (by decide) (by decide) (by decide)).1 ⟨rfl, rfl⟩).1.trans (by decide),
    (((zero_files_common_header_only true all_calls_succeed (0, 0)).2
      ["flatcc".toList, "-c".toList] { flatcc_init_options with cgen_common_reader := true }
      (by decide) (by decide) (by decide)).1 ⟨rfl, rfl⟩).1.trans (by decide),
    ((zero_files_common_header_only true all_calls_succeed (0, 0)).2
      ["flatcc".toList, "-w".toList] { flatcc_init_options with cgen_builder := true }
      (by decide) (by decide) (by decide)).2 (by decide)⟩

/-- C12 at its failing inputs: a single-dash token whose scan comes upon a dash,
a character outside c, w, v, r, a, I, o, h, need not end the run with a non-zero
status. `-c-prefix` followed by `x` is accepted, sets the common reader flag and
the name space prefix `x` and takes `x` as a value, so that
`flatcc -c-prefix x a.fbs` runs to status 0; `flatcc -c-help` prints the help
text and ends with status 0. -/
theorem dash_inside_short_token_not_fatal :
    get_opt true flatcc_init_options "-c-prefix".toList (some "x".toList)
      = Exec.ret ({ flatcc_init_options with
          cgen_common_reader := true, ns := some "x".toList }, 1) ∧
    (main true all_calls_succeed (0, 0)
        ["flatcc".toList, "-c-prefix".toList, "x".toList, "a.fbs".toList]).map
        (fun run => (run.status, (created_options run.events).map (fun o => o.ns)))
      = some (0, [some "x".toList]) ∧
    main true all_calls_succeed (0, 0) ["flatcc".toList, "-c-help".toList]
      = some { status := 0, events := [Event.print Stream.stdout Msg.help] } := by
  decide

/-- C13: for every text, `parse_bool_arg` gives 0 exactly for `0` and `no`, 1
exactly for `1` and `yes`, and -1 exactly for every other text, such as `Yes`,
`true` and the empty text. With binary schema support compiled in,
`--schema-namespace` and `--schema-length`, value inline or in the next token,
store that 0 or 1 in their field, and end the run with status -1 on every other
value. -/
theorem bool_options_accept_four_literals (v : CStr) :
    (parse_bool_arg v = 0 ↔ v = "0".toList ∨ v = "no".toList) ∧
    (parse_bool_arg v = 1 ↔ v = "1".toList ∨ v = "yes".toList) ∧
    (parse_bool_arg v = -1 ↔
      ¬ (v = "0".toList ∨ v = "no".toList ∨ v = "1".toList ∨ v = "yes".toList)) ∧
    (parse_bool_arg "Yes".toList = -1 ∧ parse_bool_arg "true".toList = -1 ∧
      parse_bool_arg [] = -1) ∧
    (∀ (opts : Options) (a : Option CStr),
      get_opt true opts ("--schema-namespace=".toList ++ v) a =
        if parse_bool_arg v = -1 then
          Exec.exit (-1) [(Stream.stderr, Msg.invalid_boolean v)]
        else Exec.ret ({ opts with bgen_qualify_names := parse_bool_arg v }, 0)) ∧
    (∀ opts : Options,
      get_opt true opts "--schema-namespace".toList (some v) =
        if parse_bool_arg v = -1 then
          Exec.exit (-1) [(Stream.stderr, Msg.invalid_boolean v)]
        else Exec.ret ({ opts with bgen_qualify_names := parse_bool_arg v }, 1)) ∧
    (∀ (opts : Options) (a : Option CStr),
      get_opt true opts ("--schema-length=".toList ++ v) a =
        if parse_bool_arg v = -1 then
          Exec.exit (-1) [(Stream.stderr, Msg.invalid_boolean v)]
        else Exec.ret ({ opts with bgen_length_prefix := parse_bool_arg v }, 0)) ∧
    (∀ opts : Options,
      get_opt true opts "--schema-length".toList (some v) =
        if parse_bool_arg v = -1 then
          Exec.exit (-1) [(Stream.stderr, Msg.invalid_boolean v)]
        else Exec.ret ({ opts with bgen_length_prefix := parse_bool_arg v }, 1)) :=
  ⟨(parse_bool_arg_values v).1, (parse_bool_arg_values v).2.1, (parse_bool_arg_values v).2.2,
    by decide,
    fun opts a => (get_opt_schema_namespace opts v).1 a,
    fun opts => (get_opt_schema_namespace opts v).2,
    fun opts a => (get_opt_schema_length opts v).1 a,
    fun opts => (get_opt_schema_length opts v).2⟩

/-- C14 at its failing input: `--verifier`, which the usage text lists, is not
accepted. Whatever the options and the next token, `get_opt` exits on it with
status -1 after the diagnostic for an invalid option, so that
`flatcc --verifier a.fbs` ends with status -1 and creates no context, whereas
`-v` sets the verifier flag and takes no extra token. -/
theorem verifier_long_option_rejected :
    (∀ (reflection : Bool) (opts : Options) (a : Option CStr),
      get_opt reflection opts "--verifier".toList a
        = Exec.exit (-1) [(Stream.stderr, Msg.invalid_option_str "-verifier".toList)]) ∧
    main true all_calls_succeed (0, 0)
        ["flatcc".toList, "--verifier".toList, "a.fbs".toList]
      = some { status := -1
               events := [Event.print Stream.stderr
                 (Msg.invalid_option_str "-verifier".toList)] } ∧
    get_opt true flatcc_init_options "-v".toList none
      = Exec.ret ({ flatcc_init_options with cgen_verifier := true }, 0) := by
  refine ⟨fun reflection opts a => ?_, by decide, by decide⟩
  exact unknown_long_option_fatal reflection opts "verifier".toList a (by decide) (by decide)

/-- C15, as stated, fails: not every surrounding sequence of flags and files
keeps the replacement invisible. In `flatcc -I --json a.fbs` the token `--json`
is the value of `-I`; with `--json-parser --json-printer` in its place the value
is `--json-parser` and `--json-printer` is read as a flag, so that the options
and the runs differ. In `flatcc a.fbs --json` the token is a file name, and the
replacement gives the backend three files in place of two. -/
theorem json_replacement_counterexample :
    flag_loop true ["flatcc".toList, "-I".toList, "--json".toList, "a.fbs".toList] 4 1
        flatcc_init_options
      = Exec.ret ({ flatcc_init_options with
          inpaths := ["--json".toList], inpath_count := 1 }, 3) ∧
    flag_loop true
        ["flatcc".toList, "-I".toList, "--json-parser".toList, "--json-printer".toList,
          "a.fbs".toList] 5 1 flatcc_init_options
      = Exec.ret ({ flatcc_init_options with
          inpaths := ["--json-parser".toList], inpath_count := 1,
          cgen_json_printer := true }, 4) ∧
    main true all_calls_succeed (0, 0)
        ["flatcc".toList, "-I".toList, "--json".toList, "a.fbs".toList]
      ≠ main true all_calls_succeed (0, 0)
        ["flatcc".toList, "-I".toList, "--json-parser".toList, "--json-printer".toList,
          "a.fbs".toList] ∧
    main true all_calls_succeed (0, 0) ["flatcc".toList, "a.fbs".toList, "--json".toList]
      ≠ main true all_calls_succeed (0, 0)
        ["flatcc".toList, "a.fbs".toList, "--json-parser".toList, "--json-printer".toList] := by
  decide

/-- C15, amended: when the tokens before `--json` are all consumed as options
without ending the run, so that `--json` is read as a flag, replacing it by
`--json-parser --json-printer`, in either order, changes nothing: `main` returns
the same status after the same diagnostics and backend calls, for every backend
and whatever follows, and when the flag loop returns it returns the same options,
one index later. -/
theorem json_same_as_parser_and_printer {σ : Type} (reflection : Bool) (B : Backend σ)
    (st : σ) (prog : CStr) (pre post : List CStr) (opts1 : Options)
    (hpre : flag_loop reflection (prog :: pre) (prog :: pre).length 1 flatcc_init_options
      = Exec.ret (opts1, (prog :: pre).length)) :
    main reflection B st (prog :: pre ++ "--json".toList :: post)
      = main reflection B st
        (prog :: pre ++ "--json-parser".toList :: "--json-printer".toList :: post) ∧
    main reflection B st (prog :: pre ++ "--json".toList :: post)
      = main reflection B st
        (prog :: pre ++ "--json-printer".toList :: "--json-parser".toList :: post) ∧
    (∀ o i, flag_loop reflection (prog :: pre ++ "--json".toList :: post)
        (prog :: pre ++ "--json".toList :: post).length 1 flatcc_init_options
          = Exec.ret (o, i) →
      flag_loop reflection
          (prog :: pre ++ "--json-parser".toList :: "--json-printer".toList :: post)
          (prog :: pre ++ "--json-parser".toList :: "--json-printer".toList :: post).length 1
          flatcc_init_options = Exec.ret (o, i + 1) ∧
      flag_loop reflection
          (prog :: pre ++ "--json-printer".toList :: "--json-parser".toList :: post)
          (prog :: pre ++ "--json-printer".toList :: "--json-parser".toList :: post).length 1
          flatcc_init_options = Exec.ret (o, i + 1)) := by
  have hj : ∀ a, get_opt reflection opts1 "--json".toList a
      = Exec.ret ({ opts1 with cgen_json_parser_flag := true, cgen_json_printer := true }, 0) :=
    fun a => (get_opt_json reflection opts1 a).1
  have hp1 : ∀ a, get_opt reflection opts1 "--json-parser".toList a
      = Exec.ret ({ opts1 with cgen_json_parser_flag := true }, 0) :=
    fun a => (get_opt_json reflection opts1 a).2.1
  have hp2 : ∀ a, get_opt reflection { opts1 with cgen_json_parser_flag := true }
      "--json-printer".toList a
      = Exec.ret ({ opts1 with cgen_json_parser_flag := true, cgen_json_printer := true }, 0) :=
    fun a => (get_opt_json reflection _ a).2.2
  have hq1 : ∀ a, get_opt reflection opts1 "--json-printer".toList a
      = Exec.ret ({ opts1 with cgen_json_printer := true }, 0) :=
    fun a => (get_opt_json reflection opts1 a).2.2
  have hq2 : ∀ a, get_opt reflection { opts1 with cgen_json_printer := true }
      "--json-parser".toList a
      = Exec.ret ({ opts1 with cgen_json_parser_flag := true, cgen_json_printer := true }, 0) :=
    fun a => (get_opt_json reflection _ a).2.1
  refine ⟨?_, ?_, fun o i h => ⟨?_, ?_⟩⟩
  · exact main_replace reflection B st (prog :: pre) _ _ _ post opts1 _ _ hpre rfl hj rfl hp1
      rfl hp2
  · exact main_replace reflection B st (prog :: pre) _ _ _ post opts1 _ _ hpre rfl hj rfl hq1
      rfl hq2
  · exact ((flag_loop_replace reflection (prog :: pre) "--json".toList "--json-parser".toList
      "--json-printer".toList post opts1 _ _ hpre rfl hj rfl hp1 rfl hp2).1 o i h).2
  · exact ((flag_loop_replace reflection (prog :: pre) "--json".toList "--json-printer".toList
      "--json-parser".toList post opts1 _ _ hpre rfl hj rfl hq1 rfl hq2).1 o i h).2

/-- Witness for the amended C15: `flatcc -c --json a.fbs` and
`flatcc -c --json-parser --json-printer a.fbs`. -/
theorem json_same_as_parser_and_printer_witness :
    main true all_calls_succeed (0, 0)
        ["flatcc".toList, "-c".toList, "--json".toList, "a.fbs".toList]
      = main true all_calls_succeed (0, 0)
        ["flatcc".toList, "-c".toList, "--json-parser".toList, "--json-printer".toList,
          "a.fbs".toList] :=
  (json_same_as_parser_and_printer true all_calls_succeed (0, 0) "flatcc".toList
    ["-c".toList] ["a.fbs".toList] { flatcc_init_options with cgen_common_reader := true }
    (by decide)).1

/-- C16: when the flags parse, stdout mode and output path do not conflict and
at least one input file is named: if binary schema, stdout mode and one of
builder, verifier, common reader, json parser and json printer are all set, the
run ends with status -1 after its diagnostics and creates no context; otherwise
the batch runs and contexts are created. The reader flag plays no part: the flag
loop leaves it false, and with binary schema set no context is created with
it. -/
theorem mixed_output_rejected_iff {σ : Type} (reflection : Bool) (B : Backend σ) (st : σ)
    (argv : List CStr) (opts : Options) (i : Nat)
    (hparse : flag_loop reflection argv argv.length 1 flatcc_init_options = Exec.ret (opts, i))
    (hconflict : ¬ (opts.gen_stdout = true ∧ opts.outpath.isSome = true))
    (hfile : i < argv.length) :
    (opts.bgen_bfbs = true ∧ opts.gen_stdout = true ∧
        (opts.cgen_builder = true ∨ opts.cgen_verifier = true ∨
          opts.cgen_common_reader = true ∨ opts.cgen_json_parser_flag = true ∨
          opts.cgen_json_printer = true) →
      main reflection B st argv = some
        { status := -1
          events := [Event.print Stream.stderr Msg.mixed_output,
                     Event.print Stream.stderr Msg.output_failed] }) ∧
    (¬ (opts.bgen_bfbs = true ∧ opts.gen_stdout = true ∧
        (opts.cgen_builder = true ∨ opts.cgen_verifier = true ∨
          opts.cgen_common_reader = true ∨ opts.cgen_json_parser_flag = true ∨
          opts.cgen_json_printer = true)) →
      ∃ run, main reflection B st argv = some run ∧
        created_options run.events ≠ [] ∧
        run.events = (finish (batch_loop B st (batch_options opts) 0 (argv.drop i)).1
          (batch_loop B st (batch_options opts) 0 (argv.drop i)).2).events) ∧
    opts.cgen_reader = false ∧
    (opts.bgen_bfbs = true → ∀ run, main reflection B st argv = some run →
      ∀ o ∈ created_options run.events, o.cgen_reader = false) := by
  have hr := flag_loop_cgen_reader reflection argv _ _ _ _ hparse
  have h1 := flag_loop_index_pos reflection argv _ _ _ _ _ hparse
  have hlen : ¬ argv.length < 2 := by omega
  have hi : i ≠ argv.length := by omega
  have hcg := cgen_requested_iff opts hr
  have haccept : ¬ (opts.bgen_bfbs = true ∧ cgen_requested (set_common_builder opts) = true
      ∧ opts.gen_stdout = true) →
      main reflection B st argv = some (finish
        (batch_loop B st (batch_options opts) 0 (argv.drop i)).1
        (batch_loop B st (batch_options opts) 0 (argv.drop i)).2) :=
    fun hm => main_batch reflection B st argv opts i hparse hconflict hfile hm
  obtain ⟨f, rest, hdrop, _⟩ := drop_cons_of_lt argv i hfile
  refine ⟨?_, ?_, hr, ?_⟩
  · rintro ⟨hb, hs, hc⟩
    have hm : (set_common_builder opts).bgen_bfbs = true ∧
        cgen_requested (set_common_builder opts) = true ∧
        (set_common_builder opts).gen_stdout = true := ⟨hb, hcg.mpr hc, hs⟩
    unfold main
    simp only [hlen, if_false, hparse]
    rw [if_neg hconflict, if_neg hi, if_pos hm]
    rfl
  · intro hnot
    have hm : ¬ (opts.bgen_bfbs = true ∧ cgen_requested (set_common_builder opts) = true
        ∧ opts.gen_stdout = true) := fun h => hnot ⟨h.1, h.2.2, hcg.mp h.2.1⟩
    refine ⟨_, haccept hm, ?_, rfl⟩
    rw [created_options_finish, hdrop, created_options_batch]
    exact List.cons_ne_nil _ _
  · intro hb run hrun o ho
    by_cases hm : (opts.bgen_bfbs = true ∧ cgen_requested (set_common_builder opts) = true
        ∧ opts.gen_stdout = true)
    · have hm2 : (set_common_builder opts).bgen_bfbs = true ∧
          cgen_requested (set_common_builder opts) = true ∧
          (set_common_builder opts).gen_stdout = true := hm
      have : main reflection B st argv = some (finish (-1)
          [Event.print Stream.stderr Msg.mixed_output]) := by
        unfold main
        simp only [hlen, if_false, hparse]
        rw [if_neg hconflict, if_neg hi, if_pos hm2]
      rw [this] at hrun
      injection hrun with hrun
      subst hrun
      rw [created_options_finish] at ho
      simp [created_options] at ho
    · rw [haccept hm] at hrun
      injection hrun with hrun
      subst hrun
      rw [created_options_finish] at ho
      have hbr : (batch_options opts).cgen_reader = false := by
        cases hx : (batch_options opts).cgen_reader with
        | false => rfl
        | true =>
          have := (batch_options_cgen_reader opts hr).mp hx
          rw [hb] at this
          exact absurd this.1 (by decide)
      rcases created_options_batch_mem B _ _ _ _ o ho with h | h
      · rw [h]; exact hbr
      · rw [h]; exact hbr

/-- Witness for C16: `flatcc --schema --stdout -v a.fbs` is rejected, and
`flatcc --schema --stdout a.fbs` is accepted. -/
theorem mixed_output_rejected_iff_witness :
    main true all_calls_succeed (0, 0) args_schema_stdout_verifier = some
      { status := -1
        events := [Event.print Stream.stderr Msg.mixed_output,
                   Event.print Stream.stderr Msg.output_failed] } ∧
    ∃ run, main true all_calls_succeed (0, 0) args_schema_stdout = some run ∧
      created_options run.events ≠ [] :=
  ⟨(mixed_output_rejected_iff true all_calls_succeed (0, 0) args_schema_stdout_verifier
      { flatcc_init_options with bgen_bfbs := true, gen_stdout := true, cgen_verifier := true }
      4 (by decide) (by decide) (by decide)).1 (by decide),
    by
      obtain ⟨run, h1, h2, _⟩ := (mixed_output_rejected_iff true all_calls_succeed (0, 0)
        args_schema_stdout
        { flatcc_init_options with bgen_bfbs := true, gen_stdout := true }
        3 (by decide) (by decide) (by decide)).2.1 (by decide)
      exact ⟨run, h1, h2⟩⟩

/-- C17, as stated, fails for three of the six options. A boolean option takes
its value but does not accept it whatever it looks like: on `--schema-length -v`
and on `--schema-length=` (empty inline value) `get_opt` reports no token count,
it ends the run with status -1. `-opath` after an output path was given ends the
run as well. `flatcc --schema-length -v a.fbs` ends with status -1 and no
backend call. -/
theorem value_resolution_counterexample :
    get_opt true flatcc_init_options "--schema-length".toList (some "-v".toList)
      = Exec.exit (-1) [(Stream.stderr, Msg.invalid_boolean "-v".toList)] ∧
    get_opt true flatcc_init_options "--schema-length=".toList (some "a.fbs".toList)
      = Exec.exit (-1) [(Stream.stderr, Msg.invalid_boolean [])] ∧
    get_opt true { flatcc_init_options with outpath := some "a".toList } "-ob".toList
        (some "a.fbs".toList)
      = Exec.exit (-1) [(Stream.stderr, Msg.outpath_once)] ∧
    main true all_calls_succeed (0, 0)
        ["flatcc".toList, "--schema-length".toList, "-v".toList, "a.fbs".toList]
      = some { status := -1
               events := [Event.print Stream.stderr (Msg.invalid_boolean "-v".toList)] } := by
  decide

/-- C17, amended: value resolution is as claimed wherever the option accepts its
value. For `-I`, `--prefix` and `--common-prefix` always; for `-o` when no
output path is set yet (else the run ends with status -1); for
`--schema-namespace` and `--schema-length`, with binary schema support compiled
in, when the value is one of the four boolean literals (else the run ends with
status -1). Suffix form: the value is the rest of the token, 0 extra tokens.
Inline form: the value is the text after the first `=`, possibly empty, 0 extra
tokens. Otherwise the next token is the value, whatever it looks like, 1 extra
token, and the flag loop goes on two tokens further; without a next token the
run ends with status -1. A short flag that takes a value ends the scan of its
token after the niladic flags packed before it have been applied. -/
theorem value_resolution_when_accepted (reflection : Bool) (opts : Options)
    (pack : List Char) (hpack : ∀ c ∈ pack, is_niladic c = true) (v x : CStr) :
    -- `-I`
    (v ≠ [] → ∀ a, get_opt reflection opts (dash (pack ++ 'I' :: v)) a
      = Exec.ret ({ niladic_apply opts pack with
          inpaths := opts.inpaths ++ [v], inpath_count := opts.inpath_count + 1 }, 0)) ∧
    get_opt reflection opts (dash (pack ++ ['I'])) (some x)
      = Exec.ret ({ niladic_apply opts pack with
          inpaths := opts.inpaths ++ [x], inpath_count := opts.inpath_count + 1 }, 1) ∧
    get_opt reflection opts (dash (pack ++ ['I'])) none
      = Exec.exit (-1) [(Stream.stderr, Msg.needs_argument ['-', 'I'])] ∧
    -- `-o`
    (opts.outpath = none →
      (v ≠ [] → ∀ a, get_opt reflection opts (dash (pack ++ 'o' :: v)) a
        = Exec.ret ({ niladic_apply opts pack with outpath := some v }, 0)) ∧
      get_opt reflection opts (dash (pack ++ ['o'])) (some x)
        = Exec.ret ({ niladic_apply opts pack with outpath := some x }, 1) ∧
      get_opt reflection opts (dash (pack ++ ['o'])) none
        = Exec.exit (-1) [(Stream.stderr, Msg.needs_argument ['-', 'o'])]) ∧
    (opts.outpath.isSome = true → ∀ a,
      get_opt reflection opts (dash (pack ++ 'o' :: v)) a
        = Exec.exit (-1) [(Stream.stderr, Msg.outpath_once)]) ∧
    -- `--prefix` and `--common-prefix`
    (∀ a, get_opt reflection opts ("--prefix=".toList ++ v) a
      = Exec.ret ({ opts with ns := some v }, 0)) ∧
    get_opt reflection opts "--prefix".toList (some x)
      = Exec.ret ({ opts with ns := some x }, 1) ∧
    get_opt reflection opts "--prefix".toList none
      = Exec.exit (-1) [(Stream.stderr, Msg.needs_argument "-n".toList)] ∧
    (∀ a, get_opt reflection opts ("--common-prefix=".toList ++ v) a
      = Exec.ret ({ opts with nsc := some v }, 0)) ∧
    get_opt reflection opts "--common-prefix".toList (some x)
      = Exec.ret ({ opts with nsc := some x }, 1) ∧
    get_opt reflection opts "--common-prefix".toList none
      = Exec.exit (-1) [(Stream.stderr, Msg.needs_argument "--common-prefix".toList)] ∧
    -- `--schema-namespace` and `--schema-length`
    (parse_bool_arg v ≠ -1 →
      (∀ a, get_opt true opts ("--schema-namespace=".toList ++ v) a
        = Exec.ret ({ opts with bgen_qualify_names := parse_bool_arg v }, 0)) ∧
      get_opt true opts "--schema-namespace".toList (some v)
        = Exec.ret ({ opts with bgen_qualify_names := parse_bool_arg v }, 1) ∧
      (∀ a, get_opt true opts ("--schema-length=".toList ++ v) a
        = Exec.ret ({ opts with bgen_length_prefix := parse_bool_arg v }, 0)) ∧
      get_opt true opts "--schema-length".toList (some v)
        = Exec.ret ({ opts with bgen_length_prefix := parse_bool_arg v }, 1)) ∧
    (parse_bool_arg v = -1 →
      (∀ a, get_opt true opts ("--schema-namespace=".toList ++ v) a
        = Exec.exit (-1) [(Stream.stderr, Msg.invalid_boolean v)]) ∧
      get_opt true opts "--schema-namespace".toList (some v)
        = Exec.exit (-1) [(Stream.stderr, Msg.invalid_boolean v)] ∧
      (∀ a, get_opt true opts ("--schema-length=".toList ++ v) a
        = Exec.exit (-1) [(Stream.stderr, Msg.invalid_boolean v)]) ∧
      get_opt true opts "--schema-length".toList (some v)
        = Exec.exit (-1) [(Stream.stderr, Msg.invalid_boolean v)]) ∧
    get_opt true opts "--schema-namespace".toList none
      = Exec.exit (-1) [(Stream.stderr, Msg.needs_argument "--schema-namespace".toList)] ∧
    get_opt true opts "--schema-length".toList none
      = Exec.exit (-1) [(Stream.stderr, Msg.needs_argument "--schema-length".toList)] ∧
    -- the flag loop after a value in the next token
    (∀ (argv : List CStr) (fuel i : Nat) (tok : CStr) (opts1 : Options),
      argv[i]? = some tok → tok.head? = some '-' →
      get_opt reflection opts tok argv[i + 1]? = Exec.ret (opts1, 1) →
      (argv[i + 1]?).isSome = true ∧
      flag_loop reflection argv (fuel + 1) i opts
        = flag_loop reflection argv fuel (i + 2) opts1) := by
  have hI := get_opt_I reflection opts pack hpack
  have ho := get_opt_o reflection opts pack hpack
  have hp := get_opt_prefix_option reflection opts
  have hc := get_opt_common_prefix_option reflection opts
  have hn := get_opt_schema_namespace opts v
  have hl := get_opt_schema_length opts v
  have hnv := get_opt_schema_no_value opts
  refine ⟨fun hv a => hI.1 v a hv, hI.2.1 x, hI.2.2,
    fun hnone => ⟨fun hv a => (ho.1 hnone).1 v a hv, (ho.1 hnone).2.1 x, (ho.1 hnone).2.2⟩,
    fun hsome a => ho.2 hsome v a,
    fun a => hp.1 v a, hp.2.1 x, hp.2.2, fun a => hc.1 v a, hc.2.1 x, hc.2.2,
    fun hb => ⟨fun a => ?_, ?_, fun a => ?_, ?_⟩,
    fun hb => ⟨fun a => ?_, ?_, fun a => ?_, ?_⟩, hnv.1, hnv.2, ?_⟩
  · rw [hn.1 a, if_neg hb]
  · rw [hn.2, if_neg hb]
  · rw [hl.1 a, if_neg hb]
  · rw [hl.2, if_neg hb]
  · rw [hn.1 a, if_pos hb]
  · rw [hn.2, if_pos hb]
  · rw [hl.1 a, if_pos hb]
  · rw [hl.2, if_pos hb]
  · intro argv fuel i tok opts1 htok hd hget
    exact ⟨(get_opt_extra reflection opts tok _ opts1 1 hget).2 rfl,
      flag_loop_step reflection argv fuel i opts tok opts1 1 htok hd hget⟩

/-- Witness for the amended C17: `-cIinc`, `-cI` before the token `-x`,
`--prefix=a=b` and `--schema-length` before `yes`. -/
theorem value_resolution_when_accepted_witness :
    get_opt true flatcc_init_options "-cIinc".toList (some "-x".toList)
      = Exec.ret ({ flatcc_init_options with
          cgen_common_reader := true, inpaths := ["inc".toList], inpath_count := 1 }, 0) ∧
    get_opt true flatcc_init_options "-cI".toList (some "-x".toList)
      = Exec.ret ({ flatcc_init_options with
          cgen_common_reader := true, inpaths := ["-x".toList], inpath_count := 1 }, 1) ∧
    get_opt true flatcc_init_options "--prefix=a=b".toList none
      = Exec.ret ({ flatcc_init_options with ns := some "a=b".toList }, 0) ∧
    get_opt true flatcc_init_options "--schema-length".toList (some "yes".toList)
      = Exec.ret ({ flatcc_init_options with bgen_length_prefix := 1 }, 1) :=
  ⟨(value_resolution_when_accepted true flatcc_init_options ['c'] (by decide)
      "inc".toList "-x".toList).1 (by decide) (some "-x".toList),
    (value_resolution_when_accepted true flatcc_init_options ['c'] (by decide)
      "inc".toList "-x".toList).2.1,
    (value_resolution_when_accepted true flatcc_init_options ['c'] (by decide)
      "a=b".toList "-x".toList).2.2.2.2.2.1 none,
    ((value_resolution_when_accepted true flatcc_init_options ['c'] (by decide)
      "yes".toList "-x".toList).2.2.2.2.2.2.2.2.2.2.2.1 (by decide)).2.2.2⟩

/-- C19: in the flag loop of `main`, after the `n + 1`-th token that `get_opt`
has processed, the number of search paths is at most `n + 1`, the number of flag
tokens processed so far; that number is at most the index of the token, which is
below `argc`; so the number of search paths stays below `argc`, the capacity
`main` reserves, and it is the length of the path list. -/
theorem inpath_count_within_capacity (reflection : Bool) (argv : List CStr) (n : Nat)
    (e : Nat × Nat × Options)
    (he : (flag_loop_trace reflection argv argv.length 1 flatcc_init_options)[n]? = some e) :
    e.2.2.inpath_count ≤ n + 1 ∧ n + 1 ≤ e.1 ∧ e.1 < argv.length ∧
      e.2.2.inpath_count < argv.length ∧
      e.2.2.inpaths.length = e.2.2.inpath_count := by
  have hc := flag_loop_trace_counts reflection argv _ _ _ n e he
  have hmem : e ∈ flag_loop_trace reflection argv argv.length 1 flatcc_init_options :=
    List.getElem?_mem he
  have hb := flag_loop_trace_entries reflection argv _ _ _ e hmem
  have hl := flag_loop_trace_preserves reflection
    (fun o => o.inpaths.length = o.inpath_count)
    (fun o s a o1 k hP hs => (set_opt_inpath_count reflection o s a o1 k hs).2 hP)
    argv _ _ flatcc_init_options rfl e hmem
  have h0 : flatcc_init_options.inpath_count = 0 := rfl
  rw [h0] at hc
  refine ⟨by omega, by omega, hb.2.1, by omega, hl⟩

/-- Witness for C19: the second flag token of `flatcc -Ia -cI b x.fbs`. -/
theorem inpath_count_within_capacity_witness :
    (flag_loop_trace true args_two_paths args_two_paths.length 1 flatcc_init_options)[1]?
        = some (2, 1, { flatcc_init_options with
            inpaths := ["a".toList, "b".toList], inpath_count := 2,
            cgen_common_reader := true }) ∧
      (2 : Nat) ≤ 1 + 1 ∧ 1 + 1 ≤ 2 ∧ 2 < args_two_paths.length ∧
      (2 : Nat) < args_two_paths.length ∧
      ["a".toList, "b".toList].length = 2 :=
  ⟨by decide, inpath_count_within_capacity true args_two_paths 1
    (2, 1, { flatcc_init_options with
      inpaths := ["a".toList, "b".toList], inpath_count := 2,
      cgen_common_reader := true }) (by decide)⟩

/-- C20: on an argument vector with at least two entries the flag loop of `main`
ends within its `argc` tests of the loop condition; every token it reads has an
index from 1 to `argc - 1`; `get_opt` reports 0 or 1 extra token, and 1 only
when the token after the one read exists; the indices read increase strictly;
and when the loop returns, its index is at least 1 and at most `argc`, right
after the last token read and the value it took, if any. -/
theorem flag_loop_stays_in_bounds (reflection : Bool) (argv : List CStr)
    (hargc : 2 ≤ argv.length) :
    flag_loop reflection argv argv.length 1 flatcc_init_options ≠ Exec.fuel_out ∧
    (∀ e ∈ flag_loop_trace reflection argv argv.length 1 flatcc_init_options,
      1 ≤ e.1 ∧ e.1 < argv.length ∧ e.2.1 ≤ 1 ∧ (e.2.1 = 1 → e.1 + 1 < argv.length)) ∧
    List.Pairwise (fun x y => x < y)
      ((flag_loop_trace reflection argv argv.length 1 flatcc_init_options).map
        (fun e => e.1)) ∧
    (∀ (opts : Options) (i : Nat),
      flag_loop reflection argv argv.length 1 flatcc_init_options = Exec.ret (opts, i) →
      1 ≤ i ∧ i ≤ argv.length ∧
        ((flag_loop_trace reflection argv argv.length 1 flatcc_init_options = [] ∧ i = 1) ∨
          ∃ e, (flag_loop_trace reflection argv argv.length 1
              flatcc_init_options).getLast? = some e ∧ i = e.1 + e.2.1 + 1)) ∧
    (∀ (opts : Options) (s : CStr) (a : Option CStr) (opts1 : Options) (k : Nat),
      get_opt reflection opts s a = Exec.ret (opts1, k) →
      k ≤ 1 ∧ (k = 1 → a.isSome = true)) := by
  refine ⟨flag_loop_enough_fuel reflection argv _ _ _ (by omega) (by omega), ?_,
    flag_loop_trace_increasing reflection argv _ _ _, ?_,
    fun opts s a opts1 k h => get_opt_extra reflection opts s a opts1 k h⟩
  · intro e he
    have := flag_loop_trace_entries reflection argv _ _ _ e he
    exact ⟨this.1, this.2.1, this.2.2.2.1, this.2.2.2.2⟩
  · intro opts i h
    refine ⟨flag_loop_index_pos reflection argv _ _ _ _ _ h,
      (flag_loop_index_le reflection argv _ _ _ _ _ h (by omega)).1, ?_⟩
    rcases flag_loop_trace_last reflection argv _ _ _ _ _ h with ⟨hnil, _, hi⟩ | ⟨e, he, _, hi⟩
    · exact Or.inl ⟨hnil, hi⟩
    · exact Or.inr ⟨e, he, hi⟩

/-- Witness for C20: `flatcc -Ia -cI b x.fbs`, whose flag loop reads the tokens
1 and 2, takes token 3 as a value and returns at index 4. -/
theorem flag_loop_stays_in_bounds_witness :
    (flag_loop_trace true args_two_paths args_two_paths.length 1 flatcc_init_options).map
        (fun e => (e.1, e.2.1)) = [(1, 0), (2, 1)] ∧
      flag_loop true args_two_paths args_two_paths.length 1 flatcc_init_options
        ≠ Exec.fuel_out ∧
      List.Pairwise (fun x y => x < y)
        ((flag_loop_trace true args_two_paths args_two_paths.length 1
          flatcc_init_options).map (fun e => e.1)) :=
  ⟨by decide,
    (flag_loop_stays_in_bounds true args_two_paths (by decide)).1,
    (flag_loop_stays_in_bounds true args_two_paths (by decide)).2.2.1⟩

end Flatcc
